import Mathlib

/-!
# csvp: format-driven CSV record decoder (src/csvp.h)

A shallow embedding of the single-header C library `csvp.h` and theorems about it.

Conventions of the embedding.

* A byte is a `Nat`.  A NUL-terminated C buffer is the list of the bytes that
  precede its terminator: reading at (or, in the model, after) the length of
  the list yields the terminating NUL.  A pointer `buffer + i` is `buffer.drop i`.
* `size_t` is 64 bits wide, `int` is 32 bits wide (two's complement); the
  conversions between them that the source performs are written out.
* `double` is IEEE 754 binary64; a decimal text is converted to the nearest
  `double`, ties to the even mantissa.
* `FILE *` is the list of the bytes not yet read; `fgetc` takes the head and
  yields `EOF` on the empty list.
* A function returns `none` when the C function does not return normally:
  an `assert` of the (enabled) `CSVP_DEBUG` build fails, an array is indexed
  outside its bounds, or a loop never ends.
* Memory allocation is taken to succeed.
-/

namespace Csvp

/-! ## Bytes and machine integers -/

/-- The bytes of a string literal. -/
def bytes (s : String) : List Nat := s.toList.map Char.toNat

/-- The read `buffer[i]`. -/
def rd (buffer : List Nat) (i : Nat) : Nat := buffer.getD i 0

/-- Number of values of a `size_t`. -/
def SIZE_RANGE : Nat := 2 ^ 64

/-- Conversion of a `size_t` to `int` (the low 32 bits, two's complement). -/
def int_of_size (n : Nat) : Int :=
  if n % 2 ^ 32 < 2 ^ 31 then ((n % 2 ^ 32 : Nat) : Int) else ((n % 2 ^ 32 : Nat) : Int) - 2 ^ 32

/-- Conversion of an `int` (or `ssize_t`) to `size_t`. -/
def size_of_int (z : Int) : Nat := (z % (2 ^ 64 : Int)).toNat

/-- The `size_t` difference `a - b`, which wraps around below zero. -/
def size_sub (a b : Nat) : Nat := (a % SIZE_RANGE + SIZE_RANGE - b % SIZE_RANGE) % SIZE_RANGE

/-- The index at which the loop `while (p (buffer[i])) i++;` stops.  Every loop
condition of this shape in the source is false on NUL, so the loop stops at the
terminator at the latest. -/
def scan_while (p : Nat → Bool) (buffer : List Nat) (i : Nat) : Nat :=
  i + ((buffer.drop i).takeWhile p).length

/-- The test `c >= '0' && c <= '9'`. -/
def is_digit (c : Nat) : Bool := 48 ≤ c && c ≤ 57

/-! ## The C type `double` -/

/-- A value of the C type `double` (IEEE 754 binary64): the finite number
`± m · 2 ^ e` with `m < 2 ^ 53` and `-1074 ≤ e ≤ 971` (and `2 ^ 52 ≤ m` unless
`e = -1074`), an infinity, or not a number. -/
inductive double where
  | finite (neg : Bool) (m : Nat) (e : Int)
  | inf (neg : Bool)
  | nan
deriving DecidableEq, Repr

/-- The `double` +0.0. -/
def double.zero : double := .finite false 0 (-1074)

instance : OfNat double 0 := ⟨double.zero⟩

/-- The number that a finite `double` is. -/
def double.value : double → Option ℚ
  | .finite neg m e => some ((if neg then -1 else 1) * (m : ℚ) * (2 : ℚ) ^ e)
  | _ => none

/-- The integer part of the binary logarithm of `n ≥ 1`; `fuel` bounds the
halvings. -/
def log2_floor : Nat → Nat → Nat
  | 0, _ => 0
  | fuel + 1, n => if 2 ≤ n then log2_floor fuel (n / 2) + 1 else 0

/-- The integer part of the binary logarithm of the fraction `n / d`, for
`n, d ≥ 1`: the fraction lies between `2 ^ (a - b - 1)` and `2 ^ (a - b + 1)`,
with `a` and `b` the logarithms of `n` and `d`. -/
def ratio_exponent (n d : Nat) : Int :=
  let a := log2_floor n n
  let b := log2_floor d d
  if b ≤ a then
    if d * 2 ^ (a - b) ≤ n then ((a - b : Nat) : Int) else ((a - b : Nat) : Int) - 1
  else
    if d ≤ n * 2 ^ (b - a) then - ((b - a : Nat) : Int) else - ((b - a : Nat) : Int) - 1

/-- The fraction `n / d` rounded to the nearest integer, a tie to the even one. -/
def round_half_even (n d : Nat) : Nat :=
  if d < 2 * (n % d) || (2 * (n % d) == d && n / d % 2 == 1) then n / d + 1 else n / d

/-- The fraction `n / d` rounded to the nearest `double` (ties to the even
mantissa), with the sign `neg`: the exponent is that of a 53-bit mantissa, but
not below -1074 (subnormal numbers); beyond the largest finite `double` the
result is an infinity. -/
def round_ratio (neg : Bool) (n d : Nat) : double :=
  if n = 0 then .finite neg 0 (-1074)
  else
    let e := max (ratio_exponent n d - 52) (-1074)
    let m := if 0 ≤ e then round_half_even n (d * 2 ^ e.toNat)
             else round_half_even (n * 2 ^ (-e).toNat) d
    let e := if m = 2 ^ 53 then e + 1 else e
    let m := if m = 2 ^ 53 then 2 ^ 52 else m
    if 971 < e then .inf neg else .finite neg m e

/-- The number `q ≥ 0` rounded to the nearest `double`, with the sign `neg`. -/
def round_double (neg : Bool) (q : ℚ) : double := round_ratio neg q.num.natAbs q.den

/-! ## The C library functions `atoi` and `atof` -/

/-- The `isspace` of the "C" locale: space, `\t`, `\n`, `\v`, `\f`, `\r`. -/
def isspace (c : Nat) : Bool := c == 32 || (9 ≤ c && c ≤ 13)

/-- The number written by a run of decimal digits (0 for the empty run). -/
def digits_value (ds : List Nat) : Nat := ds.foldl (fun a c => 10 * a + (c - 48)) 0

/-- Library function `atoi`, which is `(int) strtol (s, NULL, 10)`: white space
is skipped, then an optional sign and the longest run of decimal digits are
read; with no digit the result is 0.  Where ISO C leaves the result undefined
(the value does not fit) the model follows glibc: `strtol` saturates at the
bounds of `long` and the conversion to `int` keeps the low 32 bits. -/
def atoi (s : List Nat) : Int :=
  let s := s.dropWhile isspace
  let neg := s.head? == some 45
  let s := if s.head? == some 45 || s.head? == some 43 then s.tail else s
  let v : Int := (digits_value (s.takeWhile is_digit) : Nat)
  let v : Int := if neg then - v else v
  let v : Int := max (-(2 ^ 63)) (min (2 ^ 63 - 1) v)
  (v + 2 ^ 31) % 2 ^ 32 - 2 ^ 31

/-- Library function `atof`, which is `strtod (s, NULL)`, for the decimal form
without exponent in the "C" locale: white space is skipped, then an optional
sign, a run of digits and optionally a `.` followed by a run of digits are read;
with no digit at all no conversion is performed and the result is +0.0.
Otherwise the result is the `double` nearest to the decimal number read (glibc
rounds correctly), with its sign, an infinity when it is too large.  The other
forms of `strtod` (exponent, hexadecimal, `inf`, `nan`) need a letter and are
not modelled. -/
def atof (s : List Nat) : double :=
  let s := s.dropWhile isspace
  let neg := s.head? == some 45
  let s := if s.head? == some 45 || s.head? == some 43 then s.tail else s
  let ip := s.takeWhile is_digit
  let s := s.dropWhile is_digit
  let fp := if s.head? == some 46 then s.tail.takeWhile is_digit else []
  if ip.isEmpty && fp.isEmpty then double.zero
  else round_double neg (mkRat (digits_value (ip ++ fp) : Nat) (10 ^ fp.length))

/-! ## Data model -/

/-- The `csvp_string_t` of the source.  `data` holds the bytes of the allocated
block that have been stored so far (from its start); the bytes the allocator
leaves indeterminate are not represented. -/
structure csvp_string_t where
  data : List Nat
  size : Nat
  capacity : Nat
deriving DecidableEq, Repr

/-- The enumeration `csvp_type_t`. -/
inductive csvp_type_t where
  | CSVP_INTEGER_TYPE
  | CSVP_FLOAT_TYPE
  | CSVP_STRING_TYPE
deriving DecidableEq, Repr

/-- The tagged union `csvp_entry_t`: the tag `type` and the active member of the
anonymous union are one constructor, so the tag always names the member that is
in use, which is what every `csvp_write_*` asserts. -/
inductive csvp_entry_t where
  | v_int (n : Int)
  | v_float (x : double)
  | v_string (s : csvp_string_t)
deriving DecidableEq

/-- The field `entry->type`. -/
def csvp_entry_t.type : csvp_entry_t → csvp_type_t
  | .v_int _ => .CSVP_INTEGER_TYPE
  | .v_float _ => .CSVP_FLOAT_TYPE
  | .v_string _ => .CSVP_STRING_TYPE

/-- The `csvp_record_t` of the source: the array `entries` and its length `size`. -/
structure csvp_record_t where
  size : Nat
  entries : List csvp_entry_t
deriving DecidableEq

/-! ## String buffer -/

/-- `CSVP_STRING_DEFAULT_CAPACITY`. -/
def CSVP_STRING_DEFAULT_CAPACITY : Nat := 8

/-- `csvp_string_init`: a block of the default capacity, none of its bytes stored yet. -/
def csvp_string_init : csvp_string_t :=
  { data := [], size := 0, capacity := CSVP_STRING_DEFAULT_CAPACITY }

/-- The loop `while (str->capacity <= data_len) str->capacity *= 2;` of
`csvp_string_write`, the product taken in `size_t`.  After 64 doublings the
capacity is 0 and stays 0, so 65 tests decide whether the loop ends. -/
def csvp_string_grow (data_len : Nat) : Nat → Nat → Option Nat
  | 0, _ => none
  | fuel + 1, capacity =>
    if capacity ≤ data_len then csvp_string_grow data_len fuel (capacity * 2 % SIZE_RANGE)
    else some capacity

/-- `csvp_string_write`: returns the string and the `int` result. -/
def csvp_string_write (str : csvp_string_t) (data : List Nat) (data_len : Nat) :
    Option (csvp_string_t × Int) :=
  if str.capacity = 0 then none
  else if data_len = 0 then some (str, 0)
  else
    match csvp_string_grow data_len 65 str.capacity with
    | none => none
    | some capacity =>
      some ({ str with
                data := data.take data_len ++ 0 :: str.data.drop (data_len + 1)
                capacity := capacity },
            int_of_size data_len)

/-! ## Field classifier -/

/-- `csvp_skip_whitespace`. -/
def csvp_skip_whitespace (buffer : List Nat) (buffer_len : Nat) : Int :=
  int_of_size ((buffer.take buffer_len).takeWhile (fun c => c != 0 && c == 32)).length

/-- The loop of `csvp_check_match`: `fuel` bounds the iterations left. -/
def csvp_check_match_loop (desc rest : List Nat) (rest_size : Nat) : Nat → Nat → Nat
  | 0, i => i
  | fuel + 1, i =>
    if i < rest_size && rd desc i != 0 && rd desc i == rd rest i then
      csvp_check_match_loop desc rest rest_size fuel (i + 1)
    else i

/-- `csvp_check_match`. -/
def csvp_check_match (desc rest : List Nat) (rest_size : Nat) : Bool :=
  csvp_check_match_loop desc rest rest_size rest_size 0 == rest_size

/-- `csvp_check_integer`. -/
def csvp_check_integer (buffer : List Nat) (buffer_len : Nat) : Bool :=
  let i := size_of_int (csvp_skip_whitespace buffer buffer_len)
  let c := rd buffer i
  if c == 44 || c == 0 then true
  else if is_digit c || c == 45 then
    let i := if c == 45 then i + 1 else i
    let i := scan_while is_digit buffer i
    let i := (i + size_of_int (csvp_skip_whitespace (buffer.drop i) (size_sub buffer_len i)))
              % SIZE_RANGE
    let c := rd buffer i
    c == 0 || c == 44
  else false

/-- The index at which `while ((c = buffer[i]) >= '0' && c <= '9' && i < buffer_len) i++;`
stops. -/
def scan_digits_bounded (buffer : List Nat) (buffer_len : Nat) (i : Nat) : Nat :=
  i + (((buffer.take buffer_len).drop i).takeWhile is_digit).length

/-- `csvp_check_float`. -/
def csvp_check_float (buffer : List Nat) (buffer_len : Nat) : Bool :=
  let i := size_of_int (csvp_skip_whitespace buffer buffer_len)
  let c := rd buffer i
  if c == 44 || c == 0 then true
  else if is_digit c || c == 46 || c == 45 then
    let i := if c == 46 || c == 45 then i + 1 else i
    let i := scan_digits_bounded buffer buffer_len i
    let c := rd buffer i
    if c == 46 then
      let i := i + 1
      let i := scan_digits_bounded buffer buffer_len i
      let c := rd buffer i
      c == 44 || c == 0
    else c == 44 || c == 0
  else false

/-! ## Field coercer -/

/-- The value of `i` after
`for (i = 0; i < buffer_len && (c = buffer[i]) != '\0' && c != ','; i++);`,
the loop that ends each `csvp_write_*`. -/
def field_end (buffer : List Nat) (buffer_len : Nat) : Nat :=
  ((buffer.take buffer_len).takeWhile (fun c => c != 0 && c != 44)).length

/-- `csvp_write_integer`: the entry and the `int` result; `none` when the
assertion on the entry's type fails. -/
def csvp_write_integer (entry : csvp_entry_t) (buffer : List Nat) (buffer_len : Nat) :
    Option (csvp_entry_t × Int) :=
  match entry with
  | .v_int _ => some (.v_int (atoi buffer), int_of_size (field_end buffer buffer_len))
  | _ => none

/-- `csvp_write_float`. -/
def csvp_write_float (entry : csvp_entry_t) (buffer : List Nat) (buffer_len : Nat) :
    Option (csvp_entry_t × Int) :=
  match entry with
  | .v_float _ => some (.v_float (atof buffer), int_of_size (field_end buffer buffer_len))
  | _ => none

/-- `csvp_write_string`; the result of `csvp_string_write` is not looked at. -/
def csvp_write_string (entry : csvp_entry_t) (buffer : List Nat) (buffer_len : Nat) :
    Option (csvp_entry_t × Int) :=
  match entry with
  | .v_string s =>
    let i := field_end buffer buffer_len
    match csvp_string_write s buffer i with
    | some (s', _) => some (.v_string s', int_of_size i)
    | none => none
  | _ => none

/-! ## Format compiler -/

/-- `RECORD_BUFSIZE`. -/
def RECORD_BUFSIZE : Nat := 1024

/-- `MAX_ENTRIES`. -/
def MAX_ENTRIES : Nat := 100

/-- The `switch (c)` of `csvp_create_format`: the type of the token that starts
at `desc[i]` with the byte `c`. -/
def csvp_create_format_switch (desc : List Nat) (i c : Nat) : csvp_type_t :=
  if c == 115 then .CSVP_STRING_TYPE
  else if c == 105 then
    if csvp_check_match (desc.drop (i + 1)) (bytes "nteger") 6 then .CSVP_INTEGER_TYPE
    else .CSVP_STRING_TYPE
  else if c == 102 then
    if csvp_check_match (desc.drop (i + 1)) (bytes "loat") 4 then .CSVP_FLOAT_TYPE
    else .CSVP_STRING_TYPE
  else .CSVP_STRING_TYPE

/-- The `for` loop of `csvp_create_format`; `types` is the filled part of the
array `types`, whose length is `record->size`.  `none` when `fuel` runs out. -/
def csvp_create_format_loop (desc : List Nat) :
    Nat → Nat → List csvp_type_t → Option (List csvp_type_t)
  | 0, _, _ => none
  | fuel + 1, i, types =>
    if rd desc i != 0 && types.length < MAX_ENTRIES then
      let i := scan_while (fun c => c == 44 || c == 32) desc i
      let c := rd desc i
      if c == 0 then some types
      else
        let types := types ++ [csvp_create_format_switch desc i c]
        let i := scan_while (fun c => c != 44 && c != 0) desc i
        let c := rd desc i
        if c == 0 then some types
        else csvp_create_format_loop desc fuel (i + 1) types
    else some types

/-- The entry `csvp_create_format` sets up for a type.  The members it leaves
indeterminate (the number of an integer or float entry) are given as 0. -/
def csvp_entry_init : csvp_type_t → csvp_entry_t
  | .CSVP_INTEGER_TYPE => .v_int 0
  | .CSVP_FLOAT_TYPE => .v_float 0
  | .CSVP_STRING_TYPE => .v_string csvp_string_init

/-- `csvp_create_format`: `some none` is the result `NULL`, `some (some r)` the
record `r`; `none` when the loop does not end.  Each iteration of the loop moves
past at least one byte of the descriptor, which bounds the iterations. -/
def csvp_create_format (desc : List Nat) : Option (Option csvp_record_t) :=
  match csvp_create_format_loop desc (desc.length + 1) 0 [] with
  | none => none
  | some types =>
    if types.length ≤ 0 then some none
    else some (some { size := types.length, entries := types.map csvp_entry_init })

/-! ## Record decoder -/

/-- The loop of `csvp_getline`: `room` is `buffer_size - 1 - i`; returns the
bytes stored in the buffer and the stream that is left. -/
def csvp_getline_loop : Nat → List Nat → List Nat × List Nat
  | 0, fd => ([], fd)
  | _ + 1, [] => ([], [])
  | room + 1, c :: fd =>
    if c == 0 || c == 10 then ([], fd)
    else ((c :: (csvp_getline_loop room fd).1), (csvp_getline_loop room fd).2)

/-- `csvp_getline`: the buffer, the result and the stream that is left. -/
def csvp_getline (buffer_size : Nat) (fd : List Nat) : Option (List Nat × Nat × List Nat) :=
  if buffer_size = 0 then none
  else
    some ((csvp_getline_loop (buffer_size - 1) fd).1,
          (csvp_getline_loop (buffer_size - 1) fd).1.length,
          (csvp_getline_loop (buffer_size - 1) fd).2)

/-- The `switch` of `csvp_next_record` on the entry at `idx`, for the field that
starts at `buffer[i]`: the record and the next `idx`. -/
def csvp_next_record_switch (buffer : List Nat) (buffer_size i idx : Nat)
    (record : csvp_record_t) : Option (csvp_record_t × Nat) :=
  match record.entries[idx]? with
  | none => none
  | some (.v_int n) =>
    if csvp_check_integer (buffer.drop i) (size_sub buffer_size i) then
      match csvp_write_integer (.v_int n) (buffer.drop i) (size_sub buffer_size i) with
      | some (e, _) => some ({ record with entries := record.entries.set idx e }, idx + 1)
      | none => none
    else some (record, 0)
  | some (.v_float q) =>
    if csvp_check_float (buffer.drop i) (size_sub buffer_size i) then
      match csvp_write_float (.v_float q) (buffer.drop i) (size_sub buffer_size i) with
      | some (e, _) => some ({ record with entries := record.entries.set idx e }, idx + 1)
      | none => none
    else some (record, 0)
  | some (.v_string s) =>
    match csvp_write_string (.v_string s) (buffer.drop i) (size_sub buffer_size i) with
    | some (e, _) => some ({ record with entries := record.entries.set idx e }, idx + 1)
    | none => none

/-- The `for` loop of `csvp_next_record`.  `none` when `fuel` runs out. -/
def csvp_next_record_loop (buffer : List Nat) (buffer_size : Nat) :
    Nat → Nat → Nat → csvp_record_t → Option csvp_record_t
  | 0, _, _, _ => none
  | fuel + 1, i, idx, record =>
    if rd buffer i != 0 && rd buffer i != 10 && idx < record.size then
      let i := scan_while (fun c => c == 32) buffer i
      let c := rd buffer i
      if c == 0 || c == 10 then some record
      else
        match csvp_next_record_switch buffer buffer_size i idx record with
        | none => none
        | some (record, idx) =>
          let i := scan_while (fun c => c != 44 && c != 0) buffer i
          let c := rd buffer i
          if c == 0 then some record
          else csvp_next_record_loop buffer buffer_size fuel (i + 1) idx record
    else some record

/-- `csvp_next_record`: the stream that is left, the record and the `int` result.
Each iteration of the loop moves past at least one byte of the line buffer, so
`RECORD_BUFSIZE` iterations are more than the loop can make. -/
def csvp_next_record (fd : List Nat) (record : csvp_record_t) :
    Option (List Nat × csvp_record_t × Int) :=
  match csvp_getline RECORD_BUFSIZE fd with
  | none => none
  | some (buffer, buffer_size, fd) =>
    match csvp_next_record_loop buffer buffer_size RECORD_BUFSIZE 0 0 record with
    | none => none
    | some record => some (fd, record, int_of_size buffer_size)



/-! ## The diagnostic log (the `CSVP_DEBUG` build) -/

/-- `CSVP_LOG_MESSAGE_CAPACITY`. -/
def CSVP_LOG_MESSAGE_CAPACITY : Nat := 256

/-- `CSVP_LOG_STACK_CAPACITY`. -/
def CSVP_LOG_STACK_CAPACITY : Nat := 20

/-- The static variables of the log: the array `csvp_log_stack`, each of its
`CSVP_LOG_STACK_CAPACITY` rows given as the C string it holds (the bytes before
its first NUL), and the two `int` counters. -/
structure csvp_log_t where
  csvp_log_stack : List (List Nat)
  csvp_log_stack_ptr : Int
  csvp_log_stack_size : Int
deriving DecidableEq

/-- The initial values of the static variables: every row zeroed, both counters 0. -/
def csvp_log_init : csvp_log_t :=
  { csvp_log_stack := List.replicate CSVP_LOG_STACK_CAPACITY [],
    csvp_log_stack_ptr := 0, csvp_log_stack_size := 0 }

/-- `csvp_log_empty`. -/
def csvp_log_empty (log : csvp_log_t) : Bool := log.csvp_log_stack_size == 0

/-- `csvp_log_full`: the size is compared with `CSVP_LOG_MESSAGE_CAPACITY`. -/
def csvp_log_full (log : csvp_log_t) : Bool :=
  log.csvp_log_stack_size == (CSVP_LOG_MESSAGE_CAPACITY : Int)

/-- `csvp_log_push_message` (the arguments `file` and `line` are not used): the
first `CSVP_LOG_MESSAGE_CAPACITY - 1` bytes of the message at most are copied
into the row at `csvp_log_stack_ptr`, which then moves on, modulo
`CSVP_LOG_STACK_CAPACITY`.  `none` when the row is outside the array. -/
def csvp_log_push_message (log : csvp_log_t) (msg : List Nat) : Option csvp_log_t :=
  let size := if !csvp_log_full log then log.csvp_log_stack_size + 1 else log.csvp_log_stack_size
  if 0 ≤ log.csvp_log_stack_ptr ∧ log.csvp_log_stack_ptr < (CSVP_LOG_STACK_CAPACITY : Int) then
    some { csvp_log_stack :=
             log.csvp_log_stack.set log.csvp_log_stack_ptr.toNat
               ((msg.takeWhile (fun c => c != 0)).take (CSVP_LOG_MESSAGE_CAPACITY - 1))
           csvp_log_stack_ptr := (log.csvp_log_stack_ptr + 1) % (CSVP_LOG_STACK_CAPACITY : Int)
           csvp_log_stack_size := size }
  else none

/-- `csvp_log_pop_message`: the log and the result, `none` for `NULL`. -/
def csvp_log_pop_message (log : csvp_log_t) : Option (csvp_log_t × Option (List Nat)) :=
  if csvp_log_empty log then some (log, none)
  else
    let ptr := log.csvp_log_stack_ptr - 1
    let size := log.csvp_log_stack_size - 1
    let ptr := if ptr < 0 then ptr + (CSVP_LOG_STACK_CAPACITY : Int) else ptr
    if 0 ≤ ptr then
      match log.csvp_log_stack[ptr.toNat]? with
      | some row =>
        some ({ log with csvp_log_stack_ptr := ptr, csvp_log_stack_size := size }, some row)
      | none => none
    else none

/-- `csvp_log_get_message`. -/
def csvp_log_get_message (log : csvp_log_t) : Option (csvp_log_t × Option (List Nat)) :=
  csvp_log_pop_message log

/-- `csvp_log_had_error`. -/
def csvp_log_had_error (log : csvp_log_t) : Bool := !csvp_log_empty log

/-- The log after the messages have been pushed, first to last. -/
def csvp_log_push_all : csvp_log_t → List (List Nat) → Option csvp_log_t
  | log, [] => some log
  | log, msg :: msgs =>
    match csvp_log_push_message log msg with
    | some log => csvp_log_push_all log msgs
    | none => none

/-- The log after `n` calls of `csvp_log_get_message` and their results, first
to last. -/
def csvp_log_poll : Nat → csvp_log_t → Option (csvp_log_t × List (Option (List Nat)))
  | 0, log => some (log, [])
  | n + 1, log =>
    match csvp_log_get_message log with
    | some (log, res) =>
      match csvp_log_poll n log with
      | some (log, results) => some (log, res :: results)
      | none => none
    | none => none

/-! ## The indices the decoder reads

For each function that the decode loop calls, the list of the indices of its
argument `buffer` at which it reads a byte, in the order of the source; for the
loop itself, those indices of the line buffer and the indices of
`record->entries` that it reads or writes. -/

/-- The indices `i, ..., j`: what a loop `while (p (buffer[i])) i++;` reads when
it starts at `i` and stops at `j`. -/
def scan_reads (i j : Nat) : List Nat := List.range' i (j + 1 - i)

/-- The indices `0, ..., n` read by a loop
`for (i = 0; i < buffer_len && p (buffer[i]); i++);` that stops at `n`: the byte at
`n` is read only when `n < buffer_len`. -/
def guarded_reads (n buffer_len : Nat) : List Nat :=
  List.range (if n < buffer_len then n + 1 else n)

/-- The indices read by `csvp_skip_whitespace`. -/
def csvp_skip_whitespace_reads (buffer : List Nat) (buffer_len : Nat) : List Nat :=
  guarded_reads ((buffer.take buffer_len).takeWhile (fun c => c != 0 && c == 32)).length
    buffer_len

/-- The indices read by `csvp_check_integer`: those of the first
`csvp_skip_whitespace`, `c = buffer[i]`, the loop over the digits, the second
`csvp_skip_whitespace` (on `buffer + i`) and the last `c = buffer[i]`. -/
def csvp_check_integer_reads (buffer : List Nat) (buffer_len : Nat) : List Nat :=
  let i := size_of_int (csvp_skip_whitespace buffer buffer_len)
  let reads := csvp_skip_whitespace_reads buffer buffer_len ++ [i]
  let c := rd buffer i
  if c == 44 || c == 0 then reads
  else if is_digit c || c == 45 then
    let i := if c == 45 then i + 1 else i
    let j := scan_while is_digit buffer i
    let reads := reads ++ scan_reads i j ++
      (csvp_skip_whitespace_reads (buffer.drop j) (size_sub buffer_len j)).map (fun x => j + x)
    let i := (j + size_of_int (csvp_skip_whitespace (buffer.drop j) (size_sub buffer_len j)))
              % SIZE_RANGE
    reads ++ [i]
  else reads

/-- The indices read by `csvp_check_float`: those of `csvp_skip_whitespace`,
`c = buffer[i]` and the one or two loops over digits, each of which reads
`buffer[i]` before it tests `i < buffer_len`. -/
def csvp_check_float_reads (buffer : List Nat) (buffer_len : Nat) : List Nat :=
  let i := size_of_int (csvp_skip_whitespace buffer buffer_len)
  let reads := csvp_skip_whitespace_reads buffer buffer_len ++ [i]
  let c := rd buffer i
  if c == 44 || c == 0 then reads
  else if is_digit c || c == 46 || c == 45 then
    let i := if c == 46 || c == 45 then i + 1 else i
    let j := scan_digits_bounded buffer buffer_len i
    let reads := reads ++ scan_reads i j
    let c := rd buffer j
    if c == 46 then
      reads ++ scan_reads (j + 1) (scan_digits_bounded buffer buffer_len (j + 1))
    else reads
  else reads

/-- The indices read by the library function `atoi`: from the start of the
string to the first byte that is not part of the number, which is made of white
space, an optional sign and digits. -/
def atoi_reads (s : List Nat) : List Nat :=
  let spaces := (s.takeWhile isspace).length
  let t := s.dropWhile isspace
  let sign := if t.head? == some 45 || t.head? == some 43 then 1 else 0
  let u := if t.head? == some 45 || t.head? == some 43 then t.tail else t
  let digits := (u.takeWhile is_digit).length
  List.range (spaces + sign + digits + 1)

/-- The indices read by the library function `atof`, for the decimal form it is
modelled for: from the start of the string to the first byte that is not part of
the number, which is made of white space, an optional sign, digits and
optionally a `.` followed by digits. -/
def atof_reads (s : List Nat) : List Nat :=
  let spaces := (s.takeWhile isspace).length
  let t := s.dropWhile isspace
  let sign := if t.head? == some 45 || t.head? == some 43 then 1 else 0
  let u := if t.head? == some 45 || t.head? == some 43 then t.tail else t
  let digits := (u.takeWhile is_digit).length
  let v := u.dropWhile is_digit
  let fraction := if v.head? == some 46 then 1 + (v.tail.takeWhile is_digit).length else 0
  List.range (spaces + sign + digits + fraction + 1)

/-- The indices read by the loop that ends each `csvp_write_*`. -/
def field_end_reads (buffer : List Nat) (buffer_len : Nat) : List Nat :=
  guarded_reads (field_end buffer buffer_len) buffer_len

/-- The indices read by `csvp_write_integer`. -/
def csvp_write_integer_reads (buffer : List Nat) (buffer_len : Nat) : List Nat :=
  atoi_reads buffer ++ field_end_reads buffer buffer_len

/-- The indices read by `csvp_write_float`. -/
def csvp_write_float_reads (buffer : List Nat) (buffer_len : Nat) : List Nat :=
  atof_reads buffer ++ field_end_reads buffer buffer_len

/-- The indices read by `csvp_write_string`: those of its loop and the
`data_len` bytes that the `memcpy` of `csvp_string_write` copies. -/
def csvp_write_string_reads (buffer : List Nat) (buffer_len : Nat) : List Nat :=
  field_end_reads buffer buffer_len ++ List.range (field_end buffer buffer_len)

/-- The indices of the line buffer read by the `switch` of `csvp_next_record` for
the field that starts at `buffer[i]`. -/
def csvp_next_record_switch_reads (buffer : List Nat) (buffer_size i idx : Nat)
    (record : csvp_record_t) : List Nat :=
  match record.entries[idx]? with
  | none => []
  | some (.v_int _) =>
    (csvp_check_integer_reads (buffer.drop i) (size_sub buffer_size i) ++
      (if csvp_check_integer (buffer.drop i) (size_sub buffer_size i) then
        csvp_write_integer_reads (buffer.drop i) (size_sub buffer_size i) else [])).map
      (fun x => i + x)
  | some (.v_float _) =>
    (csvp_check_float_reads (buffer.drop i) (size_sub buffer_size i) ++
      (if csvp_check_float (buffer.drop i) (size_sub buffer_size i) then
        csvp_write_float_reads (buffer.drop i) (size_sub buffer_size i) else [])).map
      (fun x => i + x)
  | some (.v_string _) =>
    (csvp_write_string_reads (buffer.drop i) (size_sub buffer_size i)).map (fun x => i + x)

/-- The `for` loop of `csvp_next_record` with what it touches: the indices of the
line buffer that it and the functions it calls read, and the indices of
`record->entries` that it reads or writes (one, `idx`, for each `switch`).
`none` when `fuel` runs out, as for `csvp_next_record_loop`. -/
def csvp_next_record_loop_reads (buffer : List Nat) (buffer_size : Nat) :
    Nat → Nat → Nat → csvp_record_t → Option (List Nat × List Nat)
  | 0, _, _, _ => none
  | fuel + 1, i, idx, record =>
    if rd buffer i != 0 && rd buffer i != 10 && idx < record.size then
      let j := scan_while (fun c => c == 32) buffer i
      let reads := i :: scan_reads i j
      let c := rd buffer j
      if c == 0 || c == 10 then some (reads, [])
      else
        match csvp_next_record_switch buffer buffer_size j idx record with
        | none => none
        | some (record', idx') =>
          let reads := reads ++ csvp_next_record_switch_reads buffer buffer_size j idx record
          let k := scan_while (fun c => c != 44 && c != 0) buffer j
          let reads := reads ++ scan_reads j k
          let c := rd buffer k
          if c == 0 then some (reads, [idx])
          else
            match csvp_next_record_loop_reads buffer buffer_size fuel (k + 1) idx' record' with
            | none => none
            | some (reads', entries') => some (reads ++ reads', idx :: entries')
    else some ([i], [])
/-! # Definitions used to state and prove the theorems -/

/-! ## Streams and valid records -/

/-- The first line of a stream: its bytes before the first newline or NUL. -/
def first_line (fd : List Nat) : List Nat := fd.takeWhile (fun c => c != 0 && c != 10)

/-- The condition `assert(str->capacity > 0)` of the string functions, for a
string entry. -/
def csvp_entry_ok : csvp_entry_t → Bool
  | .v_string s => s.capacity != 0
  | _ => true

/-- A valid record: `size` is the length of `entries` and every string entry has
a block of non-zero capacity.  `csvp_create_format` returns such records and
`csvp_next_record` keeps them so. -/
def csvp_record_ok (record : csvp_record_t) : Prop :=
  record.size = record.entries.length ∧ ∀ e ∈ record.entries, csvp_entry_ok e = true

instance (record : csvp_record_t) : Decidable (csvp_record_ok record) := by
  unfold csvp_record_ok; infer_instance

/-- A record for the format `[Integer, Float, String]`, as `csvp_create_format`
sets it up for the descriptor `"integer, float, string"`. -/
def sample_record : csvp_record_t :=
  { size := 3, entries := [.v_int 0, .v_float 0, .v_string csvp_string_init] }

/-! ## One iteration of each loop -/

/-- One iteration of the `for` loop of `csvp_next_record`, from the test of its
condition to its increment: `none` when the call does not return, `some (.inl r)`
when the loop ends with the record `r`, `some (.inr (i, idx, r))` when it goes on. -/
def csvp_next_record_body (buffer : List Nat) (buffer_size i idx : Nat) (record : csvp_record_t) :
    Option (csvp_record_t ⊕ (Nat × Nat × csvp_record_t)) :=
  if rd buffer i != 0 && rd buffer i != 10 && idx < record.size then
    let i := scan_while (fun c => c == 32) buffer i
    let c := rd buffer i
    if c == 0 || c == 10 then some (.inl record)
    else
      match csvp_next_record_switch buffer buffer_size i idx record with
      | none => none
      | some (record, idx) =>
        let i := scan_while (fun c => c != 44 && c != 0) buffer i
        let c := rd buffer i
        if c == 0 then some (.inl record)
        else some (.inr (i + 1, idx, record))
  else some (.inl record)

/-- The loop of `csvp_next_record` run on the line `line` that `csvp_getline`
left in the line buffer (so `buffer_size` is its length). -/
def csvp_decode_line (line : List Nat) (record : csvp_record_t) : Option csvp_record_t :=
  csvp_next_record_loop line line.length RECORD_BUFSIZE 0 0 record

/-- One iteration of the `for` loop of `csvp_create_format`, from the test of
its condition to its increment: `.inl types` when the loop ends, `.inr (i, types)`
when it goes on. -/
def csvp_create_format_body (desc : List Nat) (i : Nat) (types : List csvp_type_t) :
    List csvp_type_t ⊕ (Nat × List csvp_type_t) :=
  if rd desc i != 0 && types.length < MAX_ENTRIES then
    let i := scan_while (fun c => c == 44 || c == 32) desc i
    let c := rd desc i
    if c == 0 then .inl types
    else
      let types := types ++ [csvp_create_format_switch desc i c]
      let i := scan_while (fun c => c != 44 && c != 0) desc i
      let c := rd desc i
      if c == 0 then .inl types
      else .inr (i + 1, types)
  else .inl types

/-! ## The classifiers read off the list of bytes -/

/-- The test `c == ' '`. -/
def is_space (c : Nat) : Bool := c == 32

/-- What `csvp_check_integer` computes on a slice that `buffer_len` covers, read
off the list of its bytes. -/
def check_integer_list (buffer : List Nat) : Bool :=
  let t := buffer.dropWhile is_space
  let c := rd t 0
  if c == 44 || c == 0 then true
  else if is_digit c || c == 45 then
    let u := if c == 45 then t.drop 1 else t
    let v := (u.dropWhile is_digit).dropWhile is_space
    rd v 0 == 0 || rd v 0 == 44
  else false

/-- What `csvp_check_float` computes on a slice that `buffer_len` covers, read
off the list of its bytes. -/
def check_float_list (buffer : List Nat) : Bool :=
  let t := buffer.dropWhile is_space
  let c := rd t 0
  if c == 44 || c == 0 then true
  else if is_digit c || c == 46 || c == 45 then
    let u := if c == 46 || c == 45 then t.drop 1 else t
    let v := u.dropWhile is_digit
    if rd v 0 == 46 then
      let w := (v.drop 1).dropWhile is_digit
      rd w 0 == 44 || rd w 0 == 0
    else rd v 0 == 44 || rd v 0 == 0
  else false

/-! ## Lines, fields and the values they denote -/

/-- The bytes of a field: no comma, NUL or newline. -/
def field_bytes (f : List Nat) : Prop := ∀ c ∈ f, c ≠ 44 ∧ c ≠ 0 ∧ c ≠ 10

instance (f : List Nat) : Decidable (field_bytes f) := by
  unfold field_bytes; infer_instance

/-- The first field of a line is rejected by the classifier of the first entry. -/
def first_field_rejected (record : csvp_record_t) (b : List Nat) : Prop :=
  (∃ n, record.entries.head? = some (.v_int n) ∧ csvp_check_integer b b.length = false) ∨
  (∃ q, record.entries.head? = some (.v_float q) ∧ csvp_check_float b b.length = false)

/-- The line made of the given fields, a comma between each two. -/
def csv_line : List (List Nat) → List Nat
  | [] => []
  | [f] => f
  | f :: g :: fs => f ++ 44 :: csv_line (g :: fs)

/-- The number a run of decimal digits denotes, most significant digit first
(0 for the empty run). -/
def decimal_value (ds : List Nat) : Nat := Nat.ofDigits 10 (ds.reverse.map (fun c => c - 48))

/-- The integer a field denotes: after the leading spaces, an optional `-` and
the decimal digits that follow it (0 when there is no digit). -/
def int_denoted (f : List Nat) : Int :=
  match f.dropWhile is_space with
  | 45 :: u => - (decimal_value (u.takeWhile is_digit) : Int)
  | t => (decimal_value (t.takeWhile is_digit) : Int)

/-- The digits of the fraction: those that follow a `.` at the head of the list. -/
def fraction_digits : List Nat → List Nat
  | 46 :: w => w.takeWhile is_digit
  | _ => []

/-- The number a field denotes as a decimal fraction: after the leading spaces,
an optional `-`, the digits of the integer part and, when a `.` follows them, the
digits of the fraction; an absent part counts as 0. -/
def float_denoted (f : List Nat) : ℚ :=
  match f.dropWhile is_space with
  | 45 :: u =>
    - ((decimal_value (u.takeWhile is_digit) : ℚ) +
        (decimal_value (fraction_digits (u.dropWhile is_digit)) : ℚ) /
          10 ^ (fraction_digits (u.dropWhile is_digit)).length)
  | t =>
    (decimal_value (t.takeWhile is_digit) : ℚ) +
      (decimal_value (fraction_digits (t.dropWhile is_digit)) : ℚ) /
        10 ^ (fraction_digits (t.dropWhile is_digit)).length

/-- The `double` written by the digits `ip` of an integer part and the digits
`fp` of a fraction, with the sign `neg`: the number `ip.fp` rounded to the
nearest `double`; +0.0 when there is no digit at all. -/
def double_of_decimal (neg : Bool) (ip fp : List Nat) : double :=
  if ip.isEmpty && fp.isEmpty then double.zero
  else round_double neg ((decimal_value ip : ℚ) + (decimal_value fp : ℚ) / 10 ^ fp.length)

/-- The `double` a field denotes: after the leading spaces, an optional `-`, the
digits of the integer part and, when a `.` follows them, the digits of the
fraction, as the nearest `double` (an infinity when the number is too large). -/
def double_denoted (f : List Nat) : double :=
  match f.dropWhile is_space with
  | 45 :: u =>
    double_of_decimal true (u.takeWhile is_digit) (fraction_digits (u.dropWhile is_digit))
  | t =>
    double_of_decimal false (t.takeWhile is_digit) (fraction_digits (t.dropWhile is_digit))

/-- The C string that a block holds: its bytes before the first NUL. -/
def c_string (data : List Nat) : List Nat := data.takeWhile (fun c => c != 0)

/-- The field `f` can be decoded into the entry `e`: it holds no comma, NUL or
newline, is not empty after its leading spaces and is accepted by the classifier
of the type of `e`; for an integer entry, the integer it denotes fits `int`. -/
def field_accepted (f : List Nat) (e : csvp_entry_t) : Prop :=
  field_bytes f ∧ f.dropWhile is_space ≠ [] ∧
  match e with
  | .v_int _ =>
    csvp_check_integer f f.length = true ∧ -(2 ^ 31 : Int) ≤ int_denoted f ∧
      int_denoted f < (2 ^ 31 : Int)
  | .v_float _ => csvp_check_float f f.length = true
  | .v_string _ => True

/-- The entry `e` holds the value of the field `f`: the integer or the `double`
it denotes, or for a string its bytes from the first one that is not a space. -/
def entry_holds (f : List Nat) (e : csvp_entry_t) : Prop :=
  match e with
  | .v_int n => n = int_denoted f
  | .v_float x => x = double_denoted f
  | .v_string s => c_string s.data = f.dropWhile is_space

/-! ## What a decode does to an entry -/

/-- What a run of writes does to one entry, whatever the entry held before:
nothing (`keep`), the number of an integer or float entry is set, or the first
bytes of the block of a string entry are replaced by `p` and its capacity is
raised above `need`. -/
inductive entry_patch where
  | keep
  | set_int (n : Int)
  | set_float (x : double)
  | overlay (p : List Nat) (need : Nat)

/-- The patch `later` after the patch `earlier`. -/
def entry_patch.after : entry_patch → entry_patch → entry_patch
  | .keep, earlier => earlier
  | .overlay p₂ n₂, .overlay p₁ n₁ => .overlay (p₂ ++ p₁.drop p₂.length) (max n₁ n₂)
  | later, _ => later

/-- The entry `e'` is the entry `e` after the patch. -/
def entry_patch.applies : entry_patch → csvp_entry_t → csvp_entry_t → Prop
  | .keep, e, e' => e' = e
  | .set_int n, _, e' => e' = .v_int n
  | .set_float q, _, e' => e' = .v_float q
  | .overlay p need, e, e' =>
    ∃ s s', e = .v_string s ∧ e' = .v_string s' ∧ s'.data = p ++ s.data.drop p.length ∧
      s'.size = s.size ∧ s.capacity ≤ s'.capacity ∧ need < s'.capacity ∧
      (need < s.capacity → s'.capacity = s.capacity)

/-- The record `r'` is the record `r` after the patches `ps`, one for each index. -/
def record_patched (ps : Nat → entry_patch) (r r' : csvp_record_t) : Prop :=
  r'.size = r.size ∧ r'.entries.length = r.entries.length ∧
  ∀ k e, r.entries[k]? = some e → ∃ e', r'.entries[k]? = some e' ∧ (ps k).applies e e'

/-! ## Descriptors -/

/-- The test `c == ',' || c == ' '` for a separator of the descriptor. -/
def is_separator (c : Nat) : Bool := c == 44 || c == 32

/-- The type the format compiler gives to a token: Integer when it begins with
`integer`, Float when it begins with `float`, String otherwise. -/
def token_type (t : List Nat) : csvp_type_t :=
  if t.take 7 = bytes "integer" then .CSVP_INTEGER_TYPE
  else if t.take 5 = bytes "float" then .CSVP_FLOAT_TYPE
  else .CSVP_STRING_TYPE

/-- The descriptor text made of tokens, each followed by its separator. -/
def join_tokens : List (List Nat × List Nat) → List Nat
  | [] => []
  | p :: ps => p.1 ++ p.2 ++ join_tokens ps

/-! ## The leading field of a slice -/

/-- The leading field of a slice: its bytes before the first comma or the
terminating NUL. -/
def leading_field (buffer : List Nat) : List Nat :=
  buffer.takeWhile (fun c => c != 44 && c != 0)

/-- The byte `-` when `neg` holds, nothing otherwise. -/
def sign_bytes (neg : Bool) : List Nat := if neg then [45] else []

/-! ## The reference definition of the line reader -/

/-- The reference definition of `csvp_getline`: with `L` the number of bytes of
the stream before its first newline or NUL (or its end), the first
`min L (buffer_size - 1)` bytes of the stream are stored (a NUL follows them in
the buffer), that number is returned, and the stream loses the stored bytes and,
only when `L < buffer_size - 1`, the terminator. -/
def csvp_getline_reference (buffer_size : Nat) (fd : List Nat) : List Nat × Nat × List Nat :=
  let L := (first_line fd).length
  let k := min L (buffer_size - 1)
  (fd.take k, k, if L < buffer_size - 1 then fd.drop (L + 1) else fd.drop k)

/-! ## The reference definition of the format compiler -/

/-- The segments of a descriptor: the text split at its commas. -/
def split_commas : List Nat → List (List Nat)
  | [] => [[]]
  | c :: cs =>
    if c = 44 then [] :: split_commas cs
    else
      match split_commas cs with
      | [] => [[c]]
      | s :: ss => (c :: s) :: ss

/-- The types of the segments of a descriptor: the segments that are empty or
made only of spaces are discarded, the leading spaces of the others are stripped
and each is mapped to Integer when it begins with `integer`, to Float when it
begins with `float`, to String otherwise. -/
def segment_types (desc : List Nat) : List csvp_type_t :=
  ((split_commas desc).filter (fun s => !(s.all is_space))).map
    (fun s => token_type (s.dropWhile is_space))

/-- The reference definition of `csvp_create_format`: the first 100 types of the
segments of the descriptor, in order; no format when there is none. -/
def csvp_create_format_reference (desc : List Nat) : Option csvp_record_t :=
  let types := (segment_types desc).take 100
  if types.isEmpty then none
  else some { size := types.length, entries := types.map csvp_entry_init }
/-! ## Machine integers and buffers: basic facts -/

theorem size_of_int_of_size {n : Nat} (h : n < 2 ^ 31) : size_of_int (int_of_size n) = n := by
  have h1 : n % 2 ^ 32 = n := Nat.mod_eq_of_lt (by omega)
  unfold size_of_int int_of_size
  rw [h1, if_pos h]
  have h2 : ((n : Int) % (2 ^ 64 : Int)) = (n : Int) := Int.emod_eq_of_lt (by omega) (by omega)
  rw [h2]; simp

theorem int_of_size_small {n : Nat} (h : n < 2 ^ 31) : int_of_size n = (n : Int) := by
  have h1 : n % 2 ^ 32 = n := Nat.mod_eq_of_lt (by omega)
  unfold int_of_size
  rw [h1, if_pos h]

theorem size_sub_eq {a b : Nat} (hb : b ≤ a) (ha : a < SIZE_RANGE) : size_sub a b = a - b := by
  unfold size_sub
  unfold SIZE_RANGE at *
  rw [Nat.mod_eq_of_lt ha, Nat.mod_eq_of_lt (lt_of_le_of_lt hb ha)]
  omega

theorem rd_drop (l : List Nat) (k j : Nat) : rd (l.drop k) j = rd l (k + j) := by
  simp [rd, List.getD_eq_getElem?_getD, List.getElem?_drop]

theorem rd_nil (i : Nat) : rd [] i = 0 := by simp [rd]

theorem rd_cons_zero (c : Nat) (l : List Nat) : rd (c :: l) 0 = c := by simp [rd]

theorem rd_cons_succ (c : Nat) (l : List Nat) (i : Nat) : rd (c :: l) (i + 1) = rd l i := by
  simp [rd]

theorem rd_append_right (a b : List Nat) (j : Nat) : rd (a ++ b) (a.length + j) = rd b j := by
  rw [← rd_drop]; simp

theorem rd_of_length_le {l : List Nat} {i : Nat} (h : l.length ≤ i) : rd l i = 0 := by
  simp [rd, List.getD_eq_getElem?_getD, List.getElem?_eq_none h]

theorem lt_length_of_rd_ne_zero {l : List Nat} {i : Nat} (h : rd l i ≠ 0) : i < l.length := by
  by_contra hc
  exact h (rd_of_length_le (by omega))

theorem scan_while_drop (p : Nat → Bool) (l : List Nat) (k j : Nat) :
    scan_while p l (k + j) = k + scan_while p (l.drop k) j := by
  simp [scan_while, List.drop_drop, Nat.add_assoc]
  
theorem scan_while_zero (p : Nat → Bool) (l : List Nat) :
    scan_while p l 0 = (l.takeWhile p).length := by
  simp [scan_while]


theorem le_scan_while (p : Nat → Bool) (l : List Nat) (i : Nat) : i ≤ scan_while p l i := by
  simp [scan_while]

theorem scan_while_le (p : Nat → Bool) (l : List Nat) {i : Nat} (h : i ≤ l.length) :
    scan_while p l i ≤ l.length := by
  unfold scan_while
  have h1 := (List.takeWhile_sublist (l := l.drop i) p).length_le
  simp only [List.length_drop] at h1
  omega

theorem takeWhile_length_stop (p : Nat → Bool) (l : List Nat)
    (h : (l.takeWhile p).length < l.length) : p (rd l (l.takeWhile p).length) = false := by
  induction l with
  | nil => simp at h
  | cons c cs ih =>
    by_cases hc : p c = true
    · simp only [List.takeWhile_cons, hc, if_true, List.length_cons] at h ⊢
      rw [rd_cons_succ]
      exact ih (by omega)
    · simp only [List.takeWhile_cons, hc, List.length_nil, rd_cons_zero]
      simpa using hc

theorem scan_while_stop (p : Nat → Bool) (l : List Nat) (i : Nat)
    (h : rd l (scan_while p l i) ≠ 0) : p (rd l (scan_while p l i)) = false := by
  have hlt := lt_length_of_rd_ne_zero h
  unfold scan_while at *
  rw [← rd_drop]
  apply takeWhile_length_stop
  simp only [List.length_drop]
  omega

theorem count_drop_le (l : List Nat) (a : Nat) {i j : Nat} (h : i ≤ j) :
    (l.drop j).count a ≤ (l.drop i).count a := by
  obtain ⟨d, rfl⟩ := Nat.exists_eq_add_of_le h
  rw [← List.drop_drop]
  exact (List.drop_sublist d (l.drop i)).count_le a

theorem count_drop_of_rd {l : List Nat} {a i : Nat} (h : rd l i = a) (hi : i < l.length) :
    (l.drop i).count a = (l.drop (i + 1)).count a + 1 := by
  have h1 : l.drop i = l[i] :: l.drop (i + 1) := by
    simp
  have h2 : l[i] = a := by
    simpa [rd, List.getD_eq_getElem?_getD, List.getElem?_eq_getElem hi] using h
  rw [h1, h2]; simp

/-! ## The line reader -/

theorem csvp_getline_loop_fst (room : Nat) (fd : List Nat) :
    (csvp_getline_loop room fd).1 = (first_line fd).take room := by
  induction room generalizing fd with
  | zero => simp [csvp_getline_loop]
  | succ n ih =>
    cases fd with
    | nil => simp [csvp_getline_loop, first_line]
    | cons c cs =>
      by_cases hc : (c == 0 || c == 10) = true
      · have : (c != 0 && c != 10) = false := by
          simp only [Bool.or_eq_true, beq_iff_eq] at hc
          rcases hc with h | h <;> simp [h]
        simp [csvp_getline_loop, first_line, hc, this]
      · have : (c != 0 && c != 10) = true := by
          simp only [Bool.or_eq_true, beq_iff_eq, not_or] at hc
          simp [hc.1, hc.2]
        simp only [csvp_getline_loop, hc, first_line, List.takeWhile_cons, this, if_true,
          List.take_succ_cons, Bool.false_eq_true, if_false]
        rw [ih]; rfl

theorem csvp_getline_loop_snd (room : Nat) (fd : List Nat) :
    (csvp_getline_loop room fd).2 =
      fd.drop (if (first_line fd).length < room then (first_line fd).length + 1 else room) := by
  induction room generalizing fd with
  | zero => simp [csvp_getline_loop]
  | succ n ih =>
    cases fd with
    | nil => simp [csvp_getline_loop, first_line]
    | cons c cs =>
      by_cases hc : (c == 0 || c == 10) = true
      · have : (c != 0 && c != 10) = false := by
          simp only [Bool.or_eq_true, beq_iff_eq] at hc
          rcases hc with h | h <;> simp [h]
        simp [csvp_getline_loop, first_line, hc, this]
      · have : (c != 0 && c != 10) = true := by
          simp only [Bool.or_eq_true, beq_iff_eq, not_or] at hc
          simp [hc.1, hc.2]
        simp only [csvp_getline_loop, hc, first_line, List.takeWhile_cons, this, if_true,
          Bool.false_eq_true, if_false, List.length_cons]
        rw [ih]
        simp only [first_line, Nat.add_lt_add_iff_right]
        split <;> simp


/-! ## The string buffer and the frame of the decode loop -/

theorem csvp_string_grow_spec (n : Nat) (hn : n < 2 ^ 63) :
    ∀ fuel capacity, 0 < capacity → n < capacity * 2 ^ fuel →
      ∃ c, csvp_string_grow n (fuel + 1) capacity = some c ∧ n < c ∧ capacity ≤ c ∧
        (n < capacity → c = capacity) := by
  intro fuel
  induction fuel with
  | zero =>
    intro capacity _ h
    have : ¬ capacity ≤ n := by omega
    exact ⟨capacity, by simp [csvp_string_grow, this], by omega, le_refl _, fun _ => rfl⟩
  | succ f ih =>
    intro capacity hpos h
    by_cases hle : capacity ≤ n
    · have hmod : capacity * 2 % SIZE_RANGE = capacity * 2 := by
        apply Nat.mod_eq_of_lt; unfold SIZE_RANGE; omega
      obtain ⟨c, h1, h2, h3, _⟩ := ih (capacity * 2) (by omega) (by rw [pow_succ] at h; linarith)
      refine ⟨c, ?_, h2, by omega, fun h' => absurd h' (by omega)⟩
      rw [csvp_string_grow, if_pos hle, hmod]; exact h1
    · exact ⟨capacity, by rw [csvp_string_grow, if_neg hle], by omega, le_refl _, fun _ => rfl⟩

theorem csvp_string_write_spec (str : csvp_string_t) (data : List Nat) (n : Nat)
    (hcap : str.capacity ≠ 0) (hn : n < 2 ^ 63) :
    ∃ s r, csvp_string_write str data n = some (s, r) ∧ s.size = str.size ∧
      str.capacity ≤ s.capacity ∧ n < s.capacity ∧ (n < str.capacity → s.capacity = str.capacity) ∧
      s.data = if n = 0 then str.data else data.take n ++ 0 :: str.data.drop (n + 1) := by
  by_cases h0 : n = 0
  · subst h0
    exact ⟨str, 0, by simp [csvp_string_write, hcap], rfl, le_refl _, by omega, fun _ => rfl,
      by simp⟩
  · obtain ⟨c, h1, h2, h3, h4⟩ := csvp_string_grow_spec n hn 64 str.capacity (by omega)
      (by
        have : str.capacity * 2 ^ 64 ≥ 1 * 2 ^ 64 := Nat.mul_le_mul_right _ (by omega)
        omega)
    refine ⟨{ str with data := data.take n ++ 0 :: str.data.drop (n + 1), capacity := c },
      int_of_size n, ?_, rfl, h3, h2, h4, ?_⟩
    · simp only [csvp_string_write, hcap, h0, if_false, h1]
    · simp [h0]

theorem field_end_le (buffer : List Nat) (buffer_len : Nat) :
    field_end buffer buffer_len ≤ buffer.length := by
  unfold field_end
  exact le_trans (List.takeWhile_sublist _).length_le
    (by simp)


theorem set_of_get? {α : Type} (l : List α) (i : Nat) (a : α) (h : l[i]? = some a) :
    l.set i a = l := by
  apply List.ext_getElem? 
  intro j
  by_cases hj : i = j
  · subst hj
    have hi : i < l.length := by
      by_contra hc
      rw [List.getElem?_eq_none (by omega)] at h
      exact absurd h (by simp)
    rw [List.getElem?_set_self hi, h]
  · rw [List.getElem?_set_ne hj]

theorem csvp_next_record_switch_spec (buffer : List Nat) (buffer_size i idx : Nat)
    (record : csvp_record_t) (hok : csvp_record_ok record) (hidx : idx < record.size)
    (hlen : buffer.length < 2 ^ 63) :
    ∃ e e' idx', record.entries[idx]? = some e ∧
      csvp_next_record_switch buffer buffer_size i idx record =
        some ({ record with entries := record.entries.set idx e' }, idx') ∧
      e'.type = e.type ∧ csvp_entry_ok e' = true ∧ idx' ≤ idx + 1 := by
  obtain ⟨hsz, hall⟩ := hok
  have hlt : idx < record.entries.length := by omega
  have hget : record.entries[idx]? = some record.entries[idx] := by
    rw [List.getElem?_eq_getElem hlt]
  have hmem : record.entries[idx] ∈ record.entries := List.getElem_mem hlt
  have hoke := hall _ hmem
  have hself : ({ record with entries := record.entries.set idx record.entries[idx] } : csvp_record_t)
      = record := by
    rw [set_of_get? _ _ _ hget]
  generalize record.entries[idx] = e at hget hoke hself
  refine ⟨e, ?_⟩
  cases e with
  | v_int n =>
    by_cases hc : csvp_check_integer (buffer.drop i) (size_sub buffer_size i) = true
    · exact ⟨.v_int (atoi (buffer.drop i)), idx + 1, hget,
        by simp [csvp_next_record_switch, hget, hc, csvp_write_integer], rfl, rfl, le_refl _⟩
    · exact ⟨.v_int n, 0, hget,
        by simp [csvp_next_record_switch, hget, hc, hself], rfl, rfl, by omega⟩
  | v_float q =>
    by_cases hc : csvp_check_float (buffer.drop i) (size_sub buffer_size i) = true
    · exact ⟨.v_float (atof (buffer.drop i)), idx + 1, hget,
        by simp [csvp_next_record_switch, hget, hc, csvp_write_float], rfl, rfl, le_refl _⟩
    · exact ⟨.v_float q, 0, hget,
        by simp [csvp_next_record_switch, hget, hc, hself], rfl, rfl, by omega⟩
  | v_string s =>
    have hcap : s.capacity ≠ 0 := by simpa [csvp_entry_ok] using hoke
    have hfe : field_end (buffer.drop i) (size_sub buffer_size i) < 2 ^ 63 :=
      lt_of_le_of_lt (field_end_le _ _) (lt_of_le_of_lt (by simp) hlen)
    obtain ⟨s', r, hw, _, hcap', _, _, _⟩ := csvp_string_write_spec s (buffer.drop i) _ hcap hfe
    refine ⟨.v_string s', idx + 1, hget, ?_, rfl, ?_, le_refl _⟩
    · simp [csvp_next_record_switch, hget, csvp_write_string, hw]
    · simp only [csvp_entry_ok, bne_iff_ne, ne_eq]; omega

theorem map_type_set (l : List csvp_entry_t) (idx : Nat) (e e' : csvp_entry_t)
    (hget : l[idx]? = some e) (ht : e'.type = e.type) :
    (l.set idx e').map csvp_entry_t.type = l.map csvp_entry_t.type := by
  rw [List.map_set, ht]
  apply set_of_get?
  rw [List.getElem?_map, hget]; rfl

theorem csvp_record_ok_set (record : csvp_record_t) (idx : Nat) (e' : csvp_entry_t)
    (hok : csvp_record_ok record) (he : csvp_entry_ok e' = true) :
    csvp_record_ok { record with entries := record.entries.set idx e' } := by
  obtain ⟨hsz, hall⟩ := hok
  refine ⟨by simpa using hsz, ?_⟩
  intro x hx
  rcases List.mem_or_eq_of_mem_set hx with h | h
  · exact hall x h
  · rw [h]; exact he

/-- The decode loop returns, keeps the record valid, its size and every type tag,
and leaves alone every entry whose index exceeds `idx` plus the number of commas
left to read. -/
theorem csvp_next_record_loop_frame (buffer : List Nat) (buffer_size : Nat)
    (hlen : buffer.length < 2 ^ 63) :
    ∀ fuel i idx record, csvp_record_ok record → i ≤ buffer.length →
      buffer.length < fuel + i →
      ∃ r, csvp_next_record_loop buffer buffer_size fuel i idx record = some r ∧
        csvp_record_ok r ∧ r.size = record.size ∧
        r.entries.map csvp_entry_t.type = record.entries.map csvp_entry_t.type ∧
        ∀ k, idx + (buffer.drop i).count 44 < k → r.entries[k]? = record.entries[k]? := by
  intro fuel
  induction fuel with
  | zero => intro i idx record _ h1 h2; omega
  | succ fuel ih =>
    intro i idx record hok hi hfuel
    rw [csvp_next_record_loop]
    by_cases hcond : (rd buffer i != 0 && rd buffer i != 10 && decide (idx < record.size)) = true
    · rw [if_pos hcond]
      simp only [Bool.and_eq_true, bne_iff_ne, ne_eq, decide_eq_true_eq] at hcond
      obtain ⟨⟨hc0, _⟩, hidx⟩ := hcond
      have hi1 := le_scan_while (fun c => c == 32) buffer i
      generalize scan_while (fun c => c == 32) buffer i = i1 at hi1
      by_cases hbrk : (rd buffer i1 == 0 || rd buffer i1 == 10) = true
      · simp only [hbrk, if_true]
        exact ⟨record, rfl, hok, rfl, rfl, fun _ _ => rfl⟩
      · simp only [hbrk, Bool.false_eq_true, if_false]
        obtain ⟨e, e', idx', hget, hsw, hty, hoke, hidx'⟩ :=
          csvp_next_record_switch_spec buffer buffer_size i1 idx record hok hidx hlen
        rw [hsw]
        have hok1 := csvp_record_ok_set record idx e' hok hoke
        have hty1 := map_type_set record.entries idx e e' hget hty
        have hfr1 : ∀ k, idx < k → (record.entries.set idx e')[k]? = record.entries[k]? := by
          intro k hk
          exact List.getElem?_set_ne (by omega)
        have hi2 := le_scan_while (fun c => c != 44 && c != 0) buffer i1
        have hstop := scan_while_stop (fun c => c != 44 && c != 0) buffer i1
        generalize scan_while (fun c => c != 44 && c != 0) buffer i1 = i2 at hi2 hstop
        by_cases hend : (rd buffer i2 == 0) = true
        · simp only [hend, if_true]
          exact ⟨_, rfl, hok1, rfl, hty1, fun k hk => hfr1 k (by omega)⟩
        · simp only [hend, Bool.false_eq_true, if_false]
          have hne : rd buffer i2 ≠ 0 := by simpa using hend
          have hcomma : rd buffer i2 = 44 := by
            have := hstop hne
            simp only [Bool.and_eq_false_iff, bne_eq_false_iff_eq] at this
            rcases this with h | h
            · exact h
            · exact absurd h hne
          have hi2lt := lt_length_of_rd_ne_zero hne
          obtain ⟨r, hr, hrok, hrsz, hrty, hrfr⟩ :=
            ih (i2 + 1) idx' _ hok1 (by omega) (by omega)
          refine ⟨r, hr, hrok, hrsz, by rw [hrty, hty1], ?_⟩
          intro k hk
          have hcnt := count_drop_of_rd hcomma hi2lt
          have hmono := count_drop_le buffer 44 (show i ≤ i2 by omega)
          rw [hrfr k (by omega)]
          exact hfr1 k (by omega)
    · rw [if_neg hcond]
      exact ⟨record, rfl, hok, rfl, rfl, fun _ _ => rfl⟩


theorem csvp_getline_spec (fd : List Nat) :
    csvp_getline RECORD_BUFSIZE fd =
      some ((first_line fd).take 1023, min (first_line fd).length 1023,
        fd.drop (if (first_line fd).length < 1023 then (first_line fd).length + 1 else 1023)) := by
  simp [csvp_getline, RECORD_BUFSIZE, csvp_getline_loop_fst, csvp_getline_loop_snd, Nat.min_comm]

/-- What one call of `csvp_next_record` does to a valid record and to the stream. -/
theorem csvp_next_record_spec (fd : List Nat) (record : csvp_record_t)
    (hok : csvp_record_ok record) :
    ∃ r, csvp_next_record fd record =
        some (fd.drop (if (first_line fd).length < 1023 then (first_line fd).length + 1 else 1023),
          r, ((min (first_line fd).length 1023 : Nat) : Int)) ∧
      csvp_next_record_loop ((first_line fd).take 1023) (min (first_line fd).length 1023)
        RECORD_BUFSIZE 0 0 record = some r ∧
      csvp_record_ok r ∧ r.size = record.size ∧
      r.entries.map csvp_entry_t.type = record.entries.map csvp_entry_t.type ∧
      ∀ k, (first_line fd).count 44 < k → r.entries[k]? = record.entries[k]? := by
  have hlen : ((first_line fd).take 1023).length ≤ 1023 := by simp
  obtain ⟨r, hr, hrok, hrsz, hrty, hrfr⟩ :=
    csvp_next_record_loop_frame ((first_line fd).take 1023) (min (first_line fd).length 1023)
      (by omega) RECORD_BUFSIZE 0 0 record hok (by omega) (by unfold RECORD_BUFSIZE; omega)
  refine ⟨r, ?_, hr, hrok, hrsz, hrty, ?_⟩
  · have h31 : min (first_line fd).length 1023 < 2 ^ 31 := by
      have : min (first_line fd).length 1023 ≤ 1023 := Nat.min_le_right _ _
      omega
    simp only [csvp_next_record, csvp_getline_spec, hr, int_of_size_small h31]
  · intro k hk
    apply hrfr
    have := (List.take_sublist 1023 (first_line fd)).count_le 44
    simp only [List.drop_zero, Nat.zero_add]
    omega



/-! ## The decode loop: unfolding, fuel, position -/

theorem csvp_next_record_loop_succ (buffer : List Nat) (buffer_size fuel i idx : Nat)
    (record : csvp_record_t) :
    csvp_next_record_loop buffer buffer_size (fuel + 1) i idx record =
      match csvp_next_record_body buffer buffer_size i idx record with
      | none => none
      | some (.inl r) => some r
      | some (.inr (i', idx', r)) => csvp_next_record_loop buffer buffer_size fuel i' idx' r := by
  rw [csvp_next_record_loop, csvp_next_record_body]
  by_cases h1 : (rd buffer i != 0 && rd buffer i != 10 && decide (idx < record.size)) = true
  · simp only [h1, if_true]
    by_cases h2 : (rd buffer (scan_while (fun c => c == 32) buffer i) == 0 ||
        rd buffer (scan_while (fun c => c == 32) buffer i) == 10) = true
    · simp only [h2, if_true]
    · simp only [h2, Bool.false_eq_true, if_false]
      cases csvp_next_record_switch buffer buffer_size
          (scan_while (fun c => c == 32) buffer i) idx record with
      | none => rfl
      | some p =>
        obtain ⟨r, idx'⟩ := p
        simp only []
        split <;> rfl
  · simp only [h1, Bool.false_eq_true, if_false]

theorem size_sub_add (a k j : Nat) : size_sub a (k + j) = size_sub (size_sub a k) j := by
  unfold size_sub SIZE_RANGE
  norm_num
  omega

theorem csvp_next_record_switch_shift (buffer : List Nat) (buffer_size k i idx : Nat)
    (record : csvp_record_t) :
    csvp_next_record_switch buffer buffer_size (k + i) idx record =
      csvp_next_record_switch (buffer.drop k) (size_sub buffer_size k) i idx record := by
  simp only [csvp_next_record_switch, List.drop_drop, size_sub_add, Nat.add_comm]

theorem csvp_next_record_body_shift (buffer : List Nat) (buffer_size k i idx : Nat)
    (record : csvp_record_t) :
    csvp_next_record_body buffer buffer_size (k + i) idx record =
      (csvp_next_record_body (buffer.drop k) (size_sub buffer_size k) i idx record).map
        (Sum.map id (fun p => (k + p.1, p.2))) := by
  simp only [csvp_next_record_body, scan_while_drop, ← rd_drop buffer k,
    ← csvp_next_record_switch_shift]
  split
  · split
    · rfl
    · split
      · rfl
      · split <;> simp [Nat.add_assoc]
  · rfl

/-- Moving the start of the buffer to position `k` does not change what the loop does. -/
theorem csvp_next_record_loop_shift (buffer : List Nat) (buffer_size k : Nat) :
    ∀ fuel i idx record,
      csvp_next_record_loop buffer buffer_size fuel (k + i) idx record =
        csvp_next_record_loop (buffer.drop k) (size_sub buffer_size k) fuel i idx record := by
  intro fuel
  induction fuel with
  | zero => intro i idx record; rfl
  | succ fuel ih =>
    intro i idx record
    rw [csvp_next_record_loop_succ, csvp_next_record_loop_succ, csvp_next_record_body_shift]
    cases h : csvp_next_record_body (buffer.drop k) (size_sub buffer_size k) i idx record with
    | none => rfl
    | some x =>
      cases x with
      | inl r => rfl
      | inr p =>
        obtain ⟨i', idx', r⟩ := p
        simp only [Option.map_some', Sum.map_inr]
        exact ih i' idx' r

/-- More fuel does not change a result. -/
theorem csvp_next_record_loop_mono (buffer : List Nat) (buffer_size : Nat) :
    ∀ fuel i idx record r,
      csvp_next_record_loop buffer buffer_size fuel i idx record = some r →
      csvp_next_record_loop buffer buffer_size (fuel + 1) i idx record = some r := by
  intro fuel
  induction fuel with
  | zero => intro i idx record r h; simp [csvp_next_record_loop] at h
  | succ fuel ih =>
    intro i idx record r h
    rw [csvp_next_record_loop_succ] at h ⊢
    cases hb : csvp_next_record_body buffer buffer_size i idx record with
    | none => rw [hb] at h; exact h
    | some x =>
      rw [hb] at h
      cases x with
      | inl r' => exact h
      | inr p =>
        obtain ⟨i', idx', r'⟩ := p
        exact ih i' idx' r' r h

/-! ## The classifiers on lists -/

theorem skip_pred_eq : (fun c : Nat => c != 0 && c == 32) = is_space := by
  funext c
  by_cases h : c = 32 <;> simp [is_space, h]

theorem space_pred_eq : (fun c : Nat => c == 32) = is_space := rfl

theorem drop_length_takeWhile (p : Nat → Bool) (l : List Nat) :
    l.drop (l.takeWhile p).length = l.dropWhile p := by
  induction l with
  | nil => rfl
  | cons c cs ih =>
    by_cases hc : p c = true
    · simp [List.takeWhile_cons, List.dropWhile_cons, hc, ih]
    · simp [List.takeWhile_cons, List.dropWhile_cons, hc]

theorem length_takeWhile_le (p : Nat → Bool) (l : List Nat) :
    (l.takeWhile p).length ≤ l.length :=
  (List.takeWhile_sublist p).length_le

theorem length_takeWhile_add_dropWhile (p : Nat → Bool) (l : List Nat) :
    (l.takeWhile p).length + (l.dropWhile p).length = l.length := by
  rw [← List.length_append, List.takeWhile_append_dropWhile]

theorem rd_length_takeWhile (p : Nat → Bool) (l : List Nat) :
    rd l (l.takeWhile p).length = rd (l.dropWhile p) 0 := by
  rw [← drop_length_takeWhile, rd_drop]; rfl

theorem drop_scan_while (p : Nat → Bool) (l : List Nat) (i : Nat) :
    l.drop (scan_while p l i) = (l.drop i).dropWhile p := by
  rw [scan_while, ← List.drop_drop, drop_length_takeWhile]

theorem rd_scan_while (p : Nat → Bool) (l : List Nat) (i : Nat) :
    rd l (scan_while p l i) = rd ((l.drop i).dropWhile p) 0 := by
  rw [← drop_scan_while, rd_drop]; rfl

theorem size_of_int_skip_whitespace (buffer : List Nat) (buffer_len : Nat)
    (hlen : buffer.length < 2 ^ 31) (hcov : buffer.length ≤ buffer_len) :
    size_of_int (csvp_skip_whitespace buffer buffer_len) = (buffer.takeWhile is_space).length := by
  unfold csvp_skip_whitespace
  rw [List.take_of_length_le hcov, skip_pred_eq]
  exact size_of_int_of_size (lt_of_le_of_lt (length_takeWhile_le _ _) hlen)

theorem csvp_check_integer_eq_list (buffer : List Nat) (buffer_len : Nat)
    (hlen : buffer.length < 2 ^ 31) (hcov : buffer.length ≤ buffer_len)
    (hsz : buffer_len < SIZE_RANGE) :
    csvp_check_integer buffer buffer_len = check_integer_list buffer := by
  unfold csvp_check_integer check_integer_list
  simp only [size_of_int_skip_whitespace buffer buffer_len hlen hcov, rd_length_takeWhile]
  have hn0 := length_takeWhile_add_dropWhile is_space buffer
  generalize hn : (buffer.takeWhile is_space).length = n0 at hn0
  have ht : buffer.drop n0 = buffer.dropWhile is_space := by
    rw [← hn, drop_length_takeWhile]
  generalize buffer.dropWhile is_space = t at ht hn0
  by_cases h1 : (rd t 0 == 44 || rd t 0 == 0) = true
  · simp only [h1, if_true]
  · simp only [h1, Bool.false_eq_true, if_false]
    by_cases h2 : (is_digit (rd t 0) || rd t 0 == 45) = true
    · simp only [h2, if_true]
      have htne : 1 ≤ t.length := by
        have : rd t 0 ≠ 0 := by
          intro h; simp [h] at h1
        have := lt_length_of_rd_ne_zero this
        omega
      -- the position after the optional sign
      have hi : ∃ i, (if (rd t 0 == 45) = true then n0 + 1 else n0) = i ∧ i ≤ buffer.length ∧
          buffer.drop i = (if (rd t 0 == 45) = true then t.drop 1 else t) := by
        by_cases h3 : (rd t 0 == 45) = true
        · refine ⟨n0 + 1, by simp [h3], by omega, ?_⟩
          rw [if_pos h3, ← ht, List.drop_drop, Nat.add_comm]
        · exact ⟨n0, by simp [h3], by omega, by simp [h3, ht]⟩
      obtain ⟨i, hi1, hi2, hi3⟩ := hi
      rw [hi1]
      generalize (if (rd t 0 == 45) = true then t.drop 1 else t) = u at hi3
      have hi2le := scan_while_le is_digit buffer hi2
      have hd2 := drop_scan_while is_digit buffer i
      rw [hi3] at hd2
      generalize scan_while is_digit buffer i = i2 at hi2le hd2
      have hsub : size_sub buffer_len i2 = buffer_len - i2 := size_sub_eq (by omega) hsz
      have hskip := size_of_int_skip_whitespace (buffer.drop i2) (buffer_len - i2)
        (by simp; omega) (by simp; omega)
      rw [hsub, hskip]
      have hle := length_takeWhile_le is_space (buffer.drop i2)
      simp only [List.length_drop] at hle
      have hmod : (i2 + (List.takeWhile is_space (buffer.drop i2)).length) % SIZE_RANGE
          = i2 + (List.takeWhile is_space (buffer.drop i2)).length := by
        apply Nat.mod_eq_of_lt; unfold SIZE_RANGE; omega
      rw [hmod, ← rd_drop, rd_length_takeWhile, hd2]
    · simp only [h2, Bool.false_eq_true, if_false]

theorem scan_digits_bounded_eq (buffer : List Nat) (buffer_len i : Nat)
    (hcov : buffer.length ≤ buffer_len) :
    scan_digits_bounded buffer buffer_len i = scan_while is_digit buffer i := by
  unfold scan_digits_bounded scan_while
  rw [List.take_of_length_le hcov]

theorem csvp_check_float_eq_list (buffer : List Nat) (buffer_len : Nat)
    (hlen : buffer.length < 2 ^ 31) (hcov : buffer.length ≤ buffer_len) :
    csvp_check_float buffer buffer_len = check_float_list buffer := by
  unfold csvp_check_float check_float_list
  simp only [size_of_int_skip_whitespace buffer buffer_len hlen hcov, rd_length_takeWhile,
    scan_digits_bounded_eq _ _ _ hcov]
  have hn0 := length_takeWhile_add_dropWhile is_space buffer
  generalize hn : (buffer.takeWhile is_space).length = n0 at hn0
  have ht : buffer.drop n0 = buffer.dropWhile is_space := by
    rw [← hn, drop_length_takeWhile]
  generalize buffer.dropWhile is_space = t at ht hn0
  by_cases h1 : (rd t 0 == 44 || rd t 0 == 0) = true
  · simp only [h1, if_true]
  · simp only [h1, Bool.false_eq_true, if_false]
    by_cases h2 : (is_digit (rd t 0) || rd t 0 == 46 || rd t 0 == 45) = true
    · simp only [h2, if_true]
      have hi : ∃ i, (if (rd t 0 == 46 || rd t 0 == 45) = true then n0 + 1 else n0) = i ∧
          buffer.drop i = (if (rd t 0 == 46 || rd t 0 == 45) = true then t.drop 1 else t) := by
        by_cases h3 : (rd t 0 == 46 || rd t 0 == 45) = true
        · refine ⟨n0 + 1, by simp only [h3, if_true], ?_⟩
          rw [if_pos h3, ← ht, List.drop_drop, Nat.add_comm]
        · exact ⟨n0, by simp only [h3, Bool.false_eq_true, if_false], by
            simp only [h3, Bool.false_eq_true, if_false, ht]⟩
      obtain ⟨i, hi1, hi3⟩ := hi
      rw [hi1]
      generalize (if (rd t 0 == 46 || rd t 0 == 45) = true then t.drop 1 else t) = u at hi3
      have hd2 := drop_scan_while is_digit buffer i
      rw [hi3] at hd2
      have hr2 := rd_scan_while is_digit buffer i
      rw [hi3] at hr2
      generalize scan_while is_digit buffer i = i2 at hd2 hr2
      rw [hr2]
      have hr4 := rd_scan_while is_digit buffer (i2 + 1)
      rw [← List.drop_drop, hd2] at hr4
      rw [hr4]
    · simp only [h2, Bool.false_eq_true, if_false]

theorem dropWhile_of_rd (p : Nat → Bool) (l : List Nat) (h : p (rd l 0) = false) :
    l.dropWhile p = l := by
  cases l with
  | nil => rfl
  | cons c cs =>
    rw [rd_cons_zero] at h
    simp [List.dropWhile_cons, h]

theorem is_digit_iff (c : Nat) : is_digit c = true ↔ 48 ≤ c ∧ c ≤ 57 := by
  simp [is_digit]

theorem dropWhile_spaces (m : Nat) (l : List Nat) :
    (List.replicate m 32 ++ l).dropWhile is_space = l.dropWhile is_space := by
  apply List.dropWhile_append_of_pos
  intro a ha
  rw [List.eq_of_mem_replicate ha]; rfl

theorem rd_spaces_tail (m : Nat) (tail : List Nat) (h : rd tail 0 = 0 ∨ rd tail 0 = 44) :
    rd (List.replicate m 32 ++ tail) 0 = 0 ∨ rd (List.replicate m 32 ++ tail) 0 = 44 ∨
      rd (List.replicate m 32 ++ tail) 0 = 32 := by
  cases m with
  | zero => simpa using h.elim Or.inl (fun h => Or.inr (Or.inl h))
  | succ k => right; right; simp [List.replicate_succ, rd_cons_zero]

/-- Every slice of the integer grammar passes the list form of the classifier. -/
theorem check_integer_list_accepts (n m : Nat) (neg : Bool) (ds tail : List Nat)
    (hds : ∀ c ∈ ds, is_digit c = true) (hbody : ds ≠ [] ∨ neg = false)
    (htail : rd tail 0 = 0 ∨ rd tail 0 = 44) :
    check_integer_list (List.replicate n 32 ++ ((if neg then [45] else []) ++
      (ds ++ (List.replicate m 32 ++ tail)))) = true := by
  have htsp : is_space (rd tail 0) = false := by
    rcases htail with h | h <;> simp [h, is_space]
  have hY : ((List.replicate m 32 ++ tail).dropWhile is_digit).dropWhile is_space = tail := by
    have : is_digit (rd (List.replicate m 32 ++ tail) 0) = false := by
      rcases rd_spaces_tail m tail htail with h | h | h <;> simp [h, is_digit]
    rw [dropWhile_of_rd _ _ this, dropWhile_spaces, dropWhile_of_rd _ _ htsp]
  have hfin : (rd tail 0 == 0 || rd tail 0 == 44) = true := by
    rcases htail with h | h <;> simp [h]
  have hdig : ∀ l, (ds ++ l).dropWhile is_digit = l.dropWhile is_digit :=
    fun l => List.dropWhile_append_of_pos hds
  unfold check_integer_list
  rw [dropWhile_spaces]
  cases ds with
  | nil =>
    have hneg : neg = false := by simpa using hbody
    subst hneg
    simp only [Bool.false_eq_true, if_false, List.nil_append, dropWhile_spaces,
      dropWhile_of_rd _ _ htsp]
    rcases htail with h | h <;> simp [h]
  | cons d ds' =>
    have hd := (is_digit_iff d).1 (hds d (List.mem_cons_self _ _))
    cases neg with
    | false =>
      have hsp : is_space d = false := by simp [is_space]; omega
      have h1 : (d == 44 || d == 0) = false := by simp; omega
      have h2 : (d == 45) = false := by simp; omega
      simp only [Bool.false_eq_true, if_false, List.nil_append, List.cons_append,
        List.dropWhile_cons, hsp, rd_cons_zero, h1, h2, hds d (List.mem_cons_self _ _),
        Bool.true_or, if_true]
      have := hdig (List.replicate m 32 ++ tail)
      simp only [List.cons_append, List.dropWhile_cons, hds d (List.mem_cons_self _ _),
        if_true] at this
      rw [this, hY, hfin]
    | true =>
      have hsp : is_space 45 = false := by decide
      simp only [if_true, List.cons_append, List.nil_append, List.dropWhile_cons, hsp,
        Bool.false_eq_true, if_false, rd_cons_zero]
      simp only [show ((45 : Nat) == 44 || (45 : Nat) == 0) = false by decide,
        Bool.false_eq_true, if_false, show is_digit 45 = false by decide, Bool.false_or,
        beq_self_eq_true, if_true, List.drop_succ_cons, List.drop_zero]
      have := hdig (List.replicate m 32 ++ tail)
      simp only [List.cons_append] at this
      rw [this, hY, hfin]

/-! ## One field of a line -/

theorem takeWhile_append_of_stop (p : Nat → Bool) (a b : List Nat) (h : a.dropWhile p ≠ []) :
    (a ++ b).takeWhile p = a.takeWhile p := by
  induction a with
  | nil => simp at h
  | cons c cs ih =>
    by_cases hc : p c = true
    · simp only [List.cons_append, List.takeWhile_cons, hc, if_true]
      rw [ih (by simpa [List.dropWhile_cons, hc] using h)]
    · simp [List.takeWhile_cons, hc]

theorem dropWhile_append_of_stop (p : Nat → Bool) (a b : List Nat) (h : a.dropWhile p ≠ []) :
    (a ++ b).dropWhile p = a.dropWhile p ++ b := by
  induction a with
  | nil => simp at h
  | cons c cs ih =>
    by_cases hc : p c = true
    · simp only [List.cons_append, List.dropWhile_cons, hc, if_true]
      exact ih (by simpa [List.dropWhile_cons, hc] using h)
    · simp [List.dropWhile_cons, hc]

theorem takeWhile_append_sep (p : Nat → Bool) (a r : List Nat) (x : Nat) (hx : p x = false) :
    (a ++ x :: r).takeWhile p = a.takeWhile p := by
  induction a with
  | nil => simp [List.takeWhile_cons, hx]
  | cons c cs ih =>
    by_cases hc : p c = true
    · simp only [List.cons_append, List.takeWhile_cons, hc, if_true, ih]
    · simp [List.takeWhile_cons, hc]

theorem dropWhile_append_sep (p : Nat → Bool) (a r : List Nat) (x : Nat) (hx : p x = false) :
    (a ++ x :: r).dropWhile p = a.dropWhile p ++ x :: r := by
  induction a with
  | nil => simp [List.dropWhile_cons, hx]
  | cons c cs ih =>
    by_cases hc : p c = true
    · simp only [List.cons_append, List.dropWhile_cons, hc, if_true, ih]
    · simp [List.dropWhile_cons, hc]

theorem takeWhile_eq_self (p : Nat → Bool) (l : List Nat) (h : ∀ c ∈ l, p c = true) :
    l.takeWhile p = l := by
  induction l with
  | nil => rfl
  | cons c cs ih =>
    simp only [List.takeWhile_cons, h c (List.mem_cons_self _ _), if_true]
    rw [ih (fun x hx => h x (List.mem_cons_of_mem _ hx))]

theorem mem_of_mem_dropWhile {p : Nat → Bool} {l : List Nat} {c : Nat}
    (h : c ∈ l.dropWhile p) : c ∈ l :=
  (List.dropWhile_sublist p).subset h

theorem rd_zero_mem {l : List Nat} (h : l ≠ []) : rd l 0 ∈ l := by
  cases l with
  | nil => exact absurd rfl h
  | cons c cs => rw [rd_cons_zero]; exact List.mem_cons_self _ _

theorem rd_append_zero {a : List Nat} (b : List Nat) (h : a ≠ []) : rd (a ++ b) 0 = rd a 0 := by
  cases a with
  | nil => exact absurd rfl h
  | cons c cs => rfl

theorem rd_tail_cases {tail : List Nat} (htail : tail = [] ∨ tail.head? = some 44) :
    rd tail 0 = 0 ∨ rd tail 0 = 44 := by
  rcases htail with h | h
  · left; rw [h]; rfl
  · right
    cases tail with
    | nil => simp at h
    | cons c cs =>
      simp only [List.head?_cons, Option.some.injEq] at h
      rw [rd_cons_zero, h]

theorem scan_field_end (f tail : List Nat) (hf : field_bytes f)
    (htail : tail = [] ∨ tail.head? = some 44) (k : Nat) (hk : k ≤ f.length) :
    scan_while (fun c => c != 44 && c != 0) (f ++ tail) k = f.length := by
  unfold scan_while
  have hdrop : (f ++ tail).drop k = f.drop k ++ tail := by
    rw [List.drop_append_of_le_length hk]
  have hall : ∀ c ∈ f.drop k, (fun c => c != 44 && c != 0) c = true := by
    intro c hc
    have := hf c (List.mem_of_mem_drop hc)
    simp [this.1, this.2.1]
  rw [hdrop]
  have : (f.drop k ++ tail).takeWhile (fun c => c != 44 && c != 0) = f.drop k := by
    cases tail with
    | nil => simp only [List.append_nil]; exact takeWhile_eq_self _ _ hall
    | cons x r =>
      have hx : x = 44 := by
        rcases htail with h | h
        · exact absurd h (by simp)
        · simpa using h
      subst hx
      rw [takeWhile_append_sep _ _ _ _ (by decide)]
      exact takeWhile_eq_self _ _ hall
  rw [this, List.length_drop]
  omega

/-- One iteration of the decode loop on a line that starts with the field `f`
(not empty after its leading spaces) followed by `tail`, which is empty or starts
with the comma. -/
theorem csvp_next_record_body_field (f tail : List Nat) (buffer_size idx : Nat)
    (record : csvp_record_t) (hf : field_bytes f) (hne : f.dropWhile is_space ≠ [])
    (htail : tail = [] ∨ tail.head? = some 44) (hidx : idx < record.size) :
    csvp_next_record_body (f ++ tail) buffer_size 0 idx record =
      match csvp_next_record_switch (f ++ tail) buffer_size (f.takeWhile is_space).length
          idx record with
      | none => none
      | some (r, idx') =>
        if rd tail 0 == 0 then some (.inl r) else some (.inr (f.length + 1, idx', r)) := by
  have hfne : f ≠ [] := by
    intro h; rw [h] at hne; exact hne rfl
  have h0 := hf _ (rd_zero_mem hfne)
  have hk : scan_while (fun c => c == 32) (f ++ tail) 0 = (f.takeWhile is_space).length := by
    rw [scan_while_zero, space_pred_eq, takeWhile_append_of_stop _ _ _ hne]
  have hc : rd (f ++ tail) (f.takeWhile is_space).length = rd (f.dropWhile is_space) 0 := by
    rw [← takeWhile_append_of_stop _ f tail hne, rd_length_takeWhile,
      dropWhile_append_of_stop _ _ _ hne, rd_append_zero _ hne]
  have h1 := hf _ (mem_of_mem_dropWhile (rd_zero_mem hne))
  have hend := scan_field_end f tail hf htail _ (length_takeWhile_le is_space f)
  have hrd : rd (f ++ tail) f.length = rd tail 0 := by
    have := rd_append_right f tail 0
    simpa using this
  unfold csvp_next_record_body
  rw [rd_append_zero _ hfne]
  have hcond : (rd f 0 != 0 && rd f 0 != 10 && decide (idx < record.size)) = true := by
    simp [h0.2.1, h0.2.2, hidx]
  rw [if_pos hcond]
  simp only [hk, hc]
  have hbrk : (rd (f.dropWhile is_space) 0 == 0 || rd (f.dropWhile is_space) 0 == 10) = false := by
    simp [h1.2.1, h1.2.2]
  simp only [hbrk, Bool.false_eq_true, if_false, hend, hrd]

theorem dropWhile_append_tail (p : Nat → Bool) (x tail : List Nat) (hp : p 44 = false)
    (htail : tail = [] ∨ tail.head? = some 44) :
    (x ++ tail).dropWhile p = x.dropWhile p ++ tail := by
  cases tail with
  | nil => simp
  | cons c r =>
    have hc : c = 44 := by
      rcases htail with h | h
      · exact absurd h (by simp)
      · simpa using h
    subst hc
    exact dropWhile_append_sep p x r 44 hp

theorem rd_append_tail_test (q : Nat → Bool) (h0 : q 0 = q 44) (x tail : List Nat)
    (htail : tail = [] ∨ tail.head? = some 44) :
    q (rd (x ++ tail) 0) = q (rd x 0) := by
  cases x with
  | nil =>
    rcases rd_tail_cases htail with h | h
    · simp [h, rd_nil]
    · simp [h, rd_nil, h0]
  | cons c cs => rfl

/-- The integer classifier looks at the leading field only. -/
theorem check_integer_list_append (x tail : List Nat)
    (htail : tail = [] ∨ tail.head? = some 44) :
    check_integer_list (x ++ tail) = check_integer_list x := by
  unfold check_integer_list
  rw [dropWhile_append_tail _ _ _ (by decide) htail]
  generalize x.dropWhile is_space = t
  cases t with
  | nil =>
    rcases rd_tail_cases htail with h | h <;> simp [h, rd_nil]
  | cons c cs =>
    simp only [List.cons_append, rd_cons_zero, List.drop_succ_cons, List.drop_zero]
    have hu : (if (c == 45) = true then cs ++ tail else c :: (cs ++ tail)) =
        (if (c == 45) = true then cs else c :: cs) ++ tail := by
      split <;> rfl
    rw [hu]
    generalize (if (c == 45) = true then cs else c :: cs) = u
    rw [dropWhile_append_tail _ _ _ (by decide) htail,
      dropWhile_append_tail _ _ _ (by decide) htail]
    rw [rd_append_tail_test (fun c => c == 0 || c == 44) (by decide) _ _ htail]

/-- The float classifier looks at the leading field only. -/
theorem check_float_list_append (x tail : List Nat)
    (htail : tail = [] ∨ tail.head? = some 44) :
    check_float_list (x ++ tail) = check_float_list x := by
  unfold check_float_list
  rw [dropWhile_append_tail _ _ _ (by decide) htail]
  generalize x.dropWhile is_space = t
  cases t with
  | nil =>
    rcases rd_tail_cases htail with h | h <;> simp [h, rd_nil]
  | cons c cs =>
    simp only [List.cons_append, rd_cons_zero, List.drop_succ_cons, List.drop_zero]
    have hu : (if (c == 46 || c == 45) = true then cs ++ tail else c :: (cs ++ tail)) =
        (if (c == 46 || c == 45) = true then cs else c :: cs) ++ tail := by
      split <;> rfl
    rw [hu]
    generalize (if (c == 46 || c == 45) = true then cs else c :: cs) = u
    rw [dropWhile_append_tail _ _ _ (by decide) htail]
    generalize u.dropWhile is_digit = v
    rw [rd_append_tail_test (fun c => c == 46) (by decide) _ _ htail,
      rd_append_tail_test (fun c => c == 44 || c == 0) (by decide) _ _ htail]
    cases v with
    | nil =>
      simp only [rd_nil, List.nil_append]
      rcases rd_tail_cases htail with h | h <;> simp
    | cons d ds =>
      simp only [List.cons_append, List.drop_succ_cons, List.drop_zero]
      rw [dropWhile_append_tail _ _ _ (by decide) htail,
        rd_append_tail_test (fun c => c == 44 || c == 0) (by decide) _ _ htail]

theorem dropWhile_dropWhile (p : Nat → Bool) (l : List Nat) :
    (l.dropWhile p).dropWhile p = l.dropWhile p := by
  induction l with
  | nil => rfl
  | cons c cs ih =>
    by_cases hc : p c = true
    · simp [List.dropWhile_cons, hc, ih]
    · simp [List.dropWhile_cons, hc]

theorem check_integer_list_dropWhile (x : List Nat) :
    check_integer_list (x.dropWhile is_space) = check_integer_list x := by
  unfold check_integer_list
  rw [dropWhile_dropWhile]

theorem check_float_list_dropWhile (x : List Nat) :
    check_float_list (x.dropWhile is_space) = check_float_list x := by
  unfold check_float_list
  rw [dropWhile_dropWhile]

theorem drop_leading_spaces (f tail : List Nat) :
    (f ++ tail).drop (f.takeWhile is_space).length = f.dropWhile is_space ++ tail := by
  rw [List.drop_append_of_le_length (length_takeWhile_le _ _), drop_length_takeWhile]

theorem size_sub_leading_spaces (f tail : List Nat) (hlen : (f ++ tail).length < 2 ^ 31) :
    size_sub (f ++ tail).length (f.takeWhile is_space).length =
      (f.dropWhile is_space ++ tail).length := by
  have h1 := length_takeWhile_add_dropWhile is_space f
  rw [size_sub_eq (by simp; omega) (by unfold SIZE_RANGE; omega)]
  simp only [List.length_append]
  omega

/-- In the decoder the integer classifier gives, on the slice that starts at a
field, what it gives on the field alone. -/
theorem csvp_check_integer_slice (f tail : List Nat) (hlen : (f ++ tail).length < 2 ^ 31)
    (htail : tail = [] ∨ tail.head? = some 44) :
    csvp_check_integer (f.dropWhile is_space ++ tail) (f.dropWhile is_space ++ tail).length =
      csvp_check_integer f f.length := by
  have h1 := length_takeWhile_add_dropWhile is_space f
  simp only [List.length_append] at hlen
  rw [csvp_check_integer_eq_list _ _ (by simp only [List.length_append]; omega) (le_refl _)
      (by unfold SIZE_RANGE; simp only [List.length_append]; omega),
    csvp_check_integer_eq_list _ _ (by omega) (le_refl _) (by unfold SIZE_RANGE; omega),
    check_integer_list_append _ _ htail, check_integer_list_dropWhile]

theorem csvp_check_float_slice (f tail : List Nat) (hlen : (f ++ tail).length < 2 ^ 31)
    (htail : tail = [] ∨ tail.head? = some 44) :
    csvp_check_float (f.dropWhile is_space ++ tail) (f.dropWhile is_space ++ tail).length =
      csvp_check_float f f.length := by
  have h1 := length_takeWhile_add_dropWhile is_space f
  simp only [List.length_append] at hlen
  rw [csvp_check_float_eq_list _ _ (by simp only [List.length_append]; omega) (le_refl _),
    csvp_check_float_eq_list _ _ (by omega) (le_refl _),
    check_float_list_append _ _ htail, check_float_list_dropWhile]

/-! ## Lines that fit the line buffer -/

theorem csvp_next_record_eq_decode_line (fd : List Nat) (record : csvp_record_t)
    (hok : csvp_record_ok record) (hfit : (first_line fd).length < RECORD_BUFSIZE) :
    ∃ fd' r, csvp_next_record fd record = some (fd', r, ((first_line fd).length : Int)) ∧
      csvp_decode_line (first_line fd) record = some r := by
  unfold RECORD_BUFSIZE at hfit
  obtain ⟨r, h1, h2, _⟩ := csvp_next_record_spec fd record hok
  have htake : (first_line fd).take 1023 = first_line fd := List.take_of_length_le (by omega)
  have hmin : min (first_line fd).length 1023 = (first_line fd).length := by omega
  rw [htake, hmin] at h2
  rw [hmin] at h1
  exact ⟨_, r, h1, h2⟩

theorem csvp_decode_line_some (line : List Nat) (record : csvp_record_t)
    (hok : csvp_record_ok record) (hfit : line.length < RECORD_BUFSIZE) (fuel : Nat)
    (hfuel : line.length < fuel) :
    ∃ r, csvp_next_record_loop line line.length fuel 0 0 record = some r ∧
      csvp_decode_line line record = some r := by
  unfold RECORD_BUFSIZE at hfit
  obtain ⟨r, hr, _⟩ := csvp_next_record_loop_frame line line.length (by omega) fuel 0 0 record
    hok (by omega) (by omega)
  obtain ⟨r', hr', _⟩ := csvp_next_record_loop_frame line line.length (by omega) RECORD_BUFSIZE
    0 0 record hok (by omega) (by unfold RECORD_BUFSIZE; omega)
  refine ⟨r, hr, ?_⟩
  unfold csvp_decode_line
  -- both runs have enough fuel: compare them through the larger one
  have hup : ∀ d f, csvp_next_record_loop line line.length f 0 0 record = some r →
      csvp_next_record_loop line line.length (f + d) 0 0 record = some r := by
    intro d
    induction d with
    | zero => intro f h; exact h
    | succ d ih =>
      intro f h
      exact csvp_next_record_loop_mono _ _ _ _ _ _ _ (ih f h)
  have hup' : ∀ d f, csvp_next_record_loop line line.length f 0 0 record = some r' →
      csvp_next_record_loop line line.length (f + d) 0 0 record = some r' := by
    intro d
    induction d with
    | zero => intro f h; exact h
    | succ d ih =>
      intro f h
      exact csvp_next_record_loop_mono _ _ _ _ _ _ _ (ih f h)
  have h1 := hup RECORD_BUFSIZE fuel hr
  have h2 := hup' fuel RECORD_BUFSIZE hr'
  rw [Nat.add_comm] at h2
  rw [h1] at h2
  rw [hr', ← Option.some.inj h2]

theorem check_integer_of_blank (b : List Nat) (hlen : b.length < 2 ^ 31)
    (h : b.dropWhile is_space = []) : csvp_check_integer b b.length = true := by
  rw [csvp_check_integer_eq_list _ _ hlen (le_refl _) (by unfold SIZE_RANGE; omega)]
  unfold check_integer_list
  rw [h]; rfl

theorem check_float_of_blank (b : List Nat) (hlen : b.length < 2 ^ 31)
    (h : b.dropWhile is_space = []) : csvp_check_float b b.length = true := by
  rw [csvp_check_float_eq_list _ _ hlen (le_refl _)]
  unfold check_float_list
  rw [h]; rfl

theorem csvp_next_record_switch_reject (b tail : List Nat) (record : csvp_record_t)
    (hlen : (b ++ tail).length < 2 ^ 31) (htail : tail = [] ∨ tail.head? = some 44)
    (hrej : first_field_rejected record b) :
    b.dropWhile is_space ≠ [] ∧
    csvp_next_record_switch (b ++ tail) (b ++ tail).length (b.takeWhile is_space).length 0 record
      = some (record, 0) := by
  have hb31 : b.length < 2 ^ 31 := by
    simp only [List.length_append] at hlen; omega
  have hne : b.dropWhile is_space ≠ [] := by
    intro h
    rcases hrej with ⟨n, _, hc⟩ | ⟨q, _, hc⟩
    · rw [check_integer_of_blank b hb31 h] at hc; exact absurd hc (by decide)
    · rw [check_float_of_blank b hb31 h] at hc; exact absurd hc (by decide)
  refine ⟨hne, ?_⟩
  unfold csvp_next_record_switch
  rw [drop_leading_spaces b tail, size_sub_leading_spaces b tail hlen]
  rcases hrej with ⟨n, hhd, hc⟩ | ⟨q, hhd, hc⟩
  · have hget : record.entries[0]? = some (.v_int n) := by
      rw [← List.head?_eq_getElem?]; exact hhd
    rw [hget]
    simp only [csvp_check_integer_slice b tail hlen htail, hc, Bool.false_eq_true, if_false]
  · have hget : record.entries[0]? = some (.v_float q) := by
      rw [← List.head?_eq_getElem?]; exact hhd
    rw [hget]
    simp only [csvp_check_float_slice b tail hlen htail, hc, Bool.false_eq_true, if_false]

/-- Resynchronisation on a line in the buffer: when the first field `b` is
rejected, decoding `b,L` does what decoding `L` does. -/
theorem csvp_decode_line_resync (b L : List Nat) (record : csvp_record_t)
    (hok : csvp_record_ok record) (hb : field_bytes b)
    (hfit : (b ++ 44 :: L).length < RECORD_BUFSIZE) (hrej : first_field_rejected record b) :
    ∃ r, csvp_decode_line (b ++ 44 :: L) record = some r ∧ csvp_decode_line L record = some r := by
  have hfit' := hfit
  unfold RECORD_BUFSIZE at hfit'
  simp only [List.length_append, List.length_cons] at hfit'
  have htail : (44 :: L) = [] ∨ (44 :: L).head? = some 44 := Or.inr rfl
  obtain ⟨hne, hsw⟩ := csvp_next_record_switch_reject b (44 :: L) record
    (by simp only [List.length_append, List.length_cons]; omega) htail hrej
  have hsize : 0 < record.size := by
    rw [hok.1]
    rcases hrej with ⟨n, hhd, _⟩ | ⟨q, hhd, _⟩ <;>
    · cases h : record.entries with
      | nil => rw [h] at hhd; simp at hhd
      | cons e es => simp
  have hbody := csvp_next_record_body_field b (44 :: L) (b ++ 44 :: L).length 0 record hb hne
    htail hsize
  rw [hsw] at hbody
  simp only [rd_cons_zero, show ((44 : Nat) == 0) = false by decide, Bool.false_eq_true,
    if_false] at hbody
  obtain ⟨r, hr, hdec⟩ := csvp_decode_line_some L record hok
    (by unfold RECORD_BUFSIZE; omega) 1023 (by omega)
  refine ⟨r, ?_, hdec⟩
  unfold csvp_decode_line RECORD_BUFSIZE
  rw [show (1024 : Nat) = 1023 + 1 by rfl, csvp_next_record_loop_succ, hbody]
  simp only []
  have hshift := csvp_next_record_loop_shift (b ++ 44 :: L) (b ++ 44 :: L).length (b.length + 1)
    1023 0 0 record
  rw [Nat.add_zero] at hshift
  rw [hshift]
  have hdrop : (b ++ 44 :: L).drop (b.length + 1) = L := by
    rw [List.drop_append_eq_append_drop]
    simp
  have hsub : size_sub (b ++ 44 :: L).length (b.length + 1) = L.length := by
    have hl : (b ++ 44 :: L).length = b.length + (L.length + 1) := by
      simp only [List.length_append, List.length_cons]
    rw [hl, size_sub_eq (by omega) (by unfold SIZE_RANGE; omega)]
    omega
  rw [hdrop, hsub]
  exact hr

theorem first_line_append_comma (b R : List Nat) (hb : field_bytes b) :
    first_line (b ++ 44 :: R) = b ++ 44 :: first_line R := by
  unfold first_line
  rw [List.takeWhile_append_of_pos]
  · simp [List.takeWhile_cons]
  · intro c hc
    have := hb c hc
    simp [this.2.1, this.2.2]

/-! ## The values `atoi` and `atof` read -/

theorem digits_value_foldl (ds : List Nat) (a : Nat) :
    ds.foldl (fun a c => 10 * a + (c - 48)) a = a * 10 ^ ds.length + decimal_value ds := by
  induction ds generalizing a with
  | nil => simp [decimal_value]
  | cons d ds ih =>
    rw [List.foldl_cons, ih]
    simp only [decimal_value, List.reverse_cons, List.map_append, List.map_cons, List.map_nil,
      Nat.ofDigits_append, Nat.ofDigits_singleton, List.length_map, List.length_reverse,
      List.length_cons]
    ring

theorem digits_value_eq (ds : List Nat) : digits_value ds = decimal_value ds := by
  unfold digits_value
  rw [digits_value_foldl]; simp

theorem decimal_value_append (a b : List Nat) :
    decimal_value (a ++ b) = decimal_value a * 10 ^ b.length + decimal_value b := by
  rw [← digits_value_eq, ← digits_value_eq, ← digits_value_eq]
  unfold digits_value
  rw [List.foldl_append, digits_value_foldl, digits_value_foldl, digits_value_foldl]
  simp

theorem takeWhile_append_tail (p : Nat → Bool) (x tail : List Nat) (hp : p 44 = false)
    (htail : tail = [] ∨ tail.head? = some 44) :
    (x ++ tail).takeWhile p = x.takeWhile p := by
  cases tail with
  | nil => simp
  | cons c r =>
    have hc : c = 44 := by
      rcases htail with h | h
      · exact absurd h (by simp)
      · simpa using h
    subst hc
    exact takeWhile_append_sep p x r 44 hp

/-- An accepted field that is not blank starts, after its spaces, with a digit
or `-`. -/
theorem check_integer_head (f : List Nat) (hf : field_bytes f) (hlen : f.length < 2 ^ 31)
    (hacc : csvp_check_integer f f.length = true) (c : Nat) (cs : List Nat)
    (ht : f.dropWhile is_space = c :: cs) : is_digit c = true ∨ c = 45 := by
  rw [csvp_check_integer_eq_list _ _ hlen (le_refl _) (by unfold SIZE_RANGE; omega)] at hacc
  unfold check_integer_list at hacc
  rw [ht] at hacc
  have hc := hf c (mem_of_mem_dropWhile (by rw [ht]; exact List.mem_cons_self _ _))
  have h1 : (c == 44 || c == 0) = false := by simp [hc.1, hc.2.1]
  simp only [rd_cons_zero, h1, Bool.false_eq_true, if_false] at hacc
  by_cases h2 : (is_digit c || c == 45) = true
  · simpa using h2
  · simp [h2] at hacc

theorem atoi_slice (f tail : List Nat) (hf : field_bytes f) (hlen : f.length < 2 ^ 31)
    (hne : f.dropWhile is_space ≠ []) (hacc : csvp_check_integer f f.length = true)
    (hlo : -(2 ^ 31 : Int) ≤ int_denoted f) (hhi : int_denoted f < (2 ^ 31 : Int))
    (htail : tail = [] ∨ tail.head? = some 44) :
    atoi (f.dropWhile is_space ++ tail) = int_denoted f := by
  cases ht : f.dropWhile is_space with
  | nil => exact absurd ht hne
  | cons c cs =>
    have hhead := check_integer_head f hf hlen hacc c cs ht
    have hwrap : ∀ z : Int, -(2 ^ 31 : Int) ≤ z → z < (2 ^ 31 : Int) →
        (max (-(2 ^ 63 : Int)) (min (2 ^ 63 - 1) z) + 2 ^ 31) % 2 ^ 32 - 2 ^ 31 = z := by
      intro z h1 h2
      have : max (-(2 ^ 63 : Int)) (min (2 ^ 63 - 1) z) = z := by
        rw [min_eq_right (by omega), max_eq_right (by omega)]
      rw [this]
      omega
    unfold int_denoted at hlo hhi ⊢
    rw [ht] at hlo hhi ⊢
    unfold atoi
    by_cases h45 : c = 45
    · subst h45
      have hsp : isspace 45 = false := by decide
      simp only [List.cons_append, List.dropWhile_cons, hsp, Bool.false_eq_true, if_false,
        List.head?_cons, beq_self_eq_true, Bool.true_or, if_true, List.tail_cons,
        takeWhile_append_tail _ _ _ (show is_digit 44 = false by decide) htail,
        digits_value_eq] at hlo hhi ⊢
      exact hwrap _ hlo hhi
    · have hd : is_digit c = true := by
        rcases hhead with h | h
        · exact h
        · exact absurd h h45
      have hd' := (is_digit_iff c).1 hd
      have hsp : isspace c = false := by
        simp [isspace]; omega
      have hn45 : (some c == some 45) = false := by
        simp [h45]
      have hn43 : (some c == some 43) = false := by
        simp; omega
      have hm : (match c :: cs with
          | 45 :: u => - (decimal_value (u.takeWhile is_digit) : Int)
          | t => (decimal_value (t.takeWhile is_digit) : Int)) =
          (decimal_value ((c :: cs).takeWhile is_digit) : Int) := by
        split
        · rename_i u heq
          exact absurd (List.cons.inj heq).1 h45
        · rfl
      rw [hm] at hlo hhi ⊢
      have htw := takeWhile_append_tail is_digit (c :: cs) tail (by decide) htail
      simp only [List.cons_append] at htw
      simp only [List.cons_append, List.dropWhile_cons, hsp, Bool.false_eq_true, if_false,
        List.head?_cons, hn45, hn43, Bool.or_self, htw, digits_value_eq] at hlo hhi ⊢
      exact hwrap _ hlo hhi

theorem check_float_head (f : List Nat) (hf : field_bytes f) (hlen : f.length < 2 ^ 31)
    (hacc : csvp_check_float f f.length = true) (c : Nat) (cs : List Nat)
    (ht : f.dropWhile is_space = c :: cs) : is_digit c = true ∨ c = 46 ∨ c = 45 := by
  rw [csvp_check_float_eq_list _ _ hlen (le_refl _)] at hacc
  unfold check_float_list at hacc
  rw [ht] at hacc
  have hc := hf c (mem_of_mem_dropWhile (by rw [ht]; exact List.mem_cons_self _ _))
  have h1 : (c == 44 || c == 0) = false := by simp [hc.1, hc.2.1]
  simp only [rd_cons_zero, h1, Bool.false_eq_true, if_false] at hacc
  by_cases h2 : (is_digit c || c == 46 || c == 45) = true
  · simpa [or_assoc] using h2
  · simp [h2] at hacc

theorem fraction_digits_append (r tail : List Nat) (htail : tail = [] ∨ tail.head? = some 44) :
    (if ((r ++ tail).head? == some 46) = true then (r ++ tail).tail.takeWhile is_digit else []) =
      fraction_digits r := by
  cases r with
  | nil =>
    have : (([] ++ tail).head? == some 46) = false := by
      rcases htail with h | h
      · rw [h]; rfl
      · rw [List.nil_append, h]; rfl
    rw [this]; rfl
  | cons x w =>
    by_cases hx : x = 46
    · subst hx
      simp only [List.cons_append, List.head?_cons, beq_self_eq_true, if_true, List.tail_cons,
        fraction_digits, takeWhile_append_tail _ _ _ (show is_digit 44 = false by decide) htail]
    · have h1 : ((x :: w ++ tail).head? == some 46) = false := by
        simp [hx]
      rw [h1]
      simp only [Bool.false_eq_true, if_false]
      unfold fraction_digits
      split
      · rename_i w' heq
        exact absurd (List.cons.inj heq).1 hx
      · rfl

theorem atof_value (ip fp : List Nat) :
    mkRat ((digits_value (ip ++ fp) : Nat) : Int) (10 ^ fp.length) =
      (decimal_value ip : ℚ) + (decimal_value fp : ℚ) / 10 ^ fp.length := by
  rw [Rat.mkRat_eq_div, digits_value_eq, decimal_value_append]
  have h10 : ((10 : ℚ) ^ fp.length) ≠ 0 := pow_ne_zero _ (by norm_num)
  push_cast
  field_simp

/-- What `atof` returns once the number has been read: the `double` that its
sign and digits denote. -/
theorem atof_double (neg : Bool) (ip fp : List Nat) :
    (if (ip.isEmpty && fp.isEmpty) = true then double.zero
      else round_double neg (mkRat ((digits_value (ip ++ fp) : Nat) : Int) (10 ^ fp.length))) =
      double_of_decimal neg ip fp := by
  unfold double_of_decimal
  rw [atof_value]

theorem atof_slice (f tail : List Nat) (hf : field_bytes f) (hlen : f.length < 2 ^ 31)
    (hne : f.dropWhile is_space ≠ []) (hacc : csvp_check_float f f.length = true)
    (htail : tail = [] ∨ tail.head? = some 44) :
    atof (f.dropWhile is_space ++ tail) = double_denoted f := by
  cases ht : f.dropWhile is_space with
  | nil => exact absurd ht hne
  | cons c cs =>
    have hhead := check_float_head f hf hlen hacc c cs ht
    unfold double_denoted
    rw [ht]
    unfold atof
    by_cases h45 : c = 45
    · subst h45
      have hsp : isspace 45 = false := by decide
      simp only [List.cons_append, List.dropWhile_cons, hsp, Bool.false_eq_true, if_false,
        List.head?_cons, beq_self_eq_true, Bool.true_or, if_true, List.tail_cons,
        takeWhile_append_tail _ _ _ (show is_digit 44 = false by decide) htail,
        dropWhile_append_tail _ _ _ (show is_digit 44 = false by decide) htail,
        fraction_digits_append _ _ htail]
      exact atof_double true (cs.takeWhile is_digit) (fraction_digits (cs.dropWhile is_digit))
    · have hsp : isspace c = false := by
        rcases hhead with h | h | h
        · have := (is_digit_iff c).1 h
          simp [isspace]; omega
        · subst h; decide
        · exact absurd h h45
      have hn45 : (some c == some 45) = false := by
        simp [h45]
      have hn43 : (some c == some 43) = false := by
        rcases hhead with h | h | h
        · have := (is_digit_iff c).1 h
          simp; omega
        · subst h; decide
        · exact absurd h h45
      have hm : (match c :: cs with
          | 45 :: u =>
            double_of_decimal true (u.takeWhile is_digit)
              (fraction_digits (u.dropWhile is_digit))
          | t =>
            double_of_decimal false (t.takeWhile is_digit)
              (fraction_digits (t.dropWhile is_digit))) =
          double_of_decimal false ((c :: cs).takeWhile is_digit)
            (fraction_digits ((c :: cs).dropWhile is_digit)) := by
        split
        · rename_i u heq
          exact absurd (List.cons.inj heq).1 h45
        · rfl
      rw [hm]
      have htw := takeWhile_append_tail is_digit (c :: cs) tail (by decide) htail
      have hdw := dropWhile_append_tail is_digit (c :: cs) tail (by decide) htail
      simp only [List.cons_append] at htw hdw
      have hfr := fraction_digits_append ((c :: cs).dropWhile is_digit) tail htail
      simp only [List.cons_append, List.dropWhile_cons, hsp, Bool.false_eq_true, if_false,
        List.head?_cons, hn45, hn43, Bool.or_self, htw]
      rw [← List.dropWhile_cons, hdw, hfr]
      have := atof_double false ((c :: cs).takeWhile is_digit)
        (fraction_digits ((c :: cs).dropWhile is_digit))
      simp only [List.dropWhile_cons] at this ⊢
      exact this

/-! ## Decoding a line whose fields are all accepted -/

theorem getElem?_append_cons (done : List csvp_entry_t) (e : csvp_entry_t)
    (todo : List csvp_entry_t) : (done ++ e :: todo)[done.length]? = some e := by
  rw [List.getElem?_append_right (le_refl _)]
  simp

theorem set_append_cons (done : List csvp_entry_t) (e e1 : csvp_entry_t)
    (todo : List csvp_entry_t) : (done ++ e :: todo).set done.length e1 = done ++ e1 :: todo := by
  induction done with
  | nil => rfl
  | cons d ds ih => simp [ih]

theorem field_end_slice (f tail : List Nat) (hf : field_bytes f)
    (htail : tail = [] ∨ tail.head? = some 44) :
    field_end (f.dropWhile is_space ++ tail) (f.dropWhile is_space ++ tail).length =
      (f.dropWhile is_space).length := by
  unfold field_end
  rw [List.take_length, takeWhile_append_tail _ _ _ (by decide) htail, takeWhile_eq_self]
  intro c hc
  have := hf c (mem_of_mem_dropWhile hc)
  simp [this.1, this.2.1]

theorem csvp_write_string_slice (s : csvp_string_t) (f tail : List Nat) (hf : field_bytes f)
    (hne : f.dropWhile is_space ≠ []) (htail : tail = [] ∨ tail.head? = some 44)
    (hcap : s.capacity ≠ 0) (hlen : (f ++ tail).length < 2 ^ 31) :
    ∃ s' n, csvp_write_string (.v_string s) (f.dropWhile is_space ++ tail)
        (f.dropWhile is_space ++ tail).length = some (.v_string s', n) ∧
      c_string s'.data = f.dropWhile is_space ∧ s'.capacity ≠ 0 := by
  have h1 := length_takeWhile_add_dropWhile is_space f
  simp only [List.length_append] at hlen
  obtain ⟨s', r, hw, _, hcap', _, _, hdata⟩ :=
    csvp_string_write_spec s (f.dropWhile is_space ++ tail) (f.dropWhile is_space).length hcap
      (by omega)
  have hpos : (f.dropWhile is_space).length ≠ 0 := by
    intro h; exact hne (List.length_eq_zero.1 h)
  refine ⟨s', int_of_size (f.dropWhile is_space).length, ?_, ?_, by omega⟩
  · unfold csvp_write_string
    simp only [field_end_slice f tail hf htail, hw]
  · rw [hdata, if_neg hpos, List.take_left']
    · unfold c_string
      rw [takeWhile_append_sep _ _ _ _ (by decide), takeWhile_eq_self]
      intro c hc
      have := hf c (mem_of_mem_dropWhile hc)
      simp [this.2.1]
    · rfl

/-- The `switch` on a field that the entry at `idx` accepts: the entry takes the
value of the field and `idx` advances. -/
theorem csvp_next_record_switch_accept (f tail : List Nat) (done todo : List csvp_entry_t)
    (e : csvp_entry_t) (sz : Nat) (hacc : field_accepted f e) (hoke : csvp_entry_ok e = true)
    (htail : tail = [] ∨ tail.head? = some 44) (hlen : (f ++ tail).length < 2 ^ 31) :
    ∃ e1, csvp_next_record_switch (f ++ tail) (f ++ tail).length (f.takeWhile is_space).length
        done.length { size := sz, entries := done ++ e :: todo } =
        some ({ size := sz, entries := done ++ e1 :: todo }, done.length + 1) ∧
      entry_holds f e1 ∧ e1.type = e.type ∧ csvp_entry_ok e1 = true := by
  obtain ⟨hf, hne, hty⟩ := hacc
  have hf31 : f.length < 2 ^ 31 := by
    simp only [List.length_append] at hlen; omega
  unfold csvp_next_record_switch
  simp only [getElem?_append_cons, drop_leading_spaces f tail,
    size_sub_leading_spaces f tail hlen]
  cases e with
  | v_int n =>
    obtain ⟨hc, hlo, hhi⟩ := hty
    refine ⟨.v_int (int_denoted f), ?_, rfl, rfl, rfl⟩
    simp only [csvp_check_integer_slice f tail hlen htail, hc, if_true, csvp_write_integer,
      atoi_slice f tail hf hf31 hne hc hlo hhi htail, set_append_cons]
  | v_float q =>
    refine ⟨.v_float (double_denoted f), ?_, rfl, rfl, rfl⟩
    simp only [csvp_check_float_slice f tail hlen htail, hty, if_true, csvp_write_float,
      atof_slice f tail hf hf31 hne hty htail, set_append_cons]
  | v_string s =>
    have hcap : s.capacity ≠ 0 := by simpa [csvp_entry_ok] using hoke
    obtain ⟨s', n, hw, hcs, hcap'⟩ := csvp_write_string_slice s f tail hf hne htail hcap hlen
    refine ⟨.v_string s', ?_, hcs, rfl, by simpa [csvp_entry_ok] using hcap'⟩
    simp only [hw, set_append_cons]

theorem csv_line_cons (f : List Nat) (fs : List (List Nat)) :
    ∃ tail, csv_line (f :: fs) = f ++ tail ∧ (tail = [] ∨ tail.head? = some 44) ∧
      ((fs = [] ∧ tail = []) ∨ (fs ≠ [] ∧ tail = 44 :: csv_line fs)) := by
  cases fs with
  | nil => exact ⟨[], by simp [csv_line], Or.inl rfl, Or.inl ⟨rfl, rfl⟩⟩
  | cons g gs =>
    exact ⟨44 :: csv_line (g :: gs), by simp [csv_line], Or.inr rfl,
      Or.inr ⟨by simp, rfl⟩⟩

/-- The decode loop on a line whose fields are accepted one by one by the
entries from `idx` on: each of these entries takes the value of its field. -/
theorem csvp_next_record_loop_fields :
    ∀ (fs : List (List Nat)) (done todo : List csvp_entry_t) (sz fuel : Nat),
      List.Forall₂ field_accepted fs todo → (∀ e ∈ todo, csvp_entry_ok e = true) →
      done.length + todo.length = sz → (csv_line fs).length < 2 ^ 31 →
      (csv_line fs).length < fuel →
      ∃ todo', csvp_next_record_loop (csv_line fs) (csv_line fs).length fuel 0 done.length
          { size := sz, entries := done ++ todo } = some { size := sz, entries := done ++ todo' } ∧
        List.Forall₂ entry_holds fs todo' ∧
        todo'.map csvp_entry_t.type = todo.map csvp_entry_t.type := by
  intro fs
  induction fs with
  | nil =>
    intro done todo sz fuel hacc _ _ _ hfuel
    cases hacc
    obtain ⟨fuel', rfl⟩ : ∃ k, fuel = k + 1 := ⟨fuel - 1, by omega⟩
    refine ⟨[], ?_, List.Forall₂.nil, rfl⟩
    simp [csvp_next_record_loop, csv_line, rd_nil]
  | cons f fs ih =>
    intro done todo sz fuel hacc hok hsz hlen hfuel
    cases hacc with
    | cons hfe hrest =>
      rename_i e todo1
      obtain ⟨fuel', rfl⟩ : ∃ k, fuel = k + 1 := ⟨fuel - 1, by omega⟩
      obtain ⟨tail, hline, htail, hcases⟩ := csv_line_cons f fs
      rw [hline] at hlen hfuel ⊢
      obtain ⟨e1, hsw, hholds, hty, hoke1⟩ := csvp_next_record_switch_accept f tail done todo1 e sz
        hfe (hok e (List.mem_cons_self _ _)) htail hlen
      have hidx : done.length < ({ size := sz, entries := done ++ e :: todo1 } :
          csvp_record_t).size := by
        simp only [List.length_cons] at hsz
        show done.length < sz
        omega
      have hbody := csvp_next_record_body_field f tail (f ++ tail).length done.length
        { size := sz, entries := done ++ e :: todo1 } hfe.1 hfe.2.1 htail hidx
      rw [hsw] at hbody
      rw [csvp_next_record_loop_succ, hbody]
      rcases hcases with ⟨hfs, htl⟩ | ⟨hfs, htl⟩
      · subst hfs; subst htl
        cases hrest
        refine ⟨[e1], ?_, List.Forall₂.cons hholds List.Forall₂.nil, by simp [hty]⟩
        simp [rd_nil]
      · subst htl
        simp only [rd_cons_zero, show ((44 : Nat) == 0) = false by decide, Bool.false_eq_true,
          if_false]
        have hshift := csvp_next_record_loop_shift (f ++ 44 :: csv_line fs)
          (f ++ 44 :: csv_line fs).length (f.length + 1) fuel' 0 (done.length + 1)
          { size := sz, entries := done ++ e1 :: todo1 }
        rw [Nat.add_zero] at hshift
        have hl : (f ++ 44 :: csv_line fs).length = f.length + ((csv_line fs).length + 1) := by
          simp only [List.length_append, List.length_cons]
        have hdrop : (f ++ 44 :: csv_line fs).drop (f.length + 1) = csv_line fs := by
          rw [List.drop_append_eq_append_drop]
          simp
        have hsub : size_sub (f ++ 44 :: csv_line fs).length (f.length + 1) =
            (csv_line fs).length := by
          rw [hl, size_sub_eq (by omega) (by unfold SIZE_RANGE; omega)]
          omega
        rw [hshift, hdrop, hsub]
        have hdone : done ++ e1 :: todo1 = (done ++ [e1]) ++ todo1 := by simp
        have hdl : done.length + 1 = (done ++ [e1]).length := by simp
        rw [hdone, hdl]
        obtain ⟨todo', hloop, hall, htys⟩ := ih (done ++ [e1]) todo1 sz fuel' hrest
          (fun x hx => hok x (List.mem_cons_of_mem _ hx))
          (by simp only [List.length_append, List.length_cons, List.length_nil] at hsz ⊢; omega)
          (by omega) (by omega)
        refine ⟨e1 :: todo', ?_, List.Forall₂.cons hholds hall, by simp [hty, htys]⟩
        rw [hloop]
        simp

theorem csv_line_bytes :
    ∀ fs : List (List Nat), (∀ f ∈ fs, field_bytes f) → ∀ c ∈ csv_line fs, c ≠ 0 ∧ c ≠ 10 := by
  intro fs
  induction fs with
  | nil => intro _ c hc; simp [csv_line] at hc
  | cons f fs ih =>
    intro h c hc
    obtain ⟨tail, hline, _, hcases⟩ := csv_line_cons f fs
    rw [hline] at hc
    rcases List.mem_append.1 hc with h1 | h1
    · exact ((h f (List.mem_cons_self _ _)) c h1).2
    · rcases hcases with ⟨_, htl⟩ | ⟨_, htl⟩
      · rw [htl] at h1; simp at h1
      · rw [htl] at h1
        rcases List.mem_cons.1 h1 with h2 | h2
        · subst h2; decide
        · exact ih (fun g hg => h g (List.mem_cons_of_mem _ hg)) c h2

theorem first_line_of_line (line rest : List Nat) (hline : ∀ c ∈ line, c ≠ 0 ∧ c ≠ 10)
    (hrest : rest = [] ∨ rest.head? = some 10) : first_line (line ++ rest) = line := by
  unfold first_line
  rw [List.takeWhile_append_of_pos]
  · rcases hrest with h | h
    · rw [h]; simp
    · cases rest with
      | nil => simp
      | cons x r =>
        simp only [List.head?_cons, Option.some.injEq] at h
        subst h
        simp [List.takeWhile_cons]
  · intro c hc
    have := hline c hc
    simp [this.1, this.2]

theorem forall₂_field_bytes {fs : List (List Nat)} {es : List csvp_entry_t}
    (h : List.Forall₂ field_accepted fs es) : ∀ f ∈ fs, field_bytes f := by
  induction h with
  | nil => intro f hf; simp at hf
  | cons h1 _ ih =>
    intro f hf
    rcases List.mem_cons.1 hf with h2 | h2
    · subst h2; exact h1.1
    · exact ih f h2

/-- A line of accepted fields, decoded by `csvp_next_record`. -/
theorem csvp_next_record_fields (fields : List (List Nat)) (record : csvp_record_t)
    (rest : List Nat) (hok : csvp_record_ok record)
    (hfields : List.Forall₂ field_accepted fields record.entries)
    (hlen : (csv_line fields).length < RECORD_BUFSIZE)
    (hrest : rest = [] ∨ rest.head? = some 10) :
    ∃ fd' r, csvp_next_record (csv_line fields ++ rest) record =
        some (fd', r, ((csv_line fields).length : Int)) ∧
      r.size = record.size ∧
      r.entries.map csvp_entry_t.type = record.entries.map csvp_entry_t.type ∧
      List.Forall₂ entry_holds fields r.entries := by
  have hfl := first_line_of_line (csv_line fields) rest
    (csv_line_bytes fields (forall₂_field_bytes hfields)) hrest
  obtain ⟨fd', r, h1, h2⟩ := csvp_next_record_eq_decode_line (csv_line fields ++ rest) record hok
    (by rw [hfl]; exact hlen)
  rw [hfl] at h1 h2
  obtain ⟨todo', hloop, hall, hty⟩ := csvp_next_record_loop_fields fields [] record.entries
    record.size RECORD_BUFSIZE hfields hok.2 (by simpa using hok.1.symm)
    (by unfold RECORD_BUFSIZE at hlen; omega) hlen
  unfold csvp_decode_line at h2
  simp only [List.nil_append, List.length_nil] at hloop
  rw [hloop] at h2
  have hr := Option.some.inj h2
  refine ⟨fd', r, h1, ?_, ?_, ?_⟩
  · rw [← hr]
  · rw [← hr]; exact hty
  · rw [← hr]; exact hall

/-! ## What a decode does to the record does not depend on the record -/

theorem drop_overlay (p₁ p₂ d : List Nat) :
    p₂ ++ (p₁ ++ d.drop p₁.length).drop p₂.length =
      (p₂ ++ p₁.drop p₂.length) ++ d.drop (p₂ ++ p₁.drop p₂.length).length := by
  by_cases h : p₂.length ≤ p₁.length
  · rw [List.drop_append_of_le_length h]
    have : (p₂ ++ p₁.drop p₂.length).length = p₁.length := by
      simp only [List.length_append, List.length_drop]; omega
    rw [this, List.append_assoc]
  · have h' : p₁.length ≤ p₂.length := by omega
    have h1 : p₁.drop p₂.length = [] := List.drop_eq_nil_of_le h'
    rw [h1, List.append_nil, List.drop_append_eq_append_drop, List.drop_eq_nil_of_le h',
      List.nil_append, List.drop_drop]
    congr 2
    omega

theorem entry_patch_applies_after (p₁ p₂ : entry_patch) (e e₁ e₂ : csvp_entry_t)
    (h₁ : p₁.applies e e₁) (h₂ : p₂.applies e₁ e₂) : (p₂.after p₁).applies e e₂ := by
  cases p₂ with
  | keep =>
    have : e₂ = e₁ := h₂
    rw [this]
    exact h₁
  | set_int n => cases p₁ <;> exact h₂
  | set_float q => cases p₁ <;> exact h₂
  | overlay q₂ n₂ =>
    obtain ⟨s₁, s₂, he₁, he₂, hd, hs, hc, hn, hk⟩ := h₂
    cases p₁ with
    | keep =>
      have : e₁ = e := h₁
      rw [this] at he₁
      exact ⟨s₁, s₂, he₁, he₂, hd, hs, hc, hn, hk⟩
    | set_int n =>
      have : e₁ = .v_int n := h₁
      rw [this] at he₁
      exact absurd he₁ (by simp)
    | set_float q =>
      have : e₁ = .v_float q := h₁
      rw [this] at he₁
      exact absurd he₁ (by simp)
    | overlay q₁ n₁ =>
      obtain ⟨s, s₁', he, he₁', hd₁, hs₁, hc₁, hn₁, hk₁⟩ := h₁
      rw [he₁'] at he₁
      have hs₁eq : s₁' = s₁ := by
        injection he₁
      subst hs₁eq
      refine ⟨s, s₂, he, he₂, ?_, by rw [hs, hs₁], by omega, ?_, ?_⟩
      · rw [hd, hd₁]
        exact drop_overlay q₁ q₂ s.data
      · exact max_lt (by omega) hn
      · intro hlt
        have h1 : n₁ < s.capacity := lt_of_le_of_lt (le_max_left _ _) hlt
        have h2 : n₂ < s.capacity := lt_of_le_of_lt (le_max_right _ _) hlt
        have h3 := hk₁ h1
        rw [hk (by omega), h3]

theorem entry_patch_applies_idem (p : entry_patch) (e e₁ e₂ : csvp_entry_t)
    (h₁ : p.applies e e₁) (h₂ : p.applies e₁ e₂) : e₂ = e₁ := by
  cases p with
  | keep => exact h₂
  | set_int n =>
    have a : e₁ = .v_int n := h₁
    have b : e₂ = .v_int n := h₂
    rw [a, b]
  | set_float q =>
    have a : e₁ = .v_float q := h₁
    have b : e₂ = .v_float q := h₂
    rw [a, b]
  | overlay q n =>
    obtain ⟨s, s₁, _, he₁, hd₁, _, _, hn₁, _⟩ := h₁
    obtain ⟨s₁', s₂, he₁', he₂, hd₂, hs₂, _, _, hk₂⟩ := h₂
    rw [he₁] at he₁'
    have hs : s₁' = s₁ := by
      injection he₁' with h; exact h.symm
    subst hs
    rw [he₁, he₂]
    have hcap := hk₂ hn₁
    have hdata : s₂.data = s₁'.data := by
      rw [hd₂, hd₁, List.drop_append_eq_append_drop]
      simp
    cases s₂; cases s₁'
    simp only [csvp_string_t.mk.injEq, csvp_entry_t.v_string.injEq] at *
    exact ⟨hdata, hs₂, hcap⟩

theorem record_patched_idem (ps : Nat → entry_patch) (r r₁ r₂ : csvp_record_t)
    (h₁ : record_patched ps r r₁) (h₂ : record_patched ps r₁ r₂) : r₂ = r₁ := by
  obtain ⟨hs₁, hl₁, ha₁⟩ := h₁
  obtain ⟨hs₂, hl₂, ha₂⟩ := h₂
  have hent : r₂.entries = r₁.entries := by
    apply List.ext_getElem? 
    intro k
    by_cases hk : k < r.entries.length
    · obtain ⟨e₁, hg₁, hp₁⟩ := ha₁ k _ (List.getElem?_eq_getElem hk)
      obtain ⟨e₂, hg₂, hp₂⟩ := ha₂ k e₁ hg₁
      rw [hg₂, hg₁, entry_patch_applies_idem _ _ _ _ hp₁ hp₂]
    · rw [List.getElem?_eq_none (by omega), List.getElem?_eq_none (by omega)]
  cases r₂; cases r₁
  simp only [csvp_record_t.mk.injEq] at *
  exact ⟨hs₂, hent⟩

theorem record_patched_keep (r : csvp_record_t) : record_patched (fun _ => .keep) r r :=
  ⟨rfl, rfl, fun _ e h => ⟨e, h, rfl⟩⟩

theorem record_patched_set (r : csvp_record_t) (idx : Nat) (e e' : csvp_entry_t)
    (p : entry_patch) (hget : r.entries[idx]? = some e) (hp : p.applies e e') :
    record_patched (fun k => if k = idx then p else .keep) r
      { r with entries := r.entries.set idx e' } := by
  refine ⟨rfl, by simp, ?_⟩
  intro k x hx
  by_cases hk : k = idx
  · subst hk
    rw [hget] at hx
    have hx' := Option.some.inj hx
    subst hx'
    have hlt : k < r.entries.length := by
      by_contra hc
      rw [List.getElem?_eq_none (by omega)] at hget
      exact absurd hget (by simp)
    exact ⟨e', by simp [List.getElem?_set_self hlt], by simpa using hp⟩
  · refine ⟨x, ?_, by simp only [hk, if_false]; rfl⟩
    simp only []
    rw [List.getElem?_set_ne (fun h => hk h.symm)]
    exact hx

theorem record_patched_trans (ps₁ ps₂ : Nat → entry_patch) (r r₁ r₂ : csvp_record_t)
    (h₁ : record_patched ps₁ r r₁) (h₂ : record_patched ps₂ r₁ r₂) :
    record_patched (fun k => (ps₂ k).after (ps₁ k)) r r₂ := by
  obtain ⟨hs₁, hl₁, ha₁⟩ := h₁
  obtain ⟨hs₂, hl₂, ha₂⟩ := h₂
  refine ⟨by rw [hs₂, hs₁], by rw [hl₂, hl₁], ?_⟩
  intro k e he
  obtain ⟨e₁, hg₁, hp₁⟩ := ha₁ k e he
  obtain ⟨e₂, hg₂, hp₂⟩ := ha₂ k e₁ hg₁
  exact ⟨e₂, hg₂, entry_patch_applies_after _ _ _ _ _ hp₁ hp₂⟩

theorem entry_of_type_int {e : csvp_entry_t} (h : e.type = .CSVP_INTEGER_TYPE) :
    ∃ n, e = .v_int n := by
  cases e with
  | v_int n => exact ⟨n, rfl⟩
  | v_float q => exact absurd h (by simp [csvp_entry_t.type])
  | v_string s => exact absurd h (by simp [csvp_entry_t.type])

theorem entry_of_type_float {e : csvp_entry_t} (h : e.type = .CSVP_FLOAT_TYPE) :
    ∃ q, e = .v_float q := by
  cases e with
  | v_int n => exact absurd h (by simp [csvp_entry_t.type])
  | v_float q => exact ⟨q, rfl⟩
  | v_string s => exact absurd h (by simp [csvp_entry_t.type])

theorem entry_of_type_string {e : csvp_entry_t} (h : e.type = .CSVP_STRING_TYPE) :
    ∃ s, e = .v_string s := by
  cases e with
  | v_int n => exact absurd h (by simp [csvp_entry_t.type])
  | v_float q => exact absurd h (by simp [csvp_entry_t.type])
  | v_string s => exact ⟨s, rfl⟩

theorem entry_of_types (record : csvp_record_t) (types : List csvp_type_t) (idx : Nat)
    (ty : csvp_type_t) (htypes : record.entries.map csvp_entry_t.type = types)
    (hty : types[idx]? = some ty) :
    ∃ e, record.entries[idx]? = some e ∧ e.type = ty := by
  rw [← htypes, List.getElem?_map] at hty
  cases h : record.entries[idx]? with
  | none => rw [h] at hty; simp at hty
  | some e =>
    rw [h] at hty
    exact ⟨e, rfl, by simpa using hty⟩

/-- The `switch` of the decoder does to the entry at `idx` something that depends
on the line and on the types of the record only. -/
theorem csvp_next_record_switch_uniform (buffer : List Nat) (buffer_size i idx : Nat)
    (types : List csvp_type_t) (hlen : buffer.length < 2 ^ 63) :
    ∃ (pt : entry_patch) (idx' : Nat), ∀ record, csvp_record_ok record →
      record.entries.map csvp_entry_t.type = types → idx < record.size →
      ∃ e e', record.entries[idx]? = some e ∧
        csvp_next_record_switch buffer buffer_size i idx record =
          some ({ record with entries := record.entries.set idx e' }, idx') ∧
        pt.applies e e' ∧ e'.type = e.type ∧ csvp_entry_ok e' = true := by
  cases hty : types[idx]? with
  | none =>
    refine ⟨.keep, 0, ?_⟩
    intro record hok htypes hidx
    exfalso
    have hl : types.length = record.entries.length := by rw [← htypes]; simp
    rw [List.getElem?_eq_none_iff] at hty
    have := hok.1
    omega
  | some ty =>
    cases ty with
    | CSVP_INTEGER_TYPE =>
      by_cases hc : csvp_check_integer (buffer.drop i) (size_sub buffer_size i) = true
      · refine ⟨.set_int (atoi (buffer.drop i)), idx + 1, ?_⟩
        intro record _ htypes _
        obtain ⟨e, hget, het⟩ := entry_of_types record types idx _ htypes hty
        obtain ⟨n, rfl⟩ := entry_of_type_int het
        exact ⟨_, .v_int (atoi (buffer.drop i)), hget,
          by simp [csvp_next_record_switch, hget, hc, csvp_write_integer], rfl, rfl, rfl⟩
      · refine ⟨.keep, 0, ?_⟩
        intro record _ htypes _
        obtain ⟨e, hget, het⟩ := entry_of_types record types idx _ htypes hty
        obtain ⟨n, rfl⟩ := entry_of_type_int het
        refine ⟨_, .v_int n, hget, ?_, rfl, rfl, rfl⟩
        rw [set_of_get? _ _ _ hget]
        simp [csvp_next_record_switch, hget, hc]
    | CSVP_FLOAT_TYPE =>
      by_cases hc : csvp_check_float (buffer.drop i) (size_sub buffer_size i) = true
      · refine ⟨.set_float (atof (buffer.drop i)), idx + 1, ?_⟩
        intro record _ htypes _
        obtain ⟨e, hget, het⟩ := entry_of_types record types idx _ htypes hty
        obtain ⟨q, rfl⟩ := entry_of_type_float het
        exact ⟨_, .v_float (atof (buffer.drop i)), hget,
          by simp [csvp_next_record_switch, hget, hc, csvp_write_float], rfl, rfl, rfl⟩
      · refine ⟨.keep, 0, ?_⟩
        intro record _ htypes _
        obtain ⟨e, hget, het⟩ := entry_of_types record types idx _ htypes hty
        obtain ⟨q, rfl⟩ := entry_of_type_float het
        refine ⟨_, .v_float q, hget, ?_, rfl, rfl, rfl⟩
        rw [set_of_get? _ _ _ hget]
        simp [csvp_next_record_switch, hget, hc]
    | CSVP_STRING_TYPE =>
      have hfe := field_end_le (buffer.drop i) (size_sub buffer_size i)
      have hfe63 : field_end (buffer.drop i) (size_sub buffer_size i) < 2 ^ 63 :=
        lt_of_le_of_lt hfe (lt_of_le_of_lt (by simp) hlen)
      generalize hn : field_end (buffer.drop i) (size_sub buffer_size i) = n at hfe hfe63
      refine ⟨.overlay (if n = 0 then [] else (buffer.drop i).take n ++ [0]) n, idx + 1, ?_⟩
      intro record hok htypes _
      obtain ⟨e, hget, het⟩ := entry_of_types record types idx _ htypes hty
      obtain ⟨s, rfl⟩ := entry_of_type_string het
      have hmem : csvp_entry_t.v_string s ∈ record.entries := List.getElem?_mem hget
      have hcap : s.capacity ≠ 0 := by simpa [csvp_entry_ok] using hok.2 _ hmem
      obtain ⟨s', r, hw, hsz, hcap1, hcap2, hcap3, hdata⟩ :=
        csvp_string_write_spec s (buffer.drop i) n hcap hfe63
      have hd : s'.data = (if n = 0 then [] else (buffer.drop i).take n ++ [0]) ++
          s.data.drop (if n = 0 then [] else (buffer.drop i).take n ++ [0]).length := by
        rw [hdata]
        by_cases h0 : n = 0
        · simp [h0]
        · simp only [h0, if_false, List.length_append, List.length_take, List.length_singleton,
            Nat.min_eq_left hfe, List.append_assoc, List.singleton_append]
      have hoke : csvp_entry_ok (.v_string s') = true := by
        simp only [csvp_entry_ok, bne_iff_ne, ne_eq]; omega
      have hsw : csvp_next_record_switch buffer buffer_size i idx record =
          some ({ record with entries := record.entries.set idx (.v_string s') }, idx + 1) := by
        simp [csvp_next_record_switch, hget, csvp_write_string, hn, hw]
      exact ⟨_, .v_string s', hget, hsw, ⟨s, s', rfl, rfl, hd, hsz, hcap1, hcap2, hcap3⟩, rfl,
        hoke⟩

/-- The decode loop does to the record something that depends on the line and on
the types of the record only. -/
theorem csvp_next_record_loop_uniform (buffer : List Nat) (buffer_size : Nat)
    (types : List csvp_type_t) (hlen : buffer.length < 2 ^ 63) :
    ∀ fuel i idx, i ≤ buffer.length → buffer.length < fuel + i →
      ∃ ps, ∀ record, csvp_record_ok record →
        record.entries.map csvp_entry_t.type = types →
        ∃ r, csvp_next_record_loop buffer buffer_size fuel i idx record = some r ∧
          record_patched ps record r := by
  intro fuel
  induction fuel with
  | zero => intro i idx h1 h2; omega
  | succ fuel ih =>
    intro i idx hi hfuel
    have hsize : ∀ record : csvp_record_t, csvp_record_ok record →
        record.entries.map csvp_entry_t.type = types → record.size = types.length := by
      intro record hok htypes
      rw [hok.1, ← htypes]; simp
    by_cases hcond : (rd buffer i != 0 && rd buffer i != 10 && decide (idx < types.length)) = true
    · have hcond' := hcond
      simp only [Bool.and_eq_true, bne_iff_ne, ne_eq, decide_eq_true_eq] at hcond'
      obtain ⟨⟨hc0, _⟩, hidx⟩ := hcond'
      have hi1 := le_scan_while (fun c => c == 32) buffer i
      by_cases hbrk : (rd buffer (scan_while (fun c => c == 32) buffer i) == 0 ||
          rd buffer (scan_while (fun c => c == 32) buffer i) == 10) = true
      · refine ⟨fun _ => .keep, ?_⟩
        intro record hok htypes
        refine ⟨record, ?_, record_patched_keep record⟩
        rw [csvp_next_record_loop, if_pos (by rw [hsize record hok htypes]; exact hcond)]
        simp only [hbrk, if_true]
      · obtain ⟨pt, idx', hsw⟩ := csvp_next_record_switch_uniform buffer buffer_size
          (scan_while (fun c => c == 32) buffer i) idx types hlen
        have hi2 := le_scan_while (fun c => c != 44 && c != 0) buffer
          (scan_while (fun c => c == 32) buffer i)
        by_cases hend : (rd buffer (scan_while (fun c => c != 44 && c != 0) buffer
            (scan_while (fun c => c == 32) buffer i)) == 0) = true
        · refine ⟨fun k => if k = idx then pt else .keep, ?_⟩
          intro record hok htypes
          obtain ⟨e, e', hget, hs, hp, _, _⟩ := hsw record hok htypes
            (by rw [hsize record hok htypes]; exact hidx)
          refine ⟨_, ?_, record_patched_set record idx e e' pt hget hp⟩
          rw [csvp_next_record_loop, if_pos (by rw [hsize record hok htypes]; exact hcond)]
          simp only [hbrk, Bool.false_eq_true, if_false, hs, hend, if_true]
        · have hne : rd buffer (scan_while (fun c => c != 44 && c != 0) buffer
              (scan_while (fun c => c == 32) buffer i)) ≠ 0 := by simpa using hend
          have hlt := lt_length_of_rd_ne_zero hne
          obtain ⟨ps', hps'⟩ := ih (scan_while (fun c => c != 44 && c != 0) buffer
            (scan_while (fun c => c == 32) buffer i) + 1) idx' (by omega) (by omega)
          refine ⟨fun k => (ps' k).after (if k = idx then pt else .keep), ?_⟩
          intro record hok htypes
          obtain ⟨e, e', hget, hs, hp, hty, hoke⟩ := hsw record hok htypes
            (by rw [hsize record hok htypes]; exact hidx)
          obtain ⟨r, hr, hpr⟩ := hps' _ (csvp_record_ok_set record idx e' hok hoke)
            (by rw [← htypes]; exact map_type_set record.entries idx e e' hget hty)
          refine ⟨r, ?_, record_patched_trans _ _ _ _ _
            (record_patched_set record idx e e' pt hget hp) hpr⟩
          rw [csvp_next_record_loop, if_pos (by rw [hsize record hok htypes]; exact hcond)]
          simp only [hbrk, Bool.false_eq_true, if_false, hs, hend]
          exact hr
    · refine ⟨fun _ => .keep, ?_⟩
      intro record hok htypes
      refine ⟨record, ?_, record_patched_keep record⟩
      rw [csvp_next_record_loop, if_neg (by rw [hsize record hok htypes]; exact hcond)]

/-- Decoding the same stream into the record that a first decode produced gives
that record again. -/
theorem csvp_next_record_twice (fd : List Nat) (record : csvp_record_t)
    (hok : csvp_record_ok record) :
    ∃ fd' r n, csvp_next_record fd record = some (fd', r, n) ∧
      csvp_next_record fd r = some (fd', r, n) := by
  obtain ⟨r, h1, hl1, hrok, _, hty, _⟩ := csvp_next_record_spec fd record hok
  obtain ⟨r₂, h2, hl2, _⟩ := csvp_next_record_spec fd r hrok
  have hlen : ((first_line fd).take 1023).length < 2 ^ 63 := by
    have : ((first_line fd).take 1023).length ≤ 1023 := by simp
    omega
  obtain ⟨ps, hps⟩ := csvp_next_record_loop_uniform ((first_line fd).take 1023)
    (min (first_line fd).length 1023) (record.entries.map csvp_entry_t.type) hlen
    RECORD_BUFSIZE 0 0 (by omega) (by
      have : ((first_line fd).take 1023).length ≤ 1023 := by simp
      unfold RECORD_BUFSIZE; omega)
  obtain ⟨ra, hra, hpa⟩ := hps record hok rfl
  obtain ⟨rb, hrb, hpb⟩ := hps r hrok hty
  rw [hl1] at hra
  rw [hl2] at hrb
  have e1 := Option.some.inj hra
  have e2 := Option.some.inj hrb
  subst e1; subst e2
  have := record_patched_idem ps record r r₂ hpa hpb
  rw [this] at h2
  exact ⟨_, r, _, h1, h2⟩

/-! ## The format compiler -/

theorem csvp_create_format_loop_succ (desc : List Nat) (fuel i : Nat)
    (types : List csvp_type_t) :
    csvp_create_format_loop desc (fuel + 1) i types =
      match csvp_create_format_body desc i types with
      | .inl ts => some ts
      | .inr (i', ts) => csvp_create_format_loop desc fuel i' ts := by
  rw [csvp_create_format_loop, csvp_create_format_body]
  by_cases h1 : (rd desc i != 0 && decide (types.length < MAX_ENTRIES)) = true
  · simp only [h1, if_true]
    by_cases h2 : (rd desc (scan_while (fun c => c == 44 || c == 32) desc i) == 0) = true
    · simp only [h2, if_true]
    · simp only [h2, Bool.false_eq_true, if_false]
      split <;> rfl
  · simp only [h1, Bool.false_eq_true, if_false]

theorem csvp_create_format_body_shift (desc : List Nat) (k i : Nat) (types : List csvp_type_t) :
    csvp_create_format_body desc (k + i) types =
      Sum.map id (fun p => (k + p.1, p.2)) (csvp_create_format_body (desc.drop k) i types) := by
  have hsw : ∀ j c, csvp_create_format_switch desc (k + j) c =
      csvp_create_format_switch (desc.drop k) j c := by
    intro j c
    simp only [csvp_create_format_switch, List.drop_drop, Nat.add_assoc, Nat.add_comm]
  simp only [csvp_create_format_body, scan_while_drop, ← rd_drop desc k, hsw]
  split
  · split
    · rfl
    · split <;> simp [Nat.add_assoc]
  · rfl

theorem csvp_create_format_loop_shift (desc : List Nat) (k : Nat) :
    ∀ fuel i types,
      csvp_create_format_loop desc fuel (k + i) types =
        csvp_create_format_loop (desc.drop k) fuel i types := by
  intro fuel
  induction fuel with
  | zero => intro i types; rfl
  | succ fuel ih =>
    intro i types
    rw [csvp_create_format_loop_succ, csvp_create_format_loop_succ,
      csvp_create_format_body_shift]
    cases h : csvp_create_format_body (desc.drop k) i types with
    | inl ts => rfl
    | inr p =>
      obtain ⟨i', ts⟩ := p
      simp only [Sum.map_inr]
      exact ih i' ts

/-- The loop of the format compiler ends; it only adds types, and never beyond
`MAX_ENTRIES`. -/
theorem csvp_create_format_loop_bounds (desc : List Nat) :
    ∀ fuel i types, i ≤ desc.length → desc.length < fuel + i → types.length ≤ MAX_ENTRIES →
      ∃ ts, csvp_create_format_loop desc fuel i types = some ts ∧
        types.length ≤ ts.length ∧ ts.length ≤ MAX_ENTRIES := by
  intro fuel
  induction fuel with
  | zero => intro i types h1 h2; omega
  | succ fuel ih =>
    intro i types hi hfuel hty
    rw [csvp_create_format_loop]
    by_cases h1 : (rd desc i != 0 && decide (types.length < MAX_ENTRIES)) = true
    · simp only [h1, if_true]
      simp only [Bool.and_eq_true, bne_iff_ne, ne_eq, decide_eq_true_eq] at h1
      have hi1 := le_scan_while (fun c => c == 44 || c == 32) desc i
      generalize scan_while (fun c => c == 44 || c == 32) desc i = i1 at hi1
      by_cases h2 : (rd desc i1 == 0) = true
      · simp only [h2, if_true]
        exact ⟨types, rfl, le_refl _, hty⟩
      · simp only [h2, Bool.false_eq_true, if_false]
        have hi2 := le_scan_while (fun c => c != 44 && c != 0) desc i1
        generalize scan_while (fun c => c != 44 && c != 0) desc i1 = i2 at hi2
        by_cases h3 : (rd desc i2 == 0) = true
        · simp only [h3, if_true]
          exact ⟨_, rfl, by simp, by simp only [List.length_append, List.length_singleton]; omega⟩
        · simp only [h3, Bool.false_eq_true, if_false]
          have hne : rd desc i2 ≠ 0 := by simpa using h3
          have hlt := lt_length_of_rd_ne_zero hne
          obtain ⟨ts, hts, hle, hmax⟩ := ih (i2 + 1)
            (types ++ [csvp_create_format_switch desc i1 (rd desc i1)]) (by omega) (by omega)
            (by simp only [List.length_append, List.length_singleton]; omega)
          refine ⟨ts, hts, ?_, hmax⟩
          simp only [List.length_append, List.length_singleton] at hle
          omega
    · simp only [h1, Bool.false_eq_true, if_false]
      exact ⟨types, rfl, le_refl _, hty⟩

theorem csvp_check_match_loop_spec (d rest : List Nat) (n : Nat) :
    ∀ fuel i, fuel + i = n →
      (csvp_check_match_loop d rest n fuel i = n ↔
        ∀ j, i ≤ j → j < n → rd d j ≠ 0 ∧ rd d j = rd rest j) ∧
      csvp_check_match_loop d rest n fuel i ≤ n := by
  intro fuel
  induction fuel with
  | zero =>
    intro i hi
    simp only [Nat.zero_add] at hi
    subst hi
    exact ⟨⟨fun _ j h1 h2 => absurd h2 (by omega), fun _ => rfl⟩, le_refl _⟩
  | succ fuel ih =>
    intro i hi
    rw [csvp_check_match_loop]
    by_cases hc : (decide (i < n) && rd d i != 0 && rd d i == rd rest i) = true
    · rw [if_pos hc]
      simp only [Bool.and_eq_true, decide_eq_true_eq, bne_iff_ne, ne_eq, beq_iff_eq] at hc
      obtain ⟨h1, h2⟩ := ih (i + 1) (by omega)
      refine ⟨?_, h2⟩
      rw [h1]
      constructor
      · intro h j hj1 hj2
        by_cases hji : j = i
        · subst hji; exact ⟨hc.1.2, hc.2⟩
        · exact h j (by omega) hj2
      · intro h j hj1 hj2
        exact h j (by omega) hj2
    · rw [if_neg hc]
      refine ⟨⟨fun h => absurd h (by omega), ?_⟩, by omega⟩
      intro h
      exfalso
      apply hc
      have := h i (le_refl _) (by omega)
      simp only [Bool.and_eq_true, decide_eq_true_eq, bne_iff_ne, ne_eq, beq_iff_eq]
      exact ⟨⟨by omega, this.1⟩, this.2⟩

theorem rd_agree_iff_take :
    ∀ (rest d : List Nat), (∀ c ∈ rest, c ≠ 0) →
      ((∀ j, j < rest.length → rd d j ≠ 0 ∧ rd d j = rd rest j) ↔ d.take rest.length = rest) := by
  intro rest
  induction rest with
  | nil => intro d _; simp
  | cons r rs ih =>
    intro d hr
    have hr0 : r ≠ 0 := hr r (List.mem_cons_self _ _)
    cases d with
    | nil =>
      constructor
      · intro h
        have := (h 0 (by simp)).1
        simp [rd_nil] at this
      · intro h; simp at h
    | cons x xs =>
      have ih' := ih xs (fun c hc => hr c (List.mem_cons_of_mem _ hc))
      simp only [List.length_cons, List.take_succ_cons, List.cons.injEq]
      constructor
      · intro h
        refine ⟨by simpa [rd_cons_zero] using (h 0 (by omega)).2, ih'.1 ?_⟩
        intro j hj
        have := h (j + 1) (by omega)
        simpa [rd_cons_succ] using this
      · rintro ⟨hx, hxs⟩ j hj
        cases j with
        | zero => simp [rd_cons_zero, hx, hr0]
        | succ j =>
          simp only [rd_cons_succ]
          exact ih'.2 hxs j (by omega)

/-- `csvp_check_match` tests whether `desc` begins with `rest`. -/
theorem csvp_check_match_eq (d rest : List Nat) (hr : ∀ c ∈ rest, c ≠ 0) :
    csvp_check_match d rest rest.length = decide (d.take rest.length = rest) := by
  have h := (csvp_check_match_loop_spec d rest rest.length rest.length 0 (by omega)).1
  have h2 := rd_agree_iff_take rest d hr
  unfold csvp_check_match
  by_cases hp : d.take rest.length = rest
  · simp only [hp, decide_True, beq_iff_eq]
    exact h.2 (fun j _ hj => h2.2 hp j hj)
  · simp only [hp, decide_False, beq_eq_false_iff_ne, ne_eq]
    intro hc
    exact hp (h2.1 (fun j hj => h.1 hc j (Nat.zero_le _) hj))

theorem take_append_iff (K s R : List Nat)
    (hR : R = [] ∨ ∃ x X, R = x :: X ∧ x ∉ K) :
    (s ++ R).take K.length = K ↔ s.take K.length = K := by
  by_cases hle : K.length ≤ s.length
  · rw [List.take_append_of_le_length hle]
  · have hlt : s.length < K.length := by omega
    constructor
    · intro h
      exfalso
      rw [List.take_append_eq_append_take, List.take_of_length_le (by omega)] at h
      rcases hR with hR | ⟨x, X, hR, hx⟩
      · rw [hR] at h
        simp only [List.take_nil, List.append_nil] at h
        rw [h] at hlt; omega
      · rw [hR] at h
        obtain ⟨m, hm⟩ : ∃ m, K.length - s.length = m + 1 := ⟨K.length - s.length - 1, by omega⟩
        rw [hm, List.take_succ_cons] at h
        apply hx
        rw [← h]
        simp
    · intro h
      exfalso
      have := congrArg List.length h
      simp only [List.length_take] at this
      omega

theorem token_type_append (t sp : List Nat) (hsp : ∀ c ∈ sp, c = 32) :
    token_type (t ++ sp) = token_type t := by
  have hR : ∀ K : List Nat, 32 ∉ K → sp = [] ∨ ∃ x X, sp = x :: X ∧ x ∉ K := by
    intro K hK
    cases sp with
    | nil => exact Or.inl rfl
    | cons x X =>
      right
      refine ⟨x, X, rfl, ?_⟩
      rw [hsp x (List.mem_cons_self _ _)]
      exact hK
  have h7 := take_append_iff (bytes "integer") t sp (hR _ (by decide))
  have h5 := take_append_iff (bytes "float") t sp (hR _ (by decide))
  have l7 : (bytes "integer").length = 7 := by decide
  have l5 : (bytes "float").length = 5 := by decide
  rw [l7] at h7
  rw [l5] at h5
  unfold token_type
  simp only [h7, h5]

theorem csvp_create_format_switch_eq (l s R : List Nat) (hs : s ≠ [])
    (hR : R = [] ∨ R.head? = some 44) :
    csvp_create_format_switch (l ++ s ++ R) l.length (rd s 0) = token_type s := by
  cases s with
  | nil => exact absurd rfl hs
  | cons c s' =>
    have hdrop : (l ++ (c :: s') ++ R).drop (l.length + 1) = s' ++ R := by
      rw [List.append_assoc, List.drop_append_eq_append_drop]
      simp
    have hR' : ∀ K : List Nat, 44 ∉ K → R = [] ∨ ∃ x X, R = x :: X ∧ x ∉ K := by
      intro K hK
      cases R with
      | nil => exact Or.inl rfl
      | cons x X =>
        right
        refine ⟨x, X, rfl, ?_⟩
        have hx : x = 44 := by
          rcases hR with h | h
          · exact absurd h (by simp)
          · simpa using h
        rw [hx]; exact hK
    have l6 : (bytes "nteger").length = 6 := by decide
    have l4 : (bytes "loat").length = 4 := by decide
    have h6 := take_append_iff (bytes "nteger") s' R (hR' _ (by decide))
    have h4 := take_append_iff (bytes "loat") s' R (hR' _ (by decide))
    rw [l6] at h6
    rw [l4] at h4
    have m6 := csvp_check_match_eq (s' ++ R) (bytes "nteger") (by decide)
    have m4 := csvp_check_match_eq (s' ++ R) (bytes "loat") (by decide)
    rw [l6] at m6
    rw [l4] at m4
    have e7 : bytes "integer" = 105 :: bytes "nteger" := by decide
    have e5 : bytes "float" = 102 :: bytes "loat" := by decide
    unfold csvp_create_format_switch token_type
    rw [hdrop, m6, m4, rd_cons_zero, e7, e5]
    simp only [List.take_succ_cons, List.cons.injEq, decide_eq_true_eq, h6, h4, beq_iff_eq]
    by_cases c115 : c = 115
    · subst c115; simp
    · by_cases c105 : c = 105
      · subst c105; simp
      · by_cases c102 : c = 102
        · subst c102; simp
        · simp [c115, c105, c102]

/-- One iteration of the compile loop on a descriptor that starts with the
separators `l` and the comma-free segment `s`, followed by `R`, which is empty or
starts with the comma. -/
theorem csvp_create_format_body_segment (l s R : List Nat) (types : List csvp_type_t)
    (hl : ∀ c ∈ l, is_separator c = true) (hs : s ≠ [])
    (hs0 : is_separator (rd s 0) = false) (hsb : ∀ c ∈ s, c ≠ 44 ∧ c ≠ 0)
    (hR : R = [] ∨ R.head? = some 44) (hty : types.length < MAX_ENTRIES) :
    csvp_create_format_body (l ++ s ++ R) 0 types =
      if rd R 0 == 0 then .inl (types ++ [token_type s])
      else .inr (l.length + s.length + 1, types ++ [token_type s]) := by
  have hc0 : rd s 0 ≠ 0 := (hsb _ (rd_zero_mem hs)).2
  have hhead : rd (l ++ s ++ R) 0 ≠ 0 := by
    cases l with
    | nil => rw [List.nil_append, rd_append_zero _ hs]; exact hc0
    | cons x xs =>
      have := hl x (List.mem_cons_self _ _)
      simp only [List.cons_append, rd_cons_zero]
      intro h0; rw [h0] at this; exact absurd this (by decide)
  have hscan : scan_while (fun c => c == 44 || c == 32) (l ++ s ++ R) 0 = l.length := by
    rw [scan_while_zero, List.append_assoc,
      show (fun c : Nat => c == 44 || c == 32) = is_separator from rfl,
      List.takeWhile_append_of_pos hl]
    cases s with
    | nil => exact absurd rfl hs
    | cons c s' =>
      rw [rd_cons_zero] at hs0
      simp [List.takeWhile_cons, hs0]
  have hrd : rd (l ++ s ++ R) l.length = rd s 0 := by
    rw [List.append_assoc]
    have := rd_append_right l (s ++ R) 0
    rw [Nat.add_zero] at this
    rw [this, rd_append_zero _ hs]
  have hend : scan_while (fun c => c != 44 && c != 0) (l ++ s ++ R) l.length
      = l.length + s.length := by
    have h1 := scan_while_drop (fun c => c != 44 && c != 0) (l ++ s ++ R) l.length 0
    rw [Nat.add_zero] at h1
    rw [h1, List.append_assoc, List.drop_left, scan_while_zero,
      takeWhile_append_tail _ _ _ (by decide) hR, takeWhile_eq_self]
    intro c hc
    have := hsb c hc
    simp [this.1, this.2]
  have hrd2 : rd (l ++ s ++ R) (l.length + s.length) = rd R 0 := by
    have := rd_append_right (l ++ s) R 0
    simpa using this
  unfold csvp_create_format_body
  have hcond : (rd (l ++ s ++ R) 0 != 0 && decide (types.length < MAX_ENTRIES)) = true := by
    simp only [Bool.and_eq_true, bne_iff_ne, ne_eq, decide_eq_true_eq]
    exact ⟨hhead, hty⟩
  rw [if_pos hcond]
  simp only [hscan, hrd, hend, hrd2, csvp_create_format_switch_eq l s R hs hR]
  have : (rd s 0 == 0) = false := by simpa using hc0
  simp only [this, Bool.false_eq_true, if_false]

/-- A descriptor made of separators only adds no type. -/
theorem csvp_create_format_loop_blank (l : List Nat) (types : List csvp_type_t) (fuel : Nat)
    (hl : ∀ c ∈ l, is_separator c = true) (hfuel : l.length < fuel) :
    csvp_create_format_loop l fuel 0 types = some types := by
  obtain ⟨fuel', rfl⟩ : ∃ k, fuel = k + 1 := ⟨fuel - 1, by omega⟩
  rw [csvp_create_format_loop]
  by_cases h1 : (rd l 0 != 0 && decide (types.length < MAX_ENTRIES)) = true
  · rw [if_pos h1]
    have hscan : scan_while (fun c => c == 44 || c == 32) l 0 = l.length := by
      rw [scan_while_zero, show (fun c : Nat => c == 44 || c == 32) = is_separator from rfl,
        takeWhile_eq_self _ _ hl]
    simp only [hscan, rd_of_length_le (le_refl _), beq_self_eq_true, if_true]
  · rw [if_neg h1]

/-- The compile loop on tokens separated by single commas: the tokens get their
types in order, up to `MAX_ENTRIES` types in all. -/
theorem csvp_create_format_loop_csv :
    ∀ (ts : List (List Nat)) (types : List csvp_type_t) (fuel : Nat),
      (∀ t ∈ ts, t ≠ [] ∧ ∀ c ∈ t, c ≠ 44 ∧ c ≠ 32 ∧ c ≠ 0) →
      (csv_line ts).length < fuel →
      csvp_create_format_loop (csv_line ts) fuel 0 types =
        some (types ++ (ts.map token_type).take (MAX_ENTRIES - types.length)) := by
  intro ts
  induction ts with
  | nil =>
    intro types fuel _ hfuel
    obtain ⟨fuel', rfl⟩ : ∃ k, fuel = k + 1 := ⟨fuel - 1, by omega⟩
    simp [csvp_create_format_loop, csv_line, rd_nil]
  | cons t ts ih =>
    intro types fuel hts hfuel
    obtain ⟨fuel', rfl⟩ : ∃ k, fuel = k + 1 := ⟨fuel - 1, by omega⟩
    by_cases hfull : types.length < MAX_ENTRIES
    · obtain ⟨tail, hline, htail, hcases⟩ := csv_line_cons t ts
      have ht := hts t (List.mem_cons_self _ _)
      have hs0 : is_separator (rd t 0) = false := by
        have := ht.2 _ (rd_zero_mem ht.1)
        simp [is_separator, this.1, this.2.1]
      have hbody := csvp_create_format_body_segment [] t tail types (by simp) ht.1 hs0
        (fun c hc => ⟨(ht.2 c hc).1, (ht.2 c hc).2.2⟩) htail hfull
      rw [List.nil_append] at hbody
      rw [hline] at hfuel ⊢
      rw [csvp_create_format_loop_succ, hbody]
      obtain ⟨m, hm⟩ : ∃ m, MAX_ENTRIES - types.length = m + 1 :=
        ⟨MAX_ENTRIES - types.length - 1, by omega⟩
      rcases hcases with ⟨hfs, htl⟩ | ⟨hfs, htl⟩
      · subst hfs; subst htl
        simp [rd_nil, hm]
      · subst htl
        simp only [rd_cons_zero, show ((44 : Nat) == 0) = false by decide, Bool.false_eq_true,
          if_false, List.length_nil, Nat.zero_add]
        have hshift := csvp_create_format_loop_shift (t ++ 44 :: csv_line ts) (t.length + 1)
          fuel' 0 (types ++ [token_type t])
        rw [Nat.add_zero] at hshift
        have hdrop : (t ++ 44 :: csv_line ts).drop (t.length + 1) = csv_line ts := by
          rw [List.drop_append_eq_append_drop]
          simp
        rw [hshift, hdrop, ih _ _ (fun x hx => hts x (List.mem_cons_of_mem _ hx))
          (by simp only [List.length_append, List.length_cons] at hfuel; omega)]
        have hm' : MAX_ENTRIES - (types ++ [token_type t]).length = m := by
          simp only [List.length_append, List.length_singleton]; omega
        rw [hm', hm]
        simp
    · have h0 : MAX_ENTRIES - types.length = 0 := by omega
      rw [csvp_create_format_loop, h0]
      have : (rd (csv_line (t :: ts)) 0 != 0 && decide (types.length < MAX_ENTRIES)) = false := by
        simp [hfull]
      rw [this]
      simp

theorem split_at_comma (sep : List Nat) (hsep : ∀ c ∈ sep, c = 44 ∨ c = 32) (h : 44 ∈ sep) :
    ∃ sp after, sep = sp ++ 44 :: after ∧ (∀ c ∈ sp, c = 32) ∧ ∀ c ∈ after, c = 44 ∨ c = 32 := by
  obtain ⟨sp, after, hsplit, hnot⟩ := List.eq_append_cons_of_mem h
  refine ⟨sp, after, hsplit, ?_, ?_⟩
  · intro c hc
    have hmem : c ∈ sep := by rw [hsplit]; exact List.mem_append_left _ hc
    rcases hsep c hmem with h1 | h1
    · subst h1; exact absurd hc hnot
    · exact h1
  · intro c hc
    exact hsep c (by rw [hsplit]; exact List.mem_append_right _ (List.mem_cons_of_mem _ hc))

/-- The compile loop on tokens, each followed by a run of commas and spaces that
holds a comma (the last run apart): every token gets one type. -/
theorem csvp_create_format_loop_tokens :
    ∀ (ps : List (List Nat × List Nat)) (lead : List Nat) (types : List csvp_type_t)
      (fuel : Nat),
      (∀ c ∈ lead, c = 44 ∨ c = 32) →
      (∀ p ∈ ps, p.1 ≠ [] ∧ (∀ c ∈ p.1, c ≠ 44 ∧ c ≠ 32 ∧ c ≠ 0) ∧ ∀ c ∈ p.2, c = 44 ∨ c = 32) →
      (∀ p ∈ ps.dropLast, 44 ∈ p.2) →
      types.length + ps.length ≤ MAX_ENTRIES →
      (lead ++ join_tokens ps).length < fuel →
      csvp_create_format_loop (lead ++ join_tokens ps) fuel 0 types =
        some (types ++ ps.map (fun p => token_type p.1)) := by
  intro ps
  induction ps with
  | nil =>
    intro lead types fuel hlead _ _ _ hfuel
    simp only [join_tokens, List.append_nil, List.map_nil] at hfuel ⊢
    exact csvp_create_format_loop_blank lead types fuel
      (fun c hc => by rcases hlead c hc with h | h <;> simp [is_separator, h]) hfuel
  | cons p ps ih =>
    intro lead types fuel hlead hps hsep hcount hfuel
    obtain ⟨t, sep⟩ := p
    obtain ⟨fuel', rfl⟩ : ∃ k, fuel = k + 1 := ⟨fuel - 1, by omega⟩
    obtain ⟨htne, htb, hsepb⟩ := hps (t, sep) (List.mem_cons_self _ _)
    simp only [] at htne htb hsepb
    have hleadsep : ∀ c ∈ lead, is_separator c = true :=
      fun c hc => by rcases hlead c hc with h | h <;> simp [is_separator, h]
    have hfull : types.length < MAX_ENTRIES := by
      simp only [List.length_cons] at hcount; omega
    have ht0 := htb _ (rd_zero_mem htne)
    by_cases hcomma : 44 ∈ sep
    · obtain ⟨sp, after, hsplit, hsp, hafter⟩ := split_at_comma sep hsepb hcomma
      have hdesc : lead ++ join_tokens ((t, sep) :: ps) =
          lead ++ (t ++ sp) ++ (44 :: (after ++ join_tokens ps)) := by
        simp only [join_tokens, hsplit, List.append_assoc, List.cons_append]
      have hs0 : is_separator (rd (t ++ sp) 0) = false := by
        rw [rd_append_zero _ htne]
        simp [is_separator, ht0.1, ht0.2.1]
      have hsb : ∀ c ∈ t ++ sp, c ≠ 44 ∧ c ≠ 0 := by
        intro c hc
        rcases List.mem_append.1 hc with h | h
        · exact ⟨(htb c h).1, (htb c h).2.2⟩
        · rw [hsp c h]; decide
      have hbody := csvp_create_format_body_segment lead (t ++ sp) (44 :: (after ++ join_tokens ps))
        types hleadsep (by simp [htne]) hs0 hsb (Or.inr rfl) hfull
      rw [hdesc] at hfuel ⊢
      rw [csvp_create_format_loop_succ, hbody]
      simp only [rd_cons_zero, show ((44 : Nat) == 0) = false by decide, Bool.false_eq_true,
        if_false]
      have hshift := csvp_create_format_loop_shift
        (lead ++ (t ++ sp) ++ (44 :: (after ++ join_tokens ps)))
        (lead.length + (t ++ sp).length + 1) fuel' 0 (types ++ [token_type (t ++ sp)])
      rw [Nat.add_zero] at hshift
      have hdrop : (lead ++ (t ++ sp) ++ (44 :: (after ++ join_tokens ps))).drop
          (lead.length + (t ++ sp).length + 1) = after ++ join_tokens ps := by
        have : lead.length + (t ++ sp).length = (lead ++ (t ++ sp)).length := by simp
        rw [this, List.drop_append_eq_append_drop]
        simp
      rw [hshift, hdrop, token_type_append t sp hsp]
      have hsep' : ∀ q ∈ ps.dropLast, 44 ∈ q.2 := by
        intro q hq
        cases ps with
        | nil => simp at hq
        | cons a as =>
          apply hsep q
          rw [List.dropLast_cons₂]
          exact List.mem_cons_of_mem _ hq
      rw [ih after (types ++ [token_type t]) fuel' hafter
        (fun q hq => hps q (List.mem_cons_of_mem _ hq)) hsep'
        (by simp only [List.length_append, List.length_singleton, List.length_cons,
              List.length_nil] at hcount ⊢
            omega)
        (by simp only [List.length_append, List.length_cons] at hfuel ⊢; omega)]
      simp
    · have hps_nil : ps = [] := by
        cases ps with
        | nil => rfl
        | cons a as =>
          exfalso
          apply hcomma
          have := hsep (t, sep) (by rw [List.dropLast_cons₂]; exact List.mem_cons_self _ _)
          exact this
      subst hps_nil
      have hsp : ∀ c ∈ sep, c = 32 := by
        intro c hc
        rcases hsepb c hc with h | h
        · subst h; exact absurd hc hcomma
        · exact h
      have hdesc : lead ++ join_tokens [(t, sep)] = lead ++ (t ++ sep) ++ [] := by
        simp only [join_tokens, List.append_nil]
      have hs0 : is_separator (rd (t ++ sep) 0) = false := by
        rw [rd_append_zero _ htne]
        simp [is_separator, ht0.1, ht0.2.1]
      have hsb : ∀ c ∈ t ++ sep, c ≠ 44 ∧ c ≠ 0 := by
        intro c hc
        rcases List.mem_append.1 hc with h | h
        · exact ⟨(htb c h).1, (htb c h).2.2⟩
        · rw [hsp c h]; decide
      have hbody := csvp_create_format_body_segment lead (t ++ sep) [] types hleadsep
        (by simp [htne]) hs0 hsb (Or.inl rfl) hfull
      rw [hdesc, csvp_create_format_loop_succ, hbody, token_type_append t sep hsp]
      simp [rd_nil]

theorem csvp_entry_init_type (ty : csvp_type_t) : (csvp_entry_init ty).type = ty := by
  cases ty <;> rfl

theorem map_type_init (types : List csvp_type_t) :
    (types.map csvp_entry_init).map csvp_entry_t.type = types := by
  induction types with
  | nil => rfl
  | cons ty tys ih => simp [csvp_entry_init_type, ih]

theorem csvp_create_format_of_loop (desc : List Nat) (types : List csvp_type_t)
    (h : csvp_create_format_loop desc (desc.length + 1) 0 [] = some types) :
    csvp_create_format desc =
      if types.length ≤ 0 then some none
      else some (some { size := types.length, entries := types.map csvp_entry_init }) := by
  unfold csvp_create_format
  rw [h]

/-- A record that `csvp_create_format` returns is valid. -/
theorem csvp_create_format_ok (desc : List Nat) (r : csvp_record_t)
    (h : csvp_create_format desc = some (some r)) : csvp_record_ok r := by
  unfold csvp_create_format at h
  cases hl : csvp_create_format_loop desc (desc.length + 1) 0 [] with
  | none => rw [hl] at h; simp at h
  | some types =>
    rw [hl] at h
    by_cases h0 : types.length ≤ 0
    · simp [h0] at h
    · simp only [h0, if_false, Option.some.injEq] at h
      subst h
      refine ⟨by simp, ?_⟩
      intro e he
      simp only [List.mem_map] at he
      obtain ⟨ty, _, rfl⟩ := he
      cases ty <;> rfl

/-- When the compiler gives no format, and the bounds of the size otherwise. -/
theorem csvp_create_format_null (desc : List Nat) (h0 : ∀ c ∈ desc, c ≠ 0) :
    ∃ res, csvp_create_format desc = some res ∧
      (res = none ↔ ∀ c ∈ desc, c = 44 ∨ c = 32) ∧
      ∀ r, res = some r → 1 ≤ r.size ∧ r.size ≤ MAX_ENTRIES ∧ r.entries.length = r.size := by
  by_cases hall : ∀ c ∈ desc, c = 44 ∨ c = 32
  · have hloop := csvp_create_format_loop_blank desc [] (desc.length + 1)
      (fun c hc => by rcases hall c hc with h | h <;> simp [is_separator, h]) (by omega)
    refine ⟨none, ?_, ⟨fun _ => hall, fun _ => rfl⟩, fun r hr => absurd hr (by simp)⟩
    rw [csvp_create_format_of_loop desc [] hloop]
    simp
  · -- the descriptor is  l ++ s ++ R : separators, a segment without comma, the rest
    have hrest : desc.dropWhile is_separator ≠ [] := by
      intro h
      apply hall
      intro c hc
      have := (List.dropWhile_eq_nil_iff.1 h) c hc
      simpa [is_separator] using this
    have hsplit : desc = desc.takeWhile is_separator ++
        ((desc.dropWhile is_separator).takeWhile (fun c => c != 44) ++
          (desc.dropWhile is_separator).dropWhile (fun c => c != 44)) := by
      rw [List.takeWhile_append_dropWhile, List.takeWhile_append_dropWhile]
    generalize hl : desc.takeWhile is_separator = l at hsplit
    have hlsep : ∀ c ∈ l, is_separator c = true := by
      intro c hc; rw [← hl] at hc; exact List.mem_takeWhile_imp hc
    have hhead : is_separator (rd (desc.dropWhile is_separator) 0) = false := by
      cases hd : desc.dropWhile is_separator with
      | nil => exact absurd hd hrest
      | cons x xs =>
        rw [rd_cons_zero]
        by_contra hx
        have hx' : is_separator x = true := by simpa using hx
        have := List.dropWhile_get_zero_not is_separator desc (by rw [hd]; simp)
        simp only [hd, List.get_eq_getElem, List.getElem_cons_zero] at this
        exact this hx'
    generalize hd : desc.dropWhile is_separator = rest at hsplit hrest hhead
    have hrest0 : ∀ c ∈ rest, c ≠ 0 := by
      intro c hc; rw [← hd] at hc; exact h0 c (mem_of_mem_dropWhile hc)
    have hsne : rest.takeWhile (fun c => c != 44) ≠ [] := by
      cases rest with
      | nil => exact absurd rfl hrest
      | cons x xs =>
        rw [rd_cons_zero] at hhead
        have : x ≠ 44 := by
          intro hx; rw [hx] at hhead; exact absurd hhead (by decide)
        simp [List.takeWhile_cons, this]
    have hs0 : is_separator (rd (rest.takeWhile (fun c => c != 44)) 0) = false := by
      cases rest with
      | nil => exact absurd rfl hrest
      | cons x xs =>
        rw [rd_cons_zero] at hhead
        have : x ≠ 44 := by
          intro hx; rw [hx] at hhead; exact absurd hhead (by decide)
        simp only [List.takeWhile_cons, bne_iff_ne, ne_eq, this, not_false_eq_true,
          decide_True, if_true, rd_cons_zero]
        exact hhead
    have hsb : ∀ c ∈ rest.takeWhile (fun c => c != 44), c ≠ 44 ∧ c ≠ 0 := by
      intro c hc
      refine ⟨by simpa using List.mem_takeWhile_imp hc, hrest0 c ((List.takeWhile_sublist _).subset hc)⟩
    have hR : rest.dropWhile (fun c => c != 44) = [] ∨
        (rest.dropWhile (fun c => c != 44)).head? = some 44 := by
      cases hR : rest.dropWhile (fun c => c != 44) with
      | nil => exact Or.inl rfl
      | cons x xs =>
        right
        have := List.dropWhile_get_zero_not (fun c => c != 44) rest (by rw [hR]; simp)
        simp only [hR, List.get_eq_getElem, List.getElem_cons_zero, bne_iff_ne, ne_eq,
          not_not] at this
        simp [this]
    generalize rest.takeWhile (fun c => c != 44) = s at hsplit hsne hs0 hsb
    generalize rest.dropWhile (fun c => c != 44) = R at hsplit hR
    have hbody := csvp_create_format_body_segment l s R [] hlsep hsne hs0 hsb hR
      (by unfold MAX_ENTRIES; simp)
    rw [← List.append_assoc] at hsplit
    rw [← hsplit] at hbody
    have hfin : ∃ ts, csvp_create_format_loop desc (desc.length + 1) 0 [] = some ts ∧
        1 ≤ ts.length ∧ ts.length ≤ MAX_ENTRIES := by
      rw [csvp_create_format_loop_succ, hbody]
      by_cases hR0 : (rd R 0 == 0) = true
      · simp only [hR0, if_true]
        exact ⟨_, rfl, by simp, by unfold MAX_ENTRIES; simp⟩
      · simp only [hR0, Bool.false_eq_true, if_false]
        have hRne : R ≠ [] := by
          intro h; rw [h] at hR0; exact hR0 rfl
        have hlen : l.length + s.length + 1 ≤ desc.length := by
          rw [hsplit]
          simp only [List.length_append]
          have : 1 ≤ R.length := by
            cases R with
            | nil => exact absurd rfl hRne
            | cons x xs => simp
          omega
        obtain ⟨ts, hts, hle, hmax⟩ := csvp_create_format_loop_bounds desc desc.length
          (l.length + s.length + 1) ([] ++ [token_type s]) hlen (by omega)
          (by unfold MAX_ENTRIES; simp)
        exact ⟨ts, hts, by simpa using hle, hmax⟩
    obtain ⟨ts, hts, h1, hmax⟩ := hfin
    have hnot : ¬ ts.length ≤ 0 := by omega
    refine ⟨some { size := ts.length, entries := ts.map csvp_entry_init }, ?_, ?_, ?_⟩
    · rw [csvp_create_format_of_loop desc ts hts, if_neg hnot]
    · exact ⟨fun h => absurd h (by simp), fun h => absurd h hall⟩
    · intro r hr
      have := Option.some.inj hr
      subst this
      exact ⟨h1, hmax, by simp⟩

/-- The record used in the examples is the one the compiler returns for the
descriptor `"integer, float, string"`. -/
theorem sample_record_created :
    csvp_create_format (bytes "integer, float, string") = some (some sample_record) := by
  decide

/-! ## The grammars of the classifiers -/

theorem takeWhile_is_space (l : List Nat) :
    l.takeWhile is_space = List.replicate (l.takeWhile is_space).length 32 := by
  rw [List.eq_replicate_iff]
  refine ⟨rfl, fun c hc => ?_⟩
  have := List.mem_takeWhile_imp hc
  simpa [is_space] using this

theorem leading_field_append (a b : List Nat) (ha : ∀ c ∈ a, c ≠ 44 ∧ c ≠ 0)
    (hb : rd b 0 = 0 ∨ rd b 0 = 44) : leading_field (a ++ b) = a := by
  have hall : ∀ c ∈ a, (fun c : Nat => c != 44 && c != 0) c = true := by
    intro c hc
    have := ha c hc
    simp [this.1, this.2]
  unfold leading_field
  cases b with
  | nil => rw [List.append_nil]; exact takeWhile_eq_self _ _ hall
  | cons x r =>
    rw [rd_cons_zero] at hb
    rw [takeWhile_append_sep _ _ _ _ (by rcases hb with h | h <;> simp [h])]
    exact takeWhile_eq_self _ _ hall

theorem leading_field_split (buffer : List Nat) :
    ∃ rest, buffer = leading_field buffer ++ rest ∧ (rd rest 0 = 0 ∨ rd rest 0 = 44) ∧
      ∀ c ∈ leading_field buffer, c ≠ 44 ∧ c ≠ 0 := by
  refine ⟨buffer.dropWhile (fun c => c != 44 && c != 0),
    (List.takeWhile_append_dropWhile _ _).symm, ?_, ?_⟩
  · cases h : buffer.dropWhile (fun c => c != 44 && c != 0) with
    | nil => left; rfl
    | cons x r =>
      have := List.dropWhile_get_zero_not (fun c => c != 44 && c != 0) buffer
        (by rw [h]; simp)
      simp only [h, List.get_eq_getElem, List.getElem_cons_zero] at this
      rw [rd_cons_zero]
      by_cases hx : x = 44
      · right; exact hx
      · left
        simpa [hx] using this
  · intro c hc
    have := List.mem_takeWhile_imp hc
    simpa using this

theorem mem_leading_field {buffer : List Nat} {c : Nat} (h : c ∈ leading_field buffer) :
    c ≠ 44 ∧ c ≠ 0 := by
  obtain ⟨_, _, _, h3⟩ := leading_field_split buffer
  exact h3 c h

theorem not_sep_of_space {c : Nat} (h : is_space c = true) : c ≠ 44 ∧ c ≠ 0 := by
  have : c = 32 := by simpa [is_space] using h
  subst this; decide

theorem not_sep_of_digit {c : Nat} (h : is_digit c = true) : c ≠ 44 ∧ c ≠ 0 := by
  have := (is_digit_iff c).1 h
  constructor <;> omega

theorem rd_sep_cases {l : List Nat} (h : (rd l 0 == 0 || rd l 0 == 44) = true) :
    rd l 0 = 0 ∨ rd l 0 = 44 := by
  simpa using h

/-- A slice the integer classifier accepts has a leading field of the form
spaces, an optional `-`, digits, spaces. -/
theorem check_integer_list_form (buffer : List Nat) (h : check_integer_list buffer = true) :
    ∃ (n : Nat) (neg : Bool) (ds : List Nat) (m : Nat), (∀ c ∈ ds, is_digit c = true) ∧
      leading_field buffer =
        List.replicate n 32 ++ (sign_bytes neg ++ (ds ++ List.replicate m 32)) := by
  have hbuf := List.takeWhile_append_dropWhile is_space buffer
  have hsp := takeWhile_is_space buffer
  have hspm : ∀ c ∈ buffer.takeWhile is_space, c ≠ 44 ∧ c ≠ 0 :=
    fun c hc => not_sep_of_space (List.mem_takeWhile_imp hc)
  unfold check_integer_list at h
  simp only at h
  generalize buffer.dropWhile is_space = t at h hbuf
  by_cases h1 : (rd t 0 == 44 || rd t 0 == 0) = true
  · refine ⟨(buffer.takeWhile is_space).length, false, [], 0, by simp, ?_⟩
    have hl : leading_field buffer = buffer.takeWhile is_space := by
      conv_lhs => rw [← hbuf]
      exact leading_field_append _ _ hspm (by
        have : rd t 0 = 44 ∨ rd t 0 = 0 := by simpa using h1
        exact this.symm)
    rw [hl]
    simp only [sign_bytes, Bool.false_eq_true, if_false, List.nil_append, List.replicate_zero,
      List.append_nil]
    exact hsp
  · simp only [h1, Bool.false_eq_true, if_false] at h
    by_cases h2 : (is_digit (rd t 0) || rd t 0 == 45) = true
    · simp only [h2, if_true] at h
      -- the sign and what follows it
      have hu : ∃ (neg : Bool) (u : List Nat), t = sign_bytes neg ++ u ∧
          (if (rd t 0 == 45) = true then t.drop 1 else t) = u := by
        by_cases h3 : (rd t 0 == 45) = true
        · cases t with
          | nil => simp [rd_nil] at h3
          | cons c cs =>
            rw [rd_cons_zero] at h3
            have hc : c = 45 := by simpa using h3
            subst hc
            exact ⟨true, cs, rfl, by simp [rd_cons_zero]⟩
        · exact ⟨false, t, rfl, by simp [h3]⟩
      obtain ⟨neg, u, htu, hu⟩ := hu
      rw [hu] at h
      have hud := List.takeWhile_append_dropWhile is_digit u
      have hvs := List.takeWhile_append_dropWhile is_space (u.dropWhile is_digit)
      have hsp2 := takeWhile_is_space (u.dropWhile is_digit)
      refine ⟨(buffer.takeWhile is_space).length, neg, u.takeWhile is_digit,
        ((u.dropWhile is_digit).takeWhile is_space).length,
        fun c hc => List.mem_takeWhile_imp hc, ?_⟩
      rw [← hsp, ← hsp2]
      have hb : buffer = (buffer.takeWhile is_space ++ (sign_bytes neg ++ (u.takeWhile is_digit ++
          (u.dropWhile is_digit).takeWhile is_space))) ++
          (u.dropWhile is_digit).dropWhile is_space := by
        conv_lhs => rw [← hbuf, htu, ← hud, ← hvs]
        simp only [List.append_assoc]
      conv_lhs => rw [hb]
      apply leading_field_append _ _ _ (rd_sep_cases h)
      intro c hc
      simp only [List.mem_append] at hc
      rcases hc with hc | hc | hc | hc
      · exact hspm c hc
      · cases neg with
        | false => simp [sign_bytes] at hc
        | true =>
          have : c = 45 := by simpa [sign_bytes] using hc
          subst this; decide
      · exact not_sep_of_digit (List.mem_takeWhile_imp hc)
      · exact not_sep_of_space (List.mem_takeWhile_imp hc)
    · simp [h2] at h

/-- Every slice whose leading field is spaces, an optional `-`, digits, spaces
passes the list form of the integer classifier. -/
theorem check_integer_list_of_form (n m : Nat) (neg : Bool) (ds tail : List Nat)
    (hds : ∀ c ∈ ds, is_digit c = true) (htail : rd tail 0 = 0 ∨ rd tail 0 = 44) :
    check_integer_list (List.replicate n 32 ++ (sign_bytes neg ++
      (ds ++ (List.replicate m 32 ++ tail)))) = true := by
  by_cases hbody : ds ≠ [] ∨ neg = false
  · exact check_integer_list_accepts n m neg ds tail hds hbody htail
  · have hds0 : ds = [] := by
      by_contra hne; exact hbody (Or.inl hne)
    have hneg : neg = true := by
      cases neg with
      | false => exact absurd (Or.inr rfl) hbody
      | true => rfl
    subst hds0; subst hneg
    have htsp : is_space (rd tail 0) = false := by
      rcases htail with h | h <;> simp [h, is_space]
    have hnd : is_digit (rd (List.replicate m 32 ++ tail) 0) = false := by
      rcases rd_spaces_tail m tail htail with h | h | h <;> simp [h, is_digit]
    unfold check_integer_list
    rw [dropWhile_spaces]
    have hsp : is_space 45 = false := by decide
    simp only [sign_bytes, if_true, List.cons_append, List.nil_append, List.dropWhile_cons, hsp,
      Bool.false_eq_true, if_false, rd_cons_zero]
    simp only [show ((45 : Nat) == 44 || (45 : Nat) == 0) = false by decide,
      Bool.false_eq_true, if_false, show is_digit 45 = false by decide, Bool.false_or,
      beq_self_eq_true, if_true, List.drop_succ_cons, List.drop_zero]
    rw [dropWhile_of_rd _ _ hnd, dropWhile_spaces, dropWhile_of_rd _ _ htsp]
    rcases htail with h | h <;> simp [h]

/-- The integer classifier accepts exactly the slices whose leading field is
spaces, an optional `-`, digits, spaces. -/
theorem check_integer_list_iff (buffer : List Nat) :
    check_integer_list buffer = true ↔
      ∃ (n : Nat) (neg : Bool) (ds : List Nat) (m : Nat), (∀ c ∈ ds, is_digit c = true) ∧
        leading_field buffer =
          List.replicate n 32 ++ (sign_bytes neg ++ (ds ++ List.replicate m 32)) := by
  constructor
  · exact check_integer_list_form buffer
  · rintro ⟨n, neg, ds, m, hds, hf⟩
    obtain ⟨rest, hbuf, hrest, _⟩ := leading_field_split buffer
    rw [hbuf, hf]
    have := check_integer_list_of_form n m neg ds rest hds hrest
    simpa only [List.append_assoc] using this

theorem dropWhile_digits_stop (ds r : List Nat) (hds : ∀ c ∈ ds, is_digit c = true)
    (hr : is_digit (rd r 0) = false) : (ds ++ r).dropWhile is_digit = r := by
  rw [List.dropWhile_append_of_pos hds, dropWhile_of_rd _ _ hr]

/-- A slice the float classifier accepts has a leading field of the form spaces,
an optional `-` or `.`, digits and optionally a `.` followed by digits. -/
theorem check_float_list_form (buffer : List Nat) (h : check_float_list buffer = true) :
    ∃ (n : Nat) (lead d1 frac : List Nat), (lead = [] ∨ lead = [45] ∨ lead = [46]) ∧
      (∀ c ∈ d1, is_digit c = true) ∧
      (frac = [] ∨ ∃ d2 : List Nat, (∀ c ∈ d2, is_digit c = true) ∧ frac = 46 :: d2) ∧
      leading_field buffer = List.replicate n 32 ++ (lead ++ (d1 ++ frac)) := by
  have hbuf := List.takeWhile_append_dropWhile is_space buffer
  have hsp := takeWhile_is_space buffer
  have hspm : ∀ c ∈ buffer.takeWhile is_space, c ≠ 44 ∧ c ≠ 0 :=
    fun c hc => not_sep_of_space (List.mem_takeWhile_imp hc)
  unfold check_float_list at h
  simp only at h
  generalize buffer.dropWhile is_space = t at h hbuf
  by_cases h1 : (rd t 0 == 44 || rd t 0 == 0) = true
  · refine ⟨(buffer.takeWhile is_space).length, [], [], [], Or.inl rfl, by simp, Or.inl rfl, ?_⟩
    have hl : leading_field buffer = buffer.takeWhile is_space := by
      conv_lhs => rw [← hbuf]
      exact leading_field_append _ _ hspm (by
        have : rd t 0 = 44 ∨ rd t 0 = 0 := by simpa using h1
        exact this.symm)
    rw [hl]
    simp only [List.nil_append, List.append_nil]
    exact hsp
  · simp only [h1, Bool.false_eq_true, if_false] at h
    by_cases h2 : (is_digit (rd t 0) || rd t 0 == 46 || rd t 0 == 45) = true
    · simp only [h2, if_true] at h
      have hu : ∃ (lead u : List Nat), (lead = [] ∨ lead = [45] ∨ lead = [46]) ∧
          t = lead ++ u ∧ (if (rd t 0 == 46 || rd t 0 == 45) = true then t.drop 1 else t) = u := by
        by_cases h3 : (rd t 0 == 46 || rd t 0 == 45) = true
        · cases t with
          | nil => simp [rd_nil] at h3
          | cons c cs =>
            rw [rd_cons_zero] at h3
            have hc : c = 46 ∨ c = 45 := by simpa using h3
            refine ⟨[c], cs, ?_, rfl, by simp [rd_cons_zero, h3]⟩
            rcases hc with hc | hc
            · right; right; rw [hc]
            · right; left; rw [hc]
        · exact ⟨[], t, Or.inl rfl, rfl, by simp [h3]⟩
      obtain ⟨lead, u, hlead, htu, hu⟩ := hu
      rw [hu] at h
      have hleadm : ∀ c ∈ lead, c ≠ 44 ∧ c ≠ 0 := by
        intro c hc
        rcases hlead with hl | hl | hl <;> rw [hl] at hc <;> simp at hc <;> subst hc <;> decide
      have hud := List.takeWhile_append_dropWhile is_digit u
      generalize hv : u.dropWhile is_digit = v at h hud
      by_cases h4 : (rd v 0 == 46) = true
      · simp only [h4, if_true] at h
        cases v with
        | nil => simp [rd_nil] at h4
        | cons c v' =>
          rw [rd_cons_zero] at h4
          have hc : c = 46 := by simpa using h4
          subst hc
          simp only [List.drop_succ_cons, List.drop_zero] at h
          have hwd := List.takeWhile_append_dropWhile is_digit v'
          refine ⟨(buffer.takeWhile is_space).length, lead, u.takeWhile is_digit,
            46 :: v'.takeWhile is_digit, hlead, fun c hc => List.mem_takeWhile_imp hc,
            Or.inr ⟨_, fun c hc => List.mem_takeWhile_imp hc, rfl⟩, ?_⟩
          rw [← hsp]
          have hb : buffer = (buffer.takeWhile is_space ++ (lead ++ (u.takeWhile is_digit ++
              46 :: v'.takeWhile is_digit))) ++ v'.dropWhile is_digit := by
            conv_lhs => rw [← hbuf, htu, ← hud, ← hwd]
            simp only [List.append_assoc, List.cons_append]
          conv_lhs => rw [hb]
          apply leading_field_append _ _ _ (by
            have : rd (v'.dropWhile is_digit) 0 = 44 ∨ rd (v'.dropWhile is_digit) 0 = 0 := by
              simpa using h
            exact this.symm)
          intro c hc
          simp only [List.mem_append, List.mem_cons] at hc
          rcases hc with hc | hc | hc | hc | hc
          · exact hspm c hc
          · exact hleadm c hc
          · exact not_sep_of_digit (List.mem_takeWhile_imp hc)
          · subst hc; decide
          · exact not_sep_of_digit (List.mem_takeWhile_imp hc)
      · simp only [h4, Bool.false_eq_true, if_false] at h
        refine ⟨(buffer.takeWhile is_space).length, lead, u.takeWhile is_digit, [], hlead,
          fun c hc => List.mem_takeWhile_imp hc, Or.inl rfl, ?_⟩
        rw [← hsp]
        have hb : buffer = (buffer.takeWhile is_space ++ (lead ++ (u.takeWhile is_digit ++
            []))) ++ v := by
          conv_lhs => rw [← hbuf, htu, ← hud]
          simp only [List.append_assoc, List.append_nil]
        conv_lhs => rw [hb]
        apply leading_field_append _ _ _ (by
          have : rd v 0 = 44 ∨ rd v 0 = 0 := by simpa using h
          exact this.symm)
        intro c hc
        simp only [List.mem_append, List.append_nil] at hc
        rcases hc with hc | hc | hc
        · exact hspm c hc
        · exact hleadm c hc
        · exact not_sep_of_digit (List.mem_takeWhile_imp hc)
    · simp [h2] at h

/-- What the float classifier does once the digits of the integer part are
past: a fraction, or the end of the field. -/
theorem check_float_list_fraction (frac tail : List Nat)
    (hfrac : frac = [] ∨ ∃ d2 : List Nat, (∀ c ∈ d2, is_digit c = true) ∧ frac = 46 :: d2)
    (htail : rd tail 0 = 0 ∨ rd tail 0 = 44) :
    (if (rd (frac ++ tail) 0 == 46) = true then
        rd (((frac ++ tail).drop 1).dropWhile is_digit) 0 == 44 ||
          rd (((frac ++ tail).drop 1).dropWhile is_digit) 0 == 0
      else rd (frac ++ tail) 0 == 44 || rd (frac ++ tail) 0 == 0) = true := by
  have htd : is_digit (rd tail 0) = false := by
    rcases htail with h | h <;> simp [h, is_digit]
  rcases hfrac with h | ⟨d2, hd2, h⟩
  · subst h
    rcases htail with h | h <;> simp [h]
  · subst h
    simp only [List.cons_append, rd_cons_zero, beq_self_eq_true, if_true, List.drop_succ_cons,
      List.drop_zero]
    rw [dropWhile_digits_stop d2 tail hd2 htd]
    rcases htail with h | h <;> simp [h]

theorem rd_fraction_not_digit (frac tail : List Nat)
    (hfrac : frac = [] ∨ ∃ d2 : List Nat, (∀ c ∈ d2, is_digit c = true) ∧ frac = 46 :: d2)
    (htail : rd tail 0 = 0 ∨ rd tail 0 = 44) : is_digit (rd (frac ++ tail) 0) = false := by
  rcases hfrac with h | ⟨d2, _, h⟩
  · subst h
    rcases htail with h | h <;> simp [h, is_digit]
  · subst h; rfl

/-- Every slice whose leading field is spaces, an optional `-` or `.`, digits
and optionally a `.` followed by digits passes the list form of the float
classifier. -/
theorem check_float_list_of_form (n : Nat) (lead d1 frac tail : List Nat)
    (hlead : lead = [] ∨ lead = [45] ∨ lead = [46]) (hd1 : ∀ c ∈ d1, is_digit c = true)
    (hfrac : frac = [] ∨ ∃ d2 : List Nat, (∀ c ∈ d2, is_digit c = true) ∧ frac = 46 :: d2)
    (htail : rd tail 0 = 0 ∨ rd tail 0 = 44) :
    check_float_list (List.replicate n 32 ++ (lead ++ (d1 ++ (frac ++ tail)))) = true := by
  have hfin := check_float_list_fraction frac tail hfrac htail
  have hnd := rd_fraction_not_digit frac tail hfrac htail
  have hdrop := dropWhile_digits_stop d1 (frac ++ tail) hd1 hnd
  unfold check_float_list
  rw [dropWhile_spaces]
  rcases hlead with hl | hl | hl
  · subst hl
    rw [List.nil_append]
    cases d1 with
    | nil =>
      rw [List.nil_append]
      rcases hfrac with h | ⟨d2, hd2, h⟩
      · subst h
        rw [List.nil_append]
        have htsp : is_space (rd tail 0) = false := by
          rcases htail with h | h <;> simp [h, is_space]
        rw [dropWhile_of_rd _ _ htsp]
        rcases htail with h | h <;> simp [h]
      · subst h
        have htd : is_digit (rd tail 0) = false := by
          rcases htail with h | h <;> simp [h, is_digit]
        have hsp : is_space 46 = false := by decide
        simp only [List.cons_append, List.dropWhile_cons, hsp, Bool.false_eq_true, if_false,
          rd_cons_zero]
        simp only [show ((46 : Nat) == 44 || (46 : Nat) == 0) = false by decide,
          Bool.false_eq_true, if_false, show is_digit 46 = false by decide, Bool.false_or,
          beq_self_eq_true, Bool.true_or, if_true, List.drop_succ_cons, List.drop_zero]
        rw [dropWhile_digits_stop d2 tail hd2 htd]
        rcases htail with h | h <;> simp [h]
    | cons d d1' =>
      have hd := hd1 d (List.mem_cons_self _ _)
      have hdr := (is_digit_iff d).1 hd
      have hsp : is_space d = false := by simp [is_space]; omega
      have h1 : (d == 44 || d == 0) = false := by simp; omega
      have h2 : (d == 46 || d == 45) = false := by simp; omega
      simp only [List.cons_append, List.dropWhile_cons, hsp, Bool.false_eq_true, if_false,
        rd_cons_zero, h1, h2, hd, Bool.true_or, if_true]
      have hdrop' := hdrop
      simp only [List.cons_append, List.dropWhile_cons, hd, if_true] at hdrop'
      rw [hdrop']
      exact hfin
  · subst hl
    have hsp : is_space 45 = false := by decide
    simp only [List.cons_append, List.nil_append, List.dropWhile_cons, hsp, Bool.false_eq_true,
      if_false, rd_cons_zero]
    simp only [show ((45 : Nat) == 44 || (45 : Nat) == 0) = false by decide,
      Bool.false_eq_true, if_false, show is_digit 45 = false by decide, Bool.false_or,
      show ((45 : Nat) == 46) = false by decide,
      beq_self_eq_true, Bool.or_true, if_true, List.drop_succ_cons, List.drop_zero]
    rw [hdrop]
    exact hfin
  · subst hl
    have hsp : is_space 46 = false := by decide
    simp only [List.cons_append, List.nil_append, List.dropWhile_cons, hsp, Bool.false_eq_true,
      if_false, rd_cons_zero]
    simp only [show ((46 : Nat) == 44 || (46 : Nat) == 0) = false by decide,
      Bool.false_eq_true, if_false, show is_digit 46 = false by decide, Bool.false_or,
      beq_self_eq_true, Bool.true_or, if_true, List.drop_succ_cons, List.drop_zero]
    rw [hdrop]
    exact hfin

/-- The float classifier accepts exactly the slices whose leading field is
spaces, an optional `-` or `.`, digits and optionally a `.` followed by digits. -/
theorem check_float_list_iff (buffer : List Nat) :
    check_float_list buffer = true ↔
      ∃ (n : Nat) (lead d1 frac : List Nat), (lead = [] ∨ lead = [45] ∨ lead = [46]) ∧
        (∀ c ∈ d1, is_digit c = true) ∧
        (frac = [] ∨ ∃ d2 : List Nat, (∀ c ∈ d2, is_digit c = true) ∧ frac = 46 :: d2) ∧
        leading_field buffer = List.replicate n 32 ++ (lead ++ (d1 ++ frac)) := by
  constructor
  · exact check_float_list_form buffer
  · rintro ⟨n, lead, d1, frac, hlead, hd1, hfrac, hf⟩
    obtain ⟨rest, hbuf, hrest, _⟩ := leading_field_split buffer
    rw [hbuf, hf]
    have := check_float_list_of_form n lead d1 frac rest hlead hd1 hfrac hrest
    simpa only [List.append_assoc] using this

theorem takeWhile_of_rd (p : Nat → Bool) (l : List Nat) (h : p (rd l 0) = false) :
    l.takeWhile p = [] := by
  cases l with
  | nil => rfl
  | cons c cs =>
    rw [rd_cons_zero] at h
    simp [List.takeWhile_cons, h]

theorem takeWhile_digits_stop (ds r : List Nat) (hds : ∀ c ∈ ds, is_digit c = true)
    (hr : is_digit (rd r 0) = false) : (ds ++ r).takeWhile is_digit = ds := by
  rw [List.takeWhile_append_of_pos hds, takeWhile_of_rd _ _ hr, List.append_nil]

theorem dropWhile_eq_self_of_all (p : Nat → Bool) (l : List Nat) (h : ∀ c ∈ l, p c = false) :
    l.dropWhile p = l := by
  cases l with
  | nil => rfl
  | cons c cs => simp [List.dropWhile_cons, h c (List.mem_cons_self _ _)]

/-- The float classifier rejects a field that ends in spaces after a body. -/
theorem check_float_list_trailing_space (buffer : List Nat) (a m : Nat) (body : List Nat)
    (hfield : leading_field buffer =
      List.replicate a 32 ++ (body ++ List.replicate (m + 1) 32))
    (hne : body ≠ []) (hb : ∀ c ∈ body, c ≠ 32) : check_float_list buffer = false := by
  cases hacc : check_float_list buffer with
  | false => rfl
  | true =>
    exfalso
    obtain ⟨n, lead, d1, frac, hlead, hd1, hfrac, hf⟩ := check_float_list_form buffer hacc
    have hX : ∀ c ∈ lead ++ (d1 ++ frac), is_space c = false := by
      intro c hc
      simp only [List.mem_append] at hc
      rcases hc with hc | hc | hc
      · rcases hlead with hl | hl | hl <;> rw [hl] at hc <;> simp at hc <;> subst hc <;> decide
      · have := (is_digit_iff c).1 (hd1 c hc)
        simp [is_space]; omega
      · rcases hfrac with h | ⟨d2, hd2, h⟩
        · rw [h] at hc; simp at hc
        · rw [h] at hc
          simp only [List.mem_cons] at hc
          rcases hc with hc | hc
          · subst hc; decide
          · have := (is_digit_iff c).1 (hd2 c hc)
            simp [is_space]; omega
    have h1 : (leading_field buffer).dropWhile is_space = lead ++ (d1 ++ frac) := by
      rw [hf, dropWhile_spaces, dropWhile_eq_self_of_all _ _ hX]
    have h2 : (leading_field buffer).dropWhile is_space = body ++ List.replicate (m + 1) 32 := by
      rw [hfield, dropWhile_spaces]
      cases body with
      | nil => exact absurd rfl hne
      | cons c cs =>
        have : is_space c = false := by
          have := hb c (List.mem_cons_self _ _)
          simp [is_space, this]
        simp [List.dropWhile_cons, this]
    have h32 : (32 : Nat) ∈ lead ++ (d1 ++ frac) := by
      rw [← h1, h2]
      simp [List.replicate_succ]
    exact absurd (hX 32 h32) (by decide)

/-! ## The integer that `atoi` reads -/

theorem int_wrap_small (z : Int) (h1 : -(2 ^ 31 : Int) ≤ z) (h2 : z < (2 ^ 31 : Int)) :
    (max (-(2 ^ 63 : Int)) (min (2 ^ 63 - 1) z) + 2 ^ 31) % 2 ^ 32 - 2 ^ 31 = z := by
  have : max (-(2 ^ 63 : Int)) (min (2 ^ 63 - 1) z) = z := by
    rw [min_eq_right (by omega), max_eq_right (by omega)]
  rw [this]
  omega

theorem takeWhile_digit_spaces (ds : List Nat) (m : Nat) (hds : ∀ c ∈ ds, is_digit c = true) :
    (ds ++ List.replicate m 32).takeWhile is_digit = ds := by
  apply takeWhile_digits_stop _ _ hds
  cases m with
  | zero => rfl
  | succ k => rfl

/-- The integer denoted by a field of the form spaces, an optional `-`, digits,
spaces. -/
theorem int_denoted_of_form (n m : Nat) (neg : Bool) (ds : List Nat)
    (hds : ∀ c ∈ ds, is_digit c = true) :
    int_denoted (List.replicate n 32 ++ (sign_bytes neg ++ (ds ++ List.replicate m 32))) =
      if neg then - (decimal_value ds : Int) else (decimal_value ds : Int) := by
  unfold int_denoted
  rw [dropWhile_spaces]
  cases neg with
  | true =>
    have hsp : is_space 45 = false := by decide
    simp only [sign_bytes, if_true, List.cons_append, List.nil_append, List.dropWhile_cons, hsp,
      Bool.false_eq_true, if_false, takeWhile_digit_spaces ds m hds]
  | false =>
    simp only [sign_bytes, Bool.false_eq_true, if_false, List.nil_append]
    cases ds with
    | nil =>
      have : (List.replicate m 32).dropWhile is_space = [] := by
        have := dropWhile_spaces m []
        simpa using this
      simp only [List.nil_append, this, List.takeWhile_nil]
    | cons d ds' =>
      have hd := hds d (List.mem_cons_self _ _)
      have hdr := (is_digit_iff d).1 hd
      have hsp : is_space d = false := by simp [is_space]; omega
      simp only [List.cons_append, List.dropWhile_cons, hsp, Bool.false_eq_true, if_false]
      have htw := takeWhile_digit_spaces (d :: ds') m hds
      simp only [List.cons_append] at htw
      split
      · rename_i u heq
        have := (List.cons.inj heq).1
        omega
      · rw [htw]

/-- The result of `atoi` on a slice whose leading field is spaces, an optional
`-`, digits, spaces, when the integer fits `int`. -/
theorem atoi_of_form (n m : Nat) (neg : Bool) (ds tail : List Nat)
    (hds : ∀ c ∈ ds, is_digit c = true) (htail : rd tail 0 = 0 ∨ rd tail 0 = 44)
    (hlo : -(2 ^ 31 : Int) ≤ if neg then - (decimal_value ds : Int) else (decimal_value ds : Int))
    (hhi : (if neg then - (decimal_value ds : Int) else (decimal_value ds : Int)) < 2 ^ 31) :
    atoi (List.replicate n 32 ++ (sign_bytes neg ++ (ds ++ (List.replicate m 32 ++ tail)))) =
      if neg then - (decimal_value ds : Int) else (decimal_value ds : Int) := by
  have hrep : ∀ l : List Nat, (List.replicate n 32 ++ l).dropWhile isspace = l.dropWhile isspace := by
    intro l
    apply List.dropWhile_append_of_pos
    intro c hc
    rw [List.eq_of_mem_replicate hc]; rfl
  have hrepm : ∀ l : List Nat, (List.replicate m 32 ++ l).dropWhile isspace = l.dropWhile isspace := by
    intro l
    apply List.dropWhile_append_of_pos
    intro c hc
    rw [List.eq_of_mem_replicate hc]; rfl
  have hnd : is_digit (rd (List.replicate m 32 ++ tail) 0) = false := by
    rcases rd_spaces_tail m tail htail with h | h | h <;> simp [h, is_digit]
  have htw := takeWhile_digits_stop ds (List.replicate m 32 ++ tail) hds hnd
  have hpos : (0 : Int) ≤ (decimal_value ds : Int) := Int.natCast_nonneg _
  unfold atoi
  rw [hrep]
  cases neg with
  | true =>
    simp only [if_true] at hlo hhi
    have hsp : isspace 45 = false := by decide
    simp only [sign_bytes, if_true, List.cons_append, List.nil_append, List.dropWhile_cons, hsp,
      Bool.false_eq_true, if_false, List.head?_cons, beq_self_eq_true, Bool.true_or,
      List.tail_cons, htw, digits_value_eq]
    exact int_wrap_small _ (by omega) (by omega)
  | false =>
    simp only [Bool.false_eq_true, if_false] at hlo hhi
    simp only [sign_bytes, Bool.false_eq_true, if_false, List.nil_append]
    cases ds with
    | nil =>
      have htsp : isspace (rd tail 0) = false := by
        rcases htail with h | h <;> simp [h, isspace]
      have htd : is_digit (rd tail 0) = false := by
        rcases htail with h | h <;> simp [h, is_digit]
      have hh45 : (tail.head? == some 45) = false := by
        cases tail with
        | nil => rfl
        | cons x r =>
          rw [rd_cons_zero] at htail
          rcases htail with h | h <;> simp [h]
      have hh43 : (tail.head? == some 43) = false := by
        cases tail with
        | nil => rfl
        | cons x r =>
          rw [rd_cons_zero] at htail
          rcases htail with h | h <;> simp [h]
      simp only [List.nil_append, hrepm, dropWhile_of_rd _ _ htsp, hh45, hh43, Bool.or_self,
        Bool.false_eq_true, if_false, takeWhile_of_rd _ _ htd]
      decide
    | cons d ds' =>
      have hd := hds d (List.mem_cons_self _ _)
      have hdr := (is_digit_iff d).1 hd
      have hsp : isspace d = false := by simp [isspace]; omega
      have hn45 : (some d == some 45) = false := by simp; omega
      have hn43 : (some d == some 43) = false := by simp; omega
      simp only [List.cons_append] at htw
      simp only [List.cons_append, List.dropWhile_cons, hsp, Bool.false_eq_true, if_false,
        List.head?_cons, hn45, hn43, Bool.or_self, htw, digits_value_eq]
      exact int_wrap_small _ (by omega) (by omega)

/-! ## Writing a field into a string buffer -/

theorem field_pred_eq :
    (fun c : Nat => c != 0 && c != 44) = (fun c : Nat => c != 44 && c != 0) := by
  funext c
  exact Bool.and_comm _ _

theorem field_end_covered (buffer : List Nat) (buffer_len : Nat)
    (hcov : buffer.length ≤ buffer_len) :
    field_end buffer buffer_len = (leading_field buffer).length := by
  unfold field_end leading_field
  rw [List.take_of_length_le hcov, field_pred_eq]

theorem take_leading_field (buffer : List Nat) :
    buffer.take (leading_field buffer).length = leading_field buffer := by
  unfold leading_field
  have h := List.takeWhile_append_dropWhile (fun c => c != 44 && c != 0) buffer
  generalize buffer.takeWhile (fun c => c != 44 && c != 0) = a at h ⊢
  rw [← h]
  exact List.take_left' rfl

theorem c_string_append_nul (a r : List Nat) (ha : ∀ c ∈ a, c ≠ 0) :
    c_string (a ++ 0 :: r) = a := by
  unfold c_string
  rw [takeWhile_append_sep _ _ _ _ (by decide), takeWhile_eq_self]
  intro c hc
  simp [ha c hc]

/-- The loop of `csvp_string_write` stops at the first of the capacities
`capacity * 2 ^ k` that exceeds `n`. -/
theorem csvp_string_grow_least (n : Nat) (hn : n < 2 ^ 63) :
    ∀ fuel capacity, 0 < capacity → n < capacity * 2 ^ fuel →
      ∃ k, csvp_string_grow n (fuel + 1) capacity = some (capacity * 2 ^ k) ∧
        n < capacity * 2 ^ k ∧ ∀ j, j < k → capacity * 2 ^ j ≤ n := by
  intro fuel
  induction fuel with
  | zero =>
    intro capacity _ h
    have : ¬ capacity ≤ n := by omega
    exact ⟨0, by simp [csvp_string_grow, this], by omega, fun j hj => absurd hj (by omega)⟩
  | succ f ih =>
    intro capacity hpos h
    by_cases hle : capacity ≤ n
    · have hmod : capacity * 2 % SIZE_RANGE = capacity * 2 := by
        apply Nat.mod_eq_of_lt; unfold SIZE_RANGE; omega
      obtain ⟨k, h1, h2, h3⟩ := ih (capacity * 2) (by omega) (by rw [pow_succ] at h; linarith)
      have hpow : ∀ j, capacity * 2 ^ (j + 1) = capacity * 2 * 2 ^ j := by
        intro j; rw [pow_succ]; ring
      refine ⟨k + 1, ?_, by rw [hpow]; exact h2, ?_⟩
      · rw [csvp_string_grow, if_pos hle, hmod, hpow]; exact h1
      · intro j hj
        cases j with
        | zero => simpa using hle
        | succ i => rw [hpow]; exact h3 i (by omega)
    · exact ⟨0, by rw [csvp_string_grow, if_neg hle]; simp, by omega,
        fun j hj => absurd hj (by omega)⟩

/-! ## The line reader against its reference definition -/

theorem take_first_line (fd : List Nat) (k : Nat) (hk : k ≤ (first_line fd).length) :
    fd.take k = (first_line fd).take k := by
  have h := List.takeWhile_append_dropWhile (fun c => c != 0 && c != 10) fd
  unfold first_line at hk ⊢
  generalize fd.takeWhile (fun c => c != 0 && c != 10) = a at h hk ⊢
  rw [← h, List.take_append_of_le_length hk]

theorem takeWhile_drop (p : Nat → Bool) (l : List Nat) :
    ∀ k, k ≤ (l.takeWhile p).length → (l.drop k).takeWhile p = (l.takeWhile p).drop k := by
  induction l with
  | nil => intro k _; simp
  | cons c cs ih =>
    intro k hk
    cases k with
    | zero => rfl
    | succ j =>
      by_cases hc : p c = true
      · simp only [List.takeWhile_cons, hc, if_true, List.length_cons] at hk
        simp only [List.drop_succ_cons, List.takeWhile_cons, hc, if_true]
        exact ih j (by omega)
      · simp [List.takeWhile_cons, hc] at hk

theorem first_line_drop (fd : List Nat) (k : Nat) (hk : k ≤ (first_line fd).length) :
    first_line (fd.drop k) = (first_line fd).drop k :=
  takeWhile_drop _ fd k hk

theorem csvp_getline_eq_reference (buffer_size : Nat) (fd : List Nat) (hbs : 1 ≤ buffer_size) :
    csvp_getline buffer_size fd = some (csvp_getline_reference buffer_size fd) := by
  have h0 : buffer_size ≠ 0 := by omega
  unfold csvp_getline_reference
  simp only [csvp_getline, h0, if_false, csvp_getline_loop_fst, csvp_getline_loop_snd,
    List.length_take, Option.some.injEq, Prod.mk.injEq]
  refine ⟨?_, Nat.min_comm _ _, ?_⟩
  · rw [take_first_line fd _ (Nat.min_le_left _ _)]
    by_cases h : (first_line fd).length ≤ buffer_size - 1
    · rw [Nat.min_eq_left h, List.take_of_length_le h, List.take_length]
    · rw [Nat.min_eq_right (by omega)]
  · by_cases h : (first_line fd).length < buffer_size - 1
    · simp only [h, if_true]
    · simp only [h, if_false]
      rw [Nat.min_eq_right (by omega)]

/-! ## The format compiler against its reference definition -/

theorem segment_types_nil : segment_types [] = [] := by
  simp [segment_types, split_commas]

theorem segment_types_comma (desc : List Nat) :
    segment_types (44 :: desc) = segment_types desc := by
  simp [segment_types, split_commas]

theorem segment_types_space (desc : List Nat) :
    segment_types (32 :: desc) = segment_types desc := by
  unfold segment_types
  rw [split_commas]
  simp only [show ¬ (32 : Nat) = 44 by decide, if_false]
  cases split_commas desc with
  | nil => simp [is_space, token_type, bytes]
  | cons s ss =>
    simp only [List.filter_cons, List.all_cons, show is_space 32 = true from rfl,
      Bool.true_and]
    by_cases hs : s.all is_space = true
    · simp [hs]
    · simp [hs, List.dropWhile_cons, show is_space 32 = true from rfl]

theorem segment_types_seps (l desc : List Nat) (hl : ∀ c ∈ l, is_separator c = true) :
    segment_types (l ++ desc) = segment_types desc := by
  induction l with
  | nil => rfl
  | cons c cs ih =>
    have hc := hl c (List.mem_cons_self _ _)
    have hc' : c = 44 ∨ c = 32 := by simpa [is_separator] using hc
    have ih' := ih (fun x hx => hl x (List.mem_cons_of_mem _ hx))
    rcases hc' with h | h
    · rw [h, List.cons_append, segment_types_comma, ih']
    · rw [h, List.cons_append, segment_types_space, ih']

theorem split_commas_segment (s : List Nat) (hs : ∀ c ∈ s, c ≠ 44) :
    split_commas s = [s] ∧ ∀ rest, split_commas (s ++ 44 :: rest) = s :: split_commas rest := by
  induction s with
  | nil => exact ⟨rfl, fun rest => by simp [split_commas]⟩
  | cons c cs ih =>
    have hc := hs c (List.mem_cons_self _ _)
    obtain ⟨ih1, ih2⟩ := ih (fun x hx => hs x (List.mem_cons_of_mem _ hx))
    constructor
    · rw [split_commas, if_neg hc, ih1]
    · intro rest
      rw [List.cons_append, split_commas, if_neg hc, ih2]

theorem segment_types_segment (s : List Nat) (hs : s ≠ [])
    (hs0 : is_separator (rd s 0) = false) (hsb : ∀ c ∈ s, c ≠ 44) :
    segment_types s = [token_type s] ∧
      ∀ rest, segment_types (s ++ 44 :: rest) = token_type s :: segment_types rest := by
  obtain ⟨h1, h2⟩ := split_commas_segment s hsb
  have hsp : is_space (rd s 0) = false := by
    cases h : is_space (rd s 0) with
    | false => rfl
    | true =>
      have : rd s 0 = 32 := by simpa [is_space] using h
      rw [this] at hs0
      exact absurd hs0 (by decide)
  have hall : s.all is_space = false := by
    cases s with
    | nil => exact absurd rfl hs
    | cons c cs =>
      rw [rd_cons_zero] at hsp
      simp [hsp]
  have hdrop : s.dropWhile is_space = s := dropWhile_of_rd _ _ hsp
  constructor
  · simp [segment_types, h1, hall, hdrop]
  · intro rest
    simp [segment_types, h2, hall, hdrop]

/-- A descriptor that is not made of separators only is a run of separators, a
segment that starts a token, and nothing more or a comma and the rest. -/
theorem descriptor_split (desc : List Nat) (h0 : ∀ c ∈ desc, c ≠ 0)
    (hrest : desc.dropWhile is_separator ≠ []) :
    ∃ l s R, desc = l ++ s ++ R ∧ (∀ c ∈ l, is_separator c = true) ∧ s ≠ [] ∧
      is_separator (rd s 0) = false ∧ (∀ c ∈ s, c ≠ 44 ∧ c ≠ 0) ∧
      (R = [] ∨ ∃ rest, R = 44 :: rest) := by
  have hsplit : desc = desc.takeWhile is_separator ++
      ((desc.dropWhile is_separator).takeWhile (fun c => c != 44) ++
        (desc.dropWhile is_separator).dropWhile (fun c => c != 44)) := by
    rw [List.takeWhile_append_dropWhile, List.takeWhile_append_dropWhile]
  generalize hl : desc.takeWhile is_separator = l at hsplit
  have hlsep : ∀ c ∈ l, is_separator c = true := by
    intro c hc; rw [← hl] at hc; exact List.mem_takeWhile_imp hc
  have hhead : is_separator (rd (desc.dropWhile is_separator) 0) = false := by
    cases hd : desc.dropWhile is_separator with
    | nil => exact absurd hd hrest
    | cons x xs =>
      rw [rd_cons_zero]
      by_contra hx
      have hx' : is_separator x = true := by simpa using hx
      have := List.dropWhile_get_zero_not is_separator desc (by rw [hd]; simp)
      simp only [hd, List.get_eq_getElem, List.getElem_cons_zero] at this
      exact this hx'
  generalize hd : desc.dropWhile is_separator = rest at hsplit hrest hhead
  have hrest0 : ∀ c ∈ rest, c ≠ 0 := by
    intro c hc; rw [← hd] at hc; exact h0 c (mem_of_mem_dropWhile hc)
  have hsne : rest.takeWhile (fun c => c != 44) ≠ [] := by
    cases rest with
    | nil => exact absurd rfl hrest
    | cons x xs =>
      rw [rd_cons_zero] at hhead
      have : x ≠ 44 := by
        intro hx; rw [hx] at hhead; exact absurd hhead (by decide)
      simp [List.takeWhile_cons, this]
  have hs0 : is_separator (rd (rest.takeWhile (fun c => c != 44)) 0) = false := by
    cases rest with
    | nil => exact absurd rfl hrest
    | cons x xs =>
      rw [rd_cons_zero] at hhead
      have : x ≠ 44 := by
        intro hx; rw [hx] at hhead; exact absurd hhead (by decide)
      simp only [List.takeWhile_cons, bne_iff_ne, ne_eq, this, not_false_eq_true,
        decide_True, if_true, rd_cons_zero]
      exact hhead
  have hsb : ∀ c ∈ rest.takeWhile (fun c => c != 44), c ≠ 44 ∧ c ≠ 0 := by
    intro c hc
    refine ⟨by simpa using List.mem_takeWhile_imp hc,
      hrest0 c ((List.takeWhile_sublist _).subset hc)⟩
  have hR : rest.dropWhile (fun c => c != 44) = [] ∨
      ∃ r, rest.dropWhile (fun c => c != 44) = 44 :: r := by
    cases hR : rest.dropWhile (fun c => c != 44) with
    | nil => exact Or.inl rfl
    | cons x xs =>
      right
      have := List.dropWhile_get_zero_not (fun c => c != 44) rest (by rw [hR]; simp)
      simp only [hR, List.get_eq_getElem, List.getElem_cons_zero, bne_iff_ne, ne_eq,
        not_not] at this
      exact ⟨xs, by rw [this]⟩
  refine ⟨l, rest.takeWhile (fun c => c != 44), rest.dropWhile (fun c => c != 44), ?_, hlsep,
    hsne, hs0, hsb, hR⟩
  rw [List.append_assoc]
  exact hsplit

/-- The compile loop gives the types of the segments of the descriptor, up to
`MAX_ENTRIES` types in all. -/
theorem csvp_create_format_loop_segments :
    ∀ (n : Nat) (desc : List Nat) (types : List csvp_type_t) (fuel : Nat),
      desc.length ≤ n → (∀ c ∈ desc, c ≠ 0) → desc.length < fuel →
      csvp_create_format_loop desc fuel 0 types =
        some (types ++ (segment_types desc).take (MAX_ENTRIES - types.length)) := by
  intro n
  induction n with
  | zero =>
    intro desc types fuel hn _ hfuel
    have : desc = [] := List.length_eq_zero.1 (by omega)
    subst this
    rw [csvp_create_format_loop_blank [] types fuel (by simp) hfuel, segment_types_nil]
    simp
  | succ n ih =>
    intro desc types fuel hn h0 hfuel
    by_cases hfull : types.length < MAX_ENTRIES
    · by_cases hrest : desc.dropWhile is_separator = []
      · have hall : ∀ c ∈ desc, is_separator c = true := List.dropWhile_eq_nil_iff.1 hrest
        rw [csvp_create_format_loop_blank desc types fuel hall hfuel]
        have := segment_types_seps desc [] hall
        rw [List.append_nil] at this
        rw [this, segment_types_nil]
        simp
      · obtain ⟨l, s, R, hsplit, hlsep, hsne, hs0, hsb, hR⟩ := descriptor_split desc h0 hrest
        obtain ⟨fuel', rfl⟩ : ∃ k, fuel = k + 1 := ⟨fuel - 1, by omega⟩
        obtain ⟨m, hm⟩ : ∃ m, MAX_ENTRIES - types.length = m + 1 :=
          ⟨MAX_ENTRIES - types.length - 1, by omega⟩
        obtain ⟨hseg1, hseg2⟩ := segment_types_segment s hsne hs0 (fun c hc => (hsb c hc).1)
        rcases hR with hR | ⟨rest, hR⟩
        · subst hR
          have hbody := csvp_create_format_body_segment l s [] types hlsep hsne hs0 hsb
            (Or.inl rfl) hfull
          rw [← hsplit] at hbody
          rw [csvp_create_format_loop_succ, hbody]
          rw [hsplit, List.append_nil, segment_types_seps l s hlsep, hseg1, hm]
          simp [rd_nil]
        · subst hR
          have hbody := csvp_create_format_body_segment l s (44 :: rest) types hlsep hsne hs0
            hsb (Or.inr rfl) hfull
          rw [← hsplit] at hbody
          rw [csvp_create_format_loop_succ, hbody]
          simp only [rd_cons_zero, show ((44 : Nat) == 0) = false by decide, Bool.false_eq_true,
            if_false]
          have hshift := csvp_create_format_loop_shift desc (l.length + s.length + 1)
            fuel' 0 (types ++ [token_type s])
          rw [Nat.add_zero] at hshift
          have hdrop : desc.drop (l.length + s.length + 1) = rest := by
            rw [hsplit]
            have : l.length + s.length + 1 = (l ++ s ++ [44]).length := by
              simp only [List.length_append, List.length_cons, List.length_nil]
            rw [this]
            have : l ++ s ++ 44 :: rest = (l ++ s ++ [44]) ++ rest := by simp
            rw [this, List.drop_left]
          have hlen : desc.length = l.length + s.length + 1 + rest.length := by
            rw [hsplit]; simp only [List.length_append, List.length_cons]; omega
          rw [hshift, hdrop, ih rest _ fuel' (by omega)
            (fun c hc => h0 c (by rw [hsplit]; simp [hc])) (by omega)]
          have hm' : MAX_ENTRIES - (types ++ [token_type s]).length = m := by
            simp only [List.length_append, List.length_singleton]; omega
          have hst : segment_types desc = token_type s :: segment_types rest := by
            rw [hsplit, List.append_assoc, segment_types_seps _ _ hlsep, hseg2]
          rw [hm', hm, hst]
          simp
    · have hz : MAX_ENTRIES - types.length = 0 := by omega
      obtain ⟨fuel', rfl⟩ : ∃ k, fuel = k + 1 := ⟨fuel - 1, by omega⟩
      rw [csvp_create_format_loop, hz]
      have : (rd desc 0 != 0 && decide (types.length < MAX_ENTRIES)) = false := by
        simp [hfull]
      rw [this]
      simp

theorem csvp_create_format_eq_reference (desc : List Nat) (h0 : ∀ c ∈ desc, c ≠ 0) :
    csvp_create_format desc = some (csvp_create_format_reference desc) := by
  have hloop := csvp_create_format_loop_segments desc.length desc [] (desc.length + 1)
    (le_refl _) h0 (by omega)
  rw [csvp_create_format_of_loop desc _ hloop]
  unfold csvp_create_format_reference
  simp only [List.nil_append, List.length_nil, Nat.sub_zero, MAX_ENTRIES]
  cases h : (segment_types desc).take 100 with
  | nil => simp
  | cons t ts => simp

/-! ## The decoder reads inside the line buffer -/

theorem mem_scan_reads {i j x : Nat} (h : x ∈ scan_reads i j) : x ≤ j := by
  unfold scan_reads at h
  rw [List.mem_range'_1] at h
  omega

theorem mem_guarded_reads {n buffer_len x : Nat} (h : x ∈ guarded_reads n buffer_len) :
    x ≤ n := by
  unfold guarded_reads at h
  rw [List.mem_range] at h
  split at h <;> omega

theorem skip_count_le (buffer : List Nat) (buffer_len : Nat) :
    ((buffer.take buffer_len).takeWhile (fun c => c != 0 && c == 32)).length ≤ buffer.length :=
  le_trans (length_takeWhile_le _ _) (by simp)

theorem size_of_int_skip_le (buffer : List Nat) (buffer_len : Nat)
    (hlen : buffer.length < 2 ^ 31) :
    size_of_int (csvp_skip_whitespace buffer buffer_len) ≤ buffer.length := by
  unfold csvp_skip_whitespace
  have h := skip_count_le buffer buffer_len
  rw [size_of_int_of_size (by omega)]
  exact h

theorem mem_csvp_skip_whitespace_reads {buffer : List Nat} {buffer_len x : Nat}
    (h : x ∈ csvp_skip_whitespace_reads buffer buffer_len) : x ≤ buffer.length :=
  le_trans (mem_guarded_reads h) (skip_count_le buffer buffer_len)

theorem scan_digits_bounded_le (buffer : List Nat) (buffer_len : Nat) {i : Nat}
    (h : i ≤ buffer.length) : scan_digits_bounded buffer buffer_len i ≤ buffer.length := by
  unfold scan_digits_bounded
  have h1 := length_takeWhile_le is_digit ((buffer.take buffer_len).drop i)
  simp only [List.length_drop, List.length_take] at h1
  omega

/-- Every index that `csvp_check_integer` reads is at most the length of the
slice: the terminating NUL is the last byte it can reach. -/
theorem mem_csvp_check_integer_reads (buffer : List Nat) (buffer_len : Nat)
    (hlen : buffer.length < 2 ^ 31) :
    ∀ x ∈ csvp_check_integer_reads buffer buffer_len, x ≤ buffer.length := by
  intro x hx
  unfold csvp_check_integer_reads at hx
  have hi := size_of_int_skip_le buffer buffer_len hlen
  generalize size_of_int (csvp_skip_whitespace buffer buffer_len) = i at hx hi
  have hbase : ∀ y ∈ csvp_skip_whitespace_reads buffer buffer_len ++ [i], y ≤ buffer.length := by
    intro y hy
    rw [List.mem_append, List.mem_singleton] at hy
    rcases hy with hy | hy
    · exact mem_csvp_skip_whitespace_reads hy
    · omega
  simp only at hx
  by_cases h1 : (rd buffer i == 44 || rd buffer i == 0) = true
  · rw [if_pos h1] at hx
    exact hbase x hx
  · rw [if_neg h1] at hx
    by_cases h2 : (is_digit (rd buffer i) || rd buffer i == 45) = true
    · rw [if_pos h2] at hx
      have hne : rd buffer i ≠ 0 := by
        intro h; simp [h] at h1
      have hilt := lt_length_of_rd_ne_zero hne
      have hi' : (if (rd buffer i == 45) = true then i + 1 else i) ≤ buffer.length := by
        split <;> omega
      generalize (if (rd buffer i == 45) = true then i + 1 else i) = i' at hx hi'
      have hj := scan_while_le is_digit buffer hi'
      generalize scan_while is_digit buffer i' = j at hx hj
      have hk := size_of_int_skip_le (buffer.drop j) (size_sub buffer_len j)
        (by simp only [List.length_drop]; omega)
      simp only [List.length_drop] at hk
      simp only [List.mem_append, List.mem_singleton, List.mem_map] at hx
      rcases hx with ((hx | hx) | ⟨y, hy, hxy⟩) | hx
      · exact hbase x (by rw [List.mem_append, List.mem_singleton]; exact hx)
      · exact le_trans (mem_scan_reads hx) hj
      · have := mem_csvp_skip_whitespace_reads hy
        simp only [List.length_drop] at this
        omega
      · rw [hx]
        exact le_trans (Nat.mod_le _ _) (by omega)
    · rw [if_neg h2] at hx
      exact hbase x hx

/-- Every index that `csvp_check_float` reads is at most the length of the slice. -/
theorem mem_csvp_check_float_reads (buffer : List Nat) (buffer_len : Nat)
    (hlen : buffer.length < 2 ^ 31) :
    ∀ x ∈ csvp_check_float_reads buffer buffer_len, x ≤ buffer.length := by
  intro x hx
  unfold csvp_check_float_reads at hx
  have hi := size_of_int_skip_le buffer buffer_len hlen
  generalize size_of_int (csvp_skip_whitespace buffer buffer_len) = i at hx hi
  have hbase : ∀ y ∈ csvp_skip_whitespace_reads buffer buffer_len ++ [i], y ≤ buffer.length := by
    intro y hy
    rw [List.mem_append, List.mem_singleton] at hy
    rcases hy with hy | hy
    · exact mem_csvp_skip_whitespace_reads hy
    · omega
  simp only at hx
  by_cases h1 : (rd buffer i == 44 || rd buffer i == 0) = true
  · rw [if_pos h1] at hx
    exact hbase x hx
  · rw [if_neg h1] at hx
    by_cases h2 : (is_digit (rd buffer i) || rd buffer i == 46 || rd buffer i == 45) = true
    · rw [if_pos h2] at hx
      have hne : rd buffer i ≠ 0 := by
        intro h; simp [h] at h1
      have hilt := lt_length_of_rd_ne_zero hne
      have hi' : (if (rd buffer i == 46 || rd buffer i == 45) = true then i + 1 else i) ≤
          buffer.length := by
        split <;> omega
      generalize (if (rd buffer i == 46 || rd buffer i == 45) = true then i + 1 else i) = i'
        at hx hi'
      have hj := scan_digits_bounded_le buffer buffer_len hi'
      generalize scan_digits_bounded buffer buffer_len i' = j at hx hj
      by_cases h3 : (rd buffer j == 46) = true
      · rw [if_pos h3] at hx
        have hne3 : rd buffer j ≠ 0 := by
          intro h; simp [h] at h3
        have hjlt := lt_length_of_rd_ne_zero hne3
        have hj2 := scan_digits_bounded_le buffer buffer_len (show j + 1 ≤ buffer.length by omega)
        rw [List.mem_append, List.mem_append] at hx
        rcases hx with (hx | hx) | hx
        · exact hbase x hx
        · exact le_trans (mem_scan_reads hx) hj
        · exact le_trans (mem_scan_reads hx) hj2
      · rw [if_neg h3] at hx
        rw [List.mem_append] at hx
        rcases hx with hx | hx
        · exact hbase x hx
        · exact le_trans (mem_scan_reads hx) hj
    · rw [if_neg h2] at hx
      exact hbase x hx

theorem length_sign_tail (t : List Nat) :
    (if (t.head? == some 45 || t.head? == some 43) = true then 1 else 0) +
      (if (t.head? == some 45 || t.head? == some 43) = true then t.tail else t).length =
        t.length := by
  cases t with
  | nil => rfl
  | cons c cs =>
    by_cases h : (some c == some 45 || some c == some 43) = true
    · simp only [List.head?_cons]
      rw [if_pos h, if_pos h, List.tail_cons, List.length_cons]; omega
    · simp only [List.head?_cons]
      rw [if_neg h, if_neg h, List.length_cons]; omega

theorem mem_atoi_reads {s : List Nat} {x : Nat} (h : x ∈ atoi_reads s) : x ≤ s.length := by
  unfold atoi_reads at h
  simp only [List.mem_range] at h
  have h1 := length_takeWhile_add_dropWhile isspace s
  have h2 := length_sign_tail (s.dropWhile isspace)
  have h3 := length_takeWhile_le is_digit
    (if ((s.dropWhile isspace).head? == some 45 || (s.dropWhile isspace).head? == some 43) = true
      then (s.dropWhile isspace).tail else s.dropWhile isspace)
  omega

theorem length_fraction_le (v : List Nat) :
    (if (v.head? == some 46) = true then 1 + (v.tail.takeWhile is_digit).length else 0) ≤
      v.length := by
  cases v with
  | nil => simp
  | cons c cs =>
    have := length_takeWhile_le is_digit cs
    by_cases h : (some c == some 46) = true
    · simp only [List.head?_cons]
      rw [if_pos h, List.tail_cons, List.length_cons]; omega
    · simp only [List.head?_cons]
      rw [if_neg h]; omega

theorem mem_atof_reads {s : List Nat} {x : Nat} (h : x ∈ atof_reads s) : x ≤ s.length := by
  unfold atof_reads at h
  simp only [List.mem_range] at h
  have h1 := length_takeWhile_add_dropWhile isspace s
  have h2 := length_sign_tail (s.dropWhile isspace)
  have h3 := length_takeWhile_add_dropWhile is_digit
    (if ((s.dropWhile isspace).head? == some 45 || (s.dropWhile isspace).head? == some 43) = true
      then (s.dropWhile isspace).tail else s.dropWhile isspace)
  have h4 := length_fraction_le (List.dropWhile is_digit
    (if ((s.dropWhile isspace).head? == some 45 || (s.dropWhile isspace).head? == some 43) = true
      then (s.dropWhile isspace).tail else s.dropWhile isspace))
  omega

theorem mem_field_end_reads {buffer : List Nat} {buffer_len x : Nat}
    (h : x ∈ field_end_reads buffer buffer_len) : x ≤ buffer.length :=
  le_trans (mem_guarded_reads h) (field_end_le buffer buffer_len)

theorem mem_csvp_write_integer_reads {buffer : List Nat} {buffer_len x : Nat}
    (h : x ∈ csvp_write_integer_reads buffer buffer_len) : x ≤ buffer.length := by
  unfold csvp_write_integer_reads at h
  rw [List.mem_append] at h
  rcases h with h | h
  · exact mem_atoi_reads h
  · exact mem_field_end_reads h

theorem mem_csvp_write_float_reads {buffer : List Nat} {buffer_len x : Nat}
    (h : x ∈ csvp_write_float_reads buffer buffer_len) : x ≤ buffer.length := by
  unfold csvp_write_float_reads at h
  rw [List.mem_append] at h
  rcases h with h | h
  · exact mem_atof_reads h
  · exact mem_field_end_reads h

theorem mem_csvp_write_string_reads {buffer : List Nat} {buffer_len x : Nat}
    (h : x ∈ csvp_write_string_reads buffer buffer_len) : x ≤ buffer.length := by
  unfold csvp_write_string_reads at h
  rw [List.mem_append, List.mem_range] at h
  rcases h with h | h
  · exact mem_field_end_reads h
  · have := field_end_le buffer buffer_len
    omega

/-- Every index of the line buffer that the `switch` reads is at most the length
of the line. -/
theorem mem_csvp_next_record_switch_reads (buffer : List Nat) (buffer_size i idx : Nat)
    (record : csvp_record_t) (hlen : buffer.length < 2 ^ 31) (hi : i ≤ buffer.length) :
    ∀ x ∈ csvp_next_record_switch_reads buffer buffer_size i idx record, x ≤ buffer.length := by
  intro x hx
  have hdl : (buffer.drop i).length < 2 ^ 31 := by
    simp only [List.length_drop]; omega
  have hshift : ∀ y, y ≤ (buffer.drop i).length → i + y ≤ buffer.length := by
    intro y hy
    simp only [List.length_drop] at hy
    omega
  unfold csvp_next_record_switch_reads at hx
  cases hget : record.entries[idx]? with
  | none => rw [hget] at hx; simp at hx
  | some e =>
    rw [hget] at hx
    cases e with
    | v_int n =>
      simp only [List.mem_map, List.mem_append] at hx
      obtain ⟨y, hy, rfl⟩ := hx
      apply hshift
      rcases hy with hy | hy
      · exact mem_csvp_check_integer_reads _ _ hdl y hy
      · split at hy
        · exact mem_csvp_write_integer_reads hy
        · simp at hy
    | v_float q =>
      simp only [List.mem_map, List.mem_append] at hx
      obtain ⟨y, hy, rfl⟩ := hx
      apply hshift
      rcases hy with hy | hy
      · exact mem_csvp_check_float_reads _ _ hdl y hy
      · split at hy
        · exact mem_csvp_write_float_reads hy
        · simp at hy
    | v_string s =>
      simp only [List.mem_map] at hx
      obtain ⟨y, hy, rfl⟩ := hx
      exact hshift y (mem_csvp_write_string_reads hy)

/-- The decode loop returns, and every index it touches is in bounds: those of
the line buffer are at most its length (the place of the terminating NUL), those
of `record->entries` are less than `record->size`. -/
theorem csvp_next_record_loop_reads_bounds (buffer : List Nat) (buffer_size : Nat)
    (hlen : buffer.length < 2 ^ 31) :
    ∀ fuel i idx record, csvp_record_ok record → i ≤ buffer.length →
      buffer.length < fuel + i →
      ∃ reads entries,
        csvp_next_record_loop_reads buffer buffer_size fuel i idx record =
          some (reads, entries) ∧
        (∀ x ∈ reads, x ≤ buffer.length) ∧ ∀ k ∈ entries, k < record.size := by
  intro fuel
  induction fuel with
  | zero => intro i idx record _ h1 h2; omega
  | succ fuel ih =>
    intro i idx record hok hi hfuel
    rw [csvp_next_record_loop_reads]
    by_cases hcond : (rd buffer i != 0 && rd buffer i != 10 && decide (idx < record.size)) = true
    · rw [if_pos hcond]
      simp only [Bool.and_eq_true, bne_iff_ne, ne_eq, decide_eq_true_eq] at hcond
      obtain ⟨⟨hc0, _⟩, hidx⟩ := hcond
      have hilt := lt_length_of_rd_ne_zero hc0
      have hj1 := le_scan_while (fun c => c == 32) buffer i
      have hj2 := scan_while_le (fun c => c == 32) buffer hi
      generalize scan_while (fun c => c == 32) buffer i = j at hj1 hj2
      have hr1 : ∀ x ∈ i :: scan_reads i j, x ≤ buffer.length := by
        intro x hx
        rw [List.mem_cons] at hx
        rcases hx with hx | hx
        · omega
        · exact le_trans (mem_scan_reads hx) hj2
      by_cases hbrk : (rd buffer j == 0 || rd buffer j == 10) = true
      · simp only [hbrk, if_true]
        exact ⟨_, _, rfl, hr1, by simp⟩
      · simp only [hbrk, Bool.false_eq_true, if_false]
        obtain ⟨e, e', idx', hget, hsw, hty, hoke, hidx'⟩ :=
          csvp_next_record_switch_spec buffer buffer_size j idx record hok hidx (by omega)
        rw [hsw]
        have hok1 := csvp_record_ok_set record idx e' hok hoke
        have hr2 := mem_csvp_next_record_switch_reads buffer buffer_size j idx record hlen hj2
        have hk1 := le_scan_while (fun c => c != 44 && c != 0) buffer j
        have hk2 := scan_while_le (fun c => c != 44 && c != 0) buffer hj2
        generalize scan_while (fun c => c != 44 && c != 0) buffer j = k at hk1 hk2
        have hr3 : ∀ x ∈ (i :: scan_reads i j ++
            csvp_next_record_switch_reads buffer buffer_size j idx record) ++ scan_reads j k,
            x ≤ buffer.length := by
          intro x hx
          rw [List.mem_append, List.mem_append] at hx
          rcases hx with (hx | hx) | hx
          · exact hr1 x hx
          · exact hr2 x hx
          · exact le_trans (mem_scan_reads hx) hk2
        by_cases hend : (rd buffer k == 0) = true
        · simp only [hend, if_true]
          refine ⟨_, _, rfl, hr3, ?_⟩
          intro m hm
          rw [List.mem_singleton] at hm
          omega
        · simp only [hend, Bool.false_eq_true, if_false]
          have hne : rd buffer k ≠ 0 := by simpa using hend
          have hklt := lt_length_of_rd_ne_zero hne
          obtain ⟨reads', entries', hrec, hb1, hb2⟩ :=
            ih (k + 1) idx' _ hok1 (by omega) (by omega)
          rw [hrec]
          refine ⟨_, _, rfl, ?_, ?_⟩
          · intro x hx
            rw [List.mem_append] at hx
            rcases hx with hx | hx
            · exact hr3 x hx
            · exact hb1 x hx
          · intro m hm
            rw [List.mem_cons] at hm
            rcases hm with hm | hm
            · omega
            · exact hb2 m hm
    · rw [if_neg hcond]
      refine ⟨_, _, rfl, ?_, by simp⟩
      intro x hx
      rw [List.mem_singleton] at hx
      omega

/-! ## Rounding to the nearest `double` -/

theorem log2_floor_spec : ∀ fuel n, 1 ≤ n → n ≤ fuel →
    2 ^ log2_floor fuel n ≤ n ∧ n < 2 ^ (log2_floor fuel n + 1) := by
  intro fuel
  induction fuel with
  | zero => intro n h1 h2; omega
  | succ fuel ih =>
    intro n h1 h2
    rw [log2_floor]
    by_cases h : 2 ≤ n
    · rw [if_pos h]
      obtain ⟨ih1, ih2⟩ := ih (n / 2) (by omega) (by omega)
      rw [pow_succ] at ih2
      rw [pow_succ, pow_succ]
      constructor <;> omega
    · rw [if_neg h]
      have : n = 1 := by omega
      subst this
      simp

/-- The fraction `n / d` rounded to an integer is within one half of it. -/
theorem round_half_even_spec (n d : Nat) (hd : 0 < d) :
    2 * (round_half_even n d * d) ≤ 2 * n + d ∧ 2 * n ≤ 2 * (round_half_even n d * d) + d := by
  have hdiv := Nat.div_add_mod n d
  have hmod := Nat.mod_lt n hd
  have hmul : (n / d + 1) * d = d * (n / d) + d := by ring
  have hmul' : n / d * d = d * (n / d) := by ring
  unfold round_half_even
  split
  · rename_i h
    have h' : d < 2 * (n % d) ∨ 2 * (n % d) = d := by
      simp only [Bool.or_eq_true, decide_eq_true_eq, Bool.and_eq_true, beq_iff_eq] at h
      rcases h with h | h
      · exact Or.inl h
      · exact Or.inr h.1
    rw [hmul]
    constructor <;> omega
  · rename_i h
    have h' : ¬ d < 2 * (n % d) := by
      intro hlt
      apply h
      simp [hlt]
    rw [hmul']
    constructor <;> omega

/-- The exponent `k` that `ratio_exponent` gives: `2 ^ k ≤ n / d < 2 ^ (k + 1)`,
written without division, for `k = c ≥ 0` and for `k = -(c + 1)`. -/
theorem ratio_exponent_spec (n d : Nat) (hn : 1 ≤ n) (hd : 1 ≤ d) :
    (∃ c : Nat, ratio_exponent n d = (c : Int) ∧ d * 2 ^ c ≤ n ∧ n < d * 2 ^ (c + 1)) ∨
    (∃ c : Nat, ratio_exponent n d = - ((c + 1 : Nat) : Int) ∧ d ≤ n * 2 ^ (c + 1) ∧
      n * 2 ^ c < d) := by
  obtain ⟨ha1, ha2⟩ := log2_floor_spec n n hn (le_refl _)
  obtain ⟨hb1, hb2⟩ := log2_floor_spec d d hd (le_refl _)
  unfold ratio_exponent
  generalize log2_floor n n = a at ha1 ha2
  generalize log2_floor d d = b at hb1 hb2
  simp only
  by_cases hba : b ≤ a
  · rw [if_pos hba]
    obtain ⟨c, rfl⟩ := Nat.exists_eq_add_of_le hba
    simp only [Nat.add_sub_cancel_left]
    by_cases hc : d * 2 ^ c ≤ n
    · rw [if_pos hc]
      left
      refine ⟨c, rfl, hc, ?_⟩
      calc n < 2 ^ (b + c + 1) := ha2
        _ = 2 ^ b * 2 ^ (c + 1) := by rw [Nat.add_assoc, pow_add]
        _ ≤ d * 2 ^ (c + 1) := Nat.mul_le_mul_right _ hb1
    · rw [if_neg hc]
      have hlt : n < d * 2 ^ c := by omega
      cases c with
      | zero =>
        right
        refine ⟨0, by simp, ?_, by simpa using hlt⟩
        rw [Nat.add_zero] at ha1
        rw [pow_succ] at hb2
        simp only [Nat.zero_add, pow_one]
        omega
      | succ c' =>
        left
        refine ⟨c', by push_cast; ring, ?_, hlt⟩
        have h1 : d * 2 ^ c' < 2 ^ (b + 1) * 2 ^ c' :=
          Nat.mul_lt_mul_of_pos_right hb2 (by positivity)
        have h2 : 2 ^ (b + 1) * 2 ^ c' = 2 ^ (b + (c' + 1)) := by
          rw [← pow_add]; congr 1; omega
        omega
  · rw [if_neg hba]
    obtain ⟨c, hc⟩ : ∃ c, b = a + (c + 1) := ⟨b - a - 1, by omega⟩
    subst hc
    have hsub : a + (c + 1) - a = c + 1 := by omega
    simp only [hsub]
    right
    by_cases hcnd : d ≤ n * 2 ^ (c + 1)
    · rw [if_pos hcnd]
      refine ⟨c, rfl, hcnd, ?_⟩
      have h1 : n * 2 ^ c < 2 ^ (a + 1) * 2 ^ c :=
        Nat.mul_lt_mul_of_pos_right ha2 (by positivity)
      have h2 : 2 ^ (a + 1) * 2 ^ c = 2 ^ (a + (c + 1)) := by
        rw [← pow_add]; congr 1; omega
      omega
    · rw [if_neg hcnd]
      refine ⟨c + 1, by push_cast; ring, ?_, by omega⟩
      have h1 : 2 ^ a * 2 ^ (c + 1 + 1) ≤ n * 2 ^ (c + 1 + 1) :=
        Nat.mul_le_mul_right _ ha1
      have h2 : 2 ^ a * 2 ^ (c + 1 + 1) = 2 ^ (a + (c + 1) + 1) := by
        rw [← pow_add]; congr 1
      omega

theorem ratio_exponent_bounds (n d : Nat) (hn : 1 ≤ n) (hd : 1 ≤ d) :
    (2 : ℚ) ^ ratio_exponent n d ≤ (n : ℚ) / d ∧
      (n : ℚ) / d < (2 : ℚ) ^ (ratio_exponent n d + 1) := by
  have hdq : (0 : ℚ) < (d : ℚ) := by exact_mod_cast hd
  rcases ratio_exponent_spec n d hn hd with ⟨c, hk, h1, h2⟩ | ⟨c, hk, h1, h2⟩
  · rw [hk]
    have h1q : (d : ℚ) * 2 ^ c ≤ n := by exact_mod_cast h1
    have h2q : (n : ℚ) < d * 2 ^ (c + 1) := by exact_mod_cast h2
    constructor
    · rw [zpow_natCast, le_div_iff₀ hdq]
      linarith
    · rw [show ((c : Int) + 1) = ((c + 1 : Nat) : Int) by push_cast; ring, zpow_natCast,
        div_lt_iff₀ hdq]
      linarith
  · rw [hk]
    have h1q : (d : ℚ) ≤ n * 2 ^ (c + 1) := by exact_mod_cast h1
    have h2q : (n : ℚ) * 2 ^ c < d := by exact_mod_cast h2
    have hp1 : (0 : ℚ) < 2 ^ (c + 1) := by positivity
    have hp : (0 : ℚ) < 2 ^ c := by positivity
    constructor
    · rw [zpow_neg, zpow_natCast, le_div_iff₀ hdq, inv_mul_le_iff₀ hp1]
      linarith
    · rw [show (-((c + 1 : Nat) : Int) + 1) = -((c : Nat) : Int) by push_cast; ring, zpow_neg,
        zpow_natCast, div_lt_iff₀ hdq, ← div_eq_inv_mul, lt_div_iff₀ hp]
      linarith

/-- The mantissa that `round_ratio` computes for the exponent `e` is within one
half of `n / d / 2 ^ e`. -/
theorem round_mantissa_spec (n d : Nat) (e : Int) (hd : 1 ≤ d) :
    |(n : ℚ) / d - ((if 0 ≤ e then round_half_even n (d * 2 ^ e.toNat)
        else round_half_even (n * 2 ^ (-e).toNat) d : Nat) : ℚ) * (2 : ℚ) ^ e| ≤
      (2 : ℚ) ^ e / 2 := by
  have hdq : (0 : ℚ) < (d : ℚ) := by exact_mod_cast hd
  have hx : (n : ℚ) / d * d = n := div_mul_cancel₀ _ (ne_of_gt hdq)
  generalize (n : ℚ) / d = x at hx
  by_cases he : 0 ≤ e
  · rw [if_pos he]
    obtain ⟨t, rfl⟩ := Int.eq_ofNat_of_zero_le he
    simp only [Int.toNat_ofNat, zpow_natCast]
    obtain ⟨h1, h2⟩ := round_half_even_spec n (d * 2 ^ t) (by positivity)
    generalize round_half_even n (d * 2 ^ t) = m at h1 h2
    have h1q : 2 * ((m : ℚ) * (d * 2 ^ t)) ≤ 2 * n + d * 2 ^ t := by exact_mod_cast h1
    have h2q : 2 * (n : ℚ) ≤ 2 * ((m : ℚ) * (d * 2 ^ t)) + d * 2 ^ t := by exact_mod_cast h2
    rw [abs_le]
    constructor
    · apply le_of_mul_le_mul_right _ hdq
      have : (x - m * 2 ^ t) * d = n - m * (d * 2 ^ t) := by rw [sub_mul, hx]; ring
      rw [this]
      linarith
    · apply le_of_mul_le_mul_right _ hdq
      have : (x - m * 2 ^ t) * d = n - m * (d * 2 ^ t) := by rw [sub_mul, hx]; ring
      rw [this]
      linarith
  · rw [if_neg he]
    obtain ⟨t, ht⟩ := Int.eq_ofNat_of_zero_le (show 0 ≤ -e by omega)
    have het : e = -(t : Int) := by omega
    subst het
    simp only [neg_neg, Int.toNat_ofNat, zpow_neg, zpow_natCast]
    obtain ⟨h1, h2⟩ := round_half_even_spec (n * 2 ^ t) d hd
    generalize round_half_even (n * 2 ^ t) d = m at h1 h2
    have h1q : 2 * ((m : ℚ) * d) ≤ 2 * (n * 2 ^ t) + d := by exact_mod_cast h1
    have h2q : 2 * ((n : ℚ) * 2 ^ t) ≤ 2 * ((m : ℚ) * d) + d := by exact_mod_cast h2
    have hp : (0 : ℚ) < 2 ^ t := by positivity
    have hpd : (0 : ℚ) < d * 2 ^ t := by positivity
    rw [abs_le]
    constructor
    · apply le_of_mul_le_mul_right _ hpd
      have e0 : (m : ℚ) * (2 ^ t)⁻¹ * (d * 2 ^ t) = m * d := by
        first
          | (field_simp; done)
          | (field_simp; ring)
      have e1 : (x - m * (2 ^ t)⁻¹) * (d * 2 ^ t) = n * 2 ^ t - m * d := by
        rw [sub_mul, ← mul_assoc x, hx, e0]
      have e2 : -((2 ^ t : ℚ)⁻¹ / 2) * (d * 2 ^ t) = -(d / 2) := by
        first
          | (field_simp; done)
          | (field_simp; ring)
      rw [e1, e2]
      linarith
    · apply le_of_mul_le_mul_right _ hpd
      have e0 : (m : ℚ) * (2 ^ t)⁻¹ * (d * 2 ^ t) = m * d := by
        first
          | (field_simp; done)
          | (field_simp; ring)
      have e1 : (x - m * (2 ^ t)⁻¹) * (d * 2 ^ t) = n * 2 ^ t - m * d := by
        rw [sub_mul, ← mul_assoc x, hx, e0]
      have e2 : ((2 ^ t : ℚ)⁻¹ / 2) * (d * 2 ^ t) = d / 2 := by
        first
          | (field_simp; done)
          | (field_simp; ring)
      rw [e1, e2]
      linarith

/-- The exponent and the mantissa from which `round_ratio` builds its result. -/
theorem round_ratio_parts (neg : Bool) (n d : Nat) (hn : 1 ≤ n) (hd : 1 ≤ d) :
    ∃ (e : Int) (m : Nat),
      round_ratio neg n d =
        (if 971 < (if m = 2 ^ 53 then e + 1 else e) then double.inf neg
          else double.finite neg (if m = 2 ^ 53 then 2 ^ 52 else m)
            (if m = 2 ^ 53 then e + 1 else e)) ∧
      -1074 ≤ e ∧ |(n : ℚ) / d - (m : ℚ) * (2 : ℚ) ^ e| ≤ (2 : ℚ) ^ e / 2 ∧ m ≤ 2 ^ 53 ∧
      (e = -1074 ∨ (2 ^ 52 ≤ m ∧ (2 : ℚ) ^ (e + 52) ≤ (n : ℚ) / d)) := by
  obtain ⟨hk1, hk2⟩ := ratio_exponent_bounds n d hn hd
  have hn0 : n ≠ 0 := by omega
  refine ⟨max (ratio_exponent n d - 52) (-1074),
    (if 0 ≤ max (ratio_exponent n d - 52) (-1074) then
      round_half_even n (d * 2 ^ (max (ratio_exponent n d - 52) (-1074)).toNat)
    else round_half_even (n * 2 ^ (-(max (ratio_exponent n d - 52) (-1074))).toNat) d),
    ?_, le_max_right _ _, round_mantissa_spec n d _ hd, ?_, ?_⟩
  · unfold round_ratio
    rw [if_neg hn0]
  · have hM := round_mantissa_spec n d (max (ratio_exponent n d - 52) (-1074)) hd
    have hek : ratio_exponent n d - 52 ≤ max (ratio_exponent n d - 52) (-1074) := le_max_left _ _
    generalize max (ratio_exponent n d - 52) (-1074) = e at hM hek
    generalize (if 0 ≤ e then round_half_even n (d * 2 ^ e.toNat)
      else round_half_even (n * 2 ^ (-e).toNat) d) = m at hM
    have hP : (0 : ℚ) < (2 : ℚ) ^ e := by positivity
    have hup : (n : ℚ) / d < (2 : ℚ) ^ e * 2 ^ (53 : Nat) := by
      have h1 : (2 : ℚ) ^ (ratio_exponent n d + 1) ≤ (2 : ℚ) ^ (e + 53) :=
        zpow_le_zpow_right₀ (by norm_num) (by omega)
      have h2 : (2 : ℚ) ^ (e + 53) = (2 : ℚ) ^ e * 2 ^ (53 : Nat) := by
        rw [zpow_add₀ (by norm_num)]; norm_cast
      linarith
    rw [abs_le] at hM
    have hlt : (m : ℚ) * (2 : ℚ) ^ e < ((2 : ℚ) ^ (53 : Nat) + 1) * (2 : ℚ) ^ e := by
      nlinarith [hM.1, hM.2]
    have hm : (m : ℚ) < (2 : ℚ) ^ (53 : Nat) + 1 := lt_of_mul_lt_mul_right hlt (le_of_lt hP)
    have : m < 2 ^ 53 + 1 := by exact_mod_cast hm
    omega
  · have hM := round_mantissa_spec n d (max (ratio_exponent n d - 52) (-1074)) hd
    rcases max_choice (ratio_exponent n d - 52) (-1074) with hmax | hmax
    · right
      have hk : ratio_exponent n d = max (ratio_exponent n d - 52) (-1074) + 52 := by omega
      generalize max (ratio_exponent n d - 52) (-1074) = e at hM hk
      generalize (if 0 ≤ e then round_half_even n (d * 2 ^ e.toNat)
        else round_half_even (n * 2 ^ (-e).toNat) d) = m at hM
      rw [hk] at hk1
      refine ⟨?_, hk1⟩
      have hP : (0 : ℚ) < (2 : ℚ) ^ e := by positivity
      have h2 : (2 : ℚ) ^ (e + 52) = (2 : ℚ) ^ e * 2 ^ (52 : Nat) := by
        rw [zpow_add₀ (by norm_num)]; norm_cast
      rw [h2] at hk1
      rw [abs_le] at hM
      have hlt : ((2 : ℚ) ^ (52 : Nat) - 1) * (2 : ℚ) ^ e < (m : ℚ) * (2 : ℚ) ^ e := by
        nlinarith [hM.1, hM.2]
      have hm : (2 : ℚ) ^ (52 : Nat) - 1 < (m : ℚ) := lt_of_mul_lt_mul_right hlt (le_of_lt hP)
      have hm' : (2 : ℚ) ^ (52 : Nat) < (m : ℚ) + 1 := by linarith
      have : 2 ^ 52 < m + 1 := by exact_mod_cast hm'
      omega
    · left
      exact hmax

/-- The result of `round_ratio` on a positive fraction is a `double` in its
normal form that is within half a unit of its last place of the fraction, or an
infinity when the fraction is at least `2 ^ 1024 - 2 ^ 970`, the first number
that does not round to a finite `double`. -/
theorem round_ratio_nearest (neg : Bool) (n d : Nat) (hn : 1 ≤ n) (hd : 1 ≤ d) :
    (∀ s m e, round_ratio neg n d = .finite s m e →
      s = neg ∧ m < 2 ^ 53 ∧ -1074 ≤ e ∧ e ≤ 971 ∧ (2 ^ 52 ≤ m ∨ e = -1074) ∧
      |(n : ℚ) / d - (m : ℚ) * (2 : ℚ) ^ e| ≤ (2 : ℚ) ^ e / 2) ∧
    (∀ s, round_ratio neg n d = .inf s →
      s = neg ∧ (2 : ℚ) ^ (1024 : Int) - (2 : ℚ) ^ (970 : Int) ≤ (n : ℚ) / d) ∧
    round_ratio neg n d ≠ .nan := by
  obtain ⟨e, m, hrr, he, herr, hm, hnorm⟩ := round_ratio_parts neg n d hn hd
  rw [hrr]
  have hP : (0 : ℚ) < (2 : ℚ) ^ e := by positivity
  by_cases h53 : m = 2 ^ 53
  · simp only [h53, if_true]
    have herr' : |(n : ℚ) / d - (2 : ℚ) ^ (53 : Nat) * (2 : ℚ) ^ e| ≤ (2 : ℚ) ^ e / 2 := by
      have := herr
      rw [h53] at this
      exact_mod_cast this
    have he1 : (2 : ℚ) ^ (e + 1) = (2 : ℚ) ^ e * 2 := by
      rw [zpow_add₀ (by norm_num)]; norm_num
    by_cases hinf : 971 < e + 1
    · simp only [hinf, if_true]
      refine ⟨fun s m' e' h => absurd h (by simp), ?_, by simp⟩
      intro s hs
      refine ⟨by simpa using hs.symm, ?_⟩
      have h971 : (2 : ℚ) ^ (971 : Int) ≤ (2 : ℚ) ^ e :=
        zpow_le_zpow_right₀ (by norm_num) (by omega)
      have a1 : (2 : ℚ) ^ (1024 : Int) = (2 : ℚ) ^ (53 : Nat) * (2 : ℚ) ^ (971 : Int) := by
        rw [← zpow_natCast, ← zpow_add₀ (by norm_num)]
        congr 1
      have a2 : (2 : ℚ) ^ (971 : Int) = (2 : ℚ) ^ (970 : Int) * 2 := by
        rw [← zpow_add_one₀ (by norm_num)]
        congr 1
      rw [abs_le] at herr'
      generalize (2 : ℚ) ^ (1024 : Int) = T at a1 ⊢
      generalize (2 : ℚ) ^ (970 : Int) = U at a2 ⊢
      generalize (2 : ℚ) ^ (971 : Int) = A at a1 a2 h971
      generalize (2 : ℚ) ^ e = P at herr' h971 hP
      have hpos : (0 : ℚ) ≤ (2 : ℚ) ^ (53 : Nat) - 1 / 2 := by norm_num
      have hmul := mul_le_mul_of_nonneg_left h971 hpos
      nlinarith [herr'.1, hmul]
    · simp only [hinf, if_false]
      refine ⟨?_, fun s h => absurd h (by simp), by simp⟩
      intro s m' e' h
      simp only [double.finite.injEq] at h
      obtain ⟨hs, hm', he'⟩ := h
      subst hs; subst hm'; subst he'
      refine ⟨rfl, by norm_num, by omega, by omega, Or.inl (le_refl _), ?_⟩
      rw [he1]
      rw [abs_le] at herr ⊢
      rw [h53] at herr
      push_cast at herr ⊢
      constructor <;> nlinarith [herr.1, herr.2]
  · simp only [h53, if_false]
    by_cases hinf : 971 < e
    · simp only [hinf, if_true]
      refine ⟨fun s m' e' h => absurd h (by simp), ?_, by simp⟩
      intro s hs
      refine ⟨by simpa using hs.symm, ?_⟩
      rcases hnorm with h | ⟨_, hlow⟩
      · omega
      · have h1024 : (2 : ℚ) ^ (1024 : Int) ≤ (2 : ℚ) ^ (e + 52) :=
          zpow_le_zpow_right₀ (by norm_num) (by omega)
        have hU : (0 : ℚ) ≤ (2 : ℚ) ^ (970 : Int) := le_of_lt (zpow_pos (by norm_num) _)
        generalize (2 : ℚ) ^ (1024 : Int) = T at h1024 ⊢
        generalize (2 : ℚ) ^ (970 : Int) = U at hU ⊢
        linarith
    · simp only [hinf, if_false]
      refine ⟨?_, fun s h => absurd h (by simp), by simp⟩
      intro s m' e' h
      simp only [double.finite.injEq] at h
      obtain ⟨hs, hm', he'⟩ := h
      subst hs; subst hm'; subst he'
      refine ⟨rfl, by omega, he, by omega, ?_, herr⟩
      rcases hnorm with h | ⟨h, _⟩
      · exact Or.inr h
      · exact Or.inl h

/-- The rounding of a positive number: see `round_ratio_nearest`. -/
theorem round_double_nearest (neg : Bool) (q : ℚ) (hq : 0 < q) :
    (∀ s m e, round_double neg q = .finite s m e →
      s = neg ∧ m < 2 ^ 53 ∧ -1074 ≤ e ∧ e ≤ 971 ∧ (2 ^ 52 ≤ m ∨ e = -1074) ∧
      |q - (m : ℚ) * (2 : ℚ) ^ e| ≤ (2 : ℚ) ^ e / 2) ∧
    (∀ s, round_double neg q = .inf s →
      s = neg ∧ (2 : ℚ) ^ (1024 : Int) - (2 : ℚ) ^ (970 : Int) ≤ q) ∧
    round_double neg q ≠ .nan := by
  have hnum : 0 < q.num := Rat.num_pos.2 hq
  have hn : 1 ≤ q.num.natAbs := by omega
  have hd : 1 ≤ q.den := q.den_pos
  have hq' : ((q.num.natAbs : Nat) : ℚ) / (q.den : ℚ) = q := by
    have h1 : ((q.num.natAbs : Nat) : ℚ) = ((q.num : Int) : ℚ) := by
      rw [← Int.cast_natCast, Int.natAbs_of_nonneg (le_of_lt hnum)]
    rw [h1]
    exact Rat.num_div_den q
  have := round_ratio_nearest neg q.num.natAbs q.den hn hd
  rw [hq'] at this
  exact this

/-- The `double` that digits denote is, when the decimal number is positive, a
`double` in normal form within half a unit of its last place of that number, or
an infinity when the number is at least `2 ^ 1024 - 2 ^ 970`. -/
theorem double_of_decimal_nearest (neg : Bool) (ip fp : List Nat)
    (hq : 0 < (decimal_value ip : ℚ) + (decimal_value fp : ℚ) / 10 ^ fp.length) :
    (∀ s m e, double_of_decimal neg ip fp = .finite s m e →
      s = neg ∧ m < 2 ^ 53 ∧ -1074 ≤ e ∧ e ≤ 971 ∧ (2 ^ 52 ≤ m ∨ e = -1074) ∧
      |((decimal_value ip : ℚ) + (decimal_value fp : ℚ) / 10 ^ fp.length) -
        (m : ℚ) * (2 : ℚ) ^ e| ≤ (2 : ℚ) ^ e / 2) ∧
    (∀ s, double_of_decimal neg ip fp = .inf s →
      s = neg ∧ (2 : ℚ) ^ (1024 : Int) - (2 : ℚ) ^ (970 : Int) ≤
        (decimal_value ip : ℚ) + (decimal_value fp : ℚ) / 10 ^ fp.length) ∧
    double_of_decimal neg ip fp ≠ .nan := by
  have hne : (ip.isEmpty && fp.isEmpty) = false := by
    cases h : (ip.isEmpty && fp.isEmpty) with
    | false => rfl
    | true =>
      simp only [Bool.and_eq_true, List.isEmpty_iff] at h
      rw [h.1, h.2] at hq
      simp [decimal_value] at hq
  unfold double_of_decimal
  rw [hne]
  simp only [Bool.false_eq_true, if_false]
  exact round_double_nearest neg _ hq

/-- Values of `atof`: `0.1` and `2.5`, a tie that goes to the even mantissa, the
two zeros, the result +0.0 when there is no digit, and an infinity for a number
of 401 digits. -/
theorem atof_values :
    atof (bytes "0.1") = .finite false 7205759403792794 (-56) ∧
    atof (bytes "2.5") = .finite false 5629499534213120 (-51) ∧
    atof (bytes "9007199254740993") = .finite false 4503599627370496 1 ∧
    atof (bytes "0") = .finite false 0 (-1074) ∧
    atof (bytes "-0") = .finite true 0 (-1074) ∧
    atof (bytes "-") = .finite false 0 (-1074) ∧
    atof (49 :: List.replicate 400 48) = .inf false := by
  set_option maxRecDepth 100000 in
  set_option exponentiation.threshold 2000 in
  decide

/-! ## The claims -/

/-- C1 fails, as stated, on an integer field whose value does not fit `int` and
on a float field whose value is not a `double`: the field `"2147483648"` is
accepted by `csvp_check_integer` and denotes 2147483648, and `csvp_next_record`
leaves -2147483648 in the entry; the field `"0.1"` is accepted by
`csvp_check_float` and denotes 1/10, and `csvp_next_record` leaves the `double`
7205759403792794 · 2^-56 in the entry, which is not 1/10. -/
theorem csvp_next_record_inexact_value :
    (csvp_check_integer (bytes "2147483648") 10 = true ∧
      int_denoted (bytes "2147483648") = 2147483648 ∧
      csvp_next_record (bytes "2147483648") { size := 1, entries := [.v_int 0] } =
        some ([], { size := 1, entries := [.v_int (-2147483648)] }, 10)) ∧
    (csvp_check_float (bytes "0.1") 3 = true ∧
      float_denoted (bytes "0.1") = 1 / 10 ∧
      csvp_next_record (bytes "0.1") { size := 1, entries := [.v_float 0] } =
        some ([], { size := 1,
                    entries := [.v_float (.finite false 7205759403792794 (-56))] }, 3) ∧
      double.value (.finite false 7205759403792794 (-56)) ≠ some (1 / 10)) := by
  refine ⟨by decide, by decide, ?_, by decide, ?_⟩
  · simp [float_denoted, bytes, is_space, is_digit, fraction_digits, decimal_value,
      List.dropWhile, List.takeWhile]
  · simp only [double.value, Bool.false_eq_true, if_false, ne_eq, Option.some.injEq]
    norm_num

/-- C1 (amended): for every valid record and every line shorter than 1024 bytes
made of as many comma-separated fields as the record has entries, each field not
empty after its leading spaces and accepted by the classifier of its entry's
type, and each integer field denoting a value that fits `int`,
`csvp_next_record` returns the length of the line and leaves every entry `k`
holding the value of field `k`: the integer its `-` and digits denote, the
`double` nearest to the decimal fraction its text denotes (ties to the even
mantissa, an infinity when the fraction is too large, +0.0 when the field has no
digit), or for a string the bytes of the field from its first non-space byte up
to the delimiter.  Size and type tags are unchanged. -/
theorem csvp_next_record_decodes (fields : List (List Nat)) (record : csvp_record_t)
    (rest : List Nat) (hok : csvp_record_ok record)
    (hfields : List.Forall₂ field_accepted fields record.entries)
    (hlen : (csv_line fields).length < RECORD_BUFSIZE)
    (hrest : rest = [] ∨ rest.head? = some 10) :
    ∃ fd' r, csvp_next_record (csv_line fields ++ rest) record =
        some (fd', r, ((csv_line fields).length : Int)) ∧
      r.size = record.size ∧
      r.entries.map csvp_entry_t.type = record.entries.map csvp_entry_t.type ∧
      List.Forall₂ entry_holds fields r.entries :=
  csvp_next_record_fields fields record rest hok hfields hlen hrest

/-- C1 (amended), at the line `"1,2.5,hello"` and the format
`[Integer, Float, String]`: the entries become 1, the `double` 2.5 (which is
5629499534213120 · 2^-51) and `"hello"`, and the call returns 11. -/
theorem csvp_next_record_decodes_witness :
    (csvp_record_ok sample_record ∧
      List.Forall₂ field_accepted [bytes "1", bytes "2.5", bytes "hello"] sample_record.entries) ∧
    (∃ fd' r, csvp_next_record (csv_line [bytes "1", bytes "2.5", bytes "hello"] ++ [])
          sample_record =
        some (fd', r, ((csv_line [bytes "1", bytes "2.5", bytes "hello"]).length : Int)) ∧
      r.size = sample_record.size ∧
      r.entries.map csvp_entry_t.type = sample_record.entries.map csvp_entry_t.type ∧
      List.Forall₂ entry_holds [bytes "1", bytes "2.5", bytes "hello"] r.entries) ∧
    csvp_next_record (bytes "1,2.5,hello") sample_record =
      some ([], { size := 3, entries := [.v_int 1,
        .v_float (.finite false 5629499534213120 (-51)),
        .v_string { data := bytes "hello" ++ [0], size := 0, capacity := 8 }] }, 11) ∧
    int_denoted (bytes "1") = 1 ∧ float_denoted (bytes "2.5") = mkRat 5 2 ∧
    double.value (.finite false 5629499534213120 (-51)) = some (mkRat 5 2) :=
  have hacc : List.Forall₂ field_accepted [bytes "1", bytes "2.5", bytes "hello"]
      sample_record.entries :=
    List.Forall₂.cons ⟨by decide, by decide, by decide, by decide, by decide⟩
      (List.Forall₂.cons ⟨by decide, by decide, by decide⟩
        (List.Forall₂.cons ⟨by decide, by decide, trivial⟩ List.Forall₂.nil))
  ⟨⟨by decide, hacc⟩,
    csvp_next_record_decodes [bytes "1", bytes "2.5", bytes "hello"] sample_record []
      (by decide) hacc (by decide) (Or.inl rfl),
    by decide, by decide, by
      rw [Rat.mkRat_eq_div]
      simp [float_denoted, bytes, is_space, is_digit, fraction_digits, decimal_value,
        List.dropWhile, List.takeWhile]
      norm_num, by
      rw [Rat.mkRat_eq_div]
      simp only [double.value, Bool.false_eq_true, if_false, Option.some.injEq]
      norm_num⟩

/-- C2 fails, as stated, on a line that the line buffer does not hold whole: with
`b = "x"` and `R` made of 1020 bytes `a` followed by `",5"`, the integer
classifier rejects `b`, decoding the line `b,R` into a record of one integer
entry that holds 0 stops after the first 1023 bytes and leaves 0 in the entry
(the byte `5` stays in the stream), and decoding `R` alone leaves 5. -/
theorem csvp_next_record_resync_long_line :
    csvp_check_integer (bytes "x") 1 = false ∧
    csvp_next_record (bytes "x" ++ 44 :: (List.replicate 1020 97 ++ bytes ",5"))
        { size := 1, entries := [.v_int 0] } =
      some (bytes "5", { size := 1, entries := [.v_int 0] }, 1023) ∧
    csvp_next_record (List.replicate 1020 97 ++ bytes ",5")
        { size := 1, entries := [.v_int 0] } =
      some ([], { size := 1, entries := [.v_int 5] }, 1022) := by
  set_option maxRecDepth 100000 in decide

/-- C2 (amended): resynchronisation restarts at field 0 on the rest of the same
line, when the line fits the line buffer.  The record is valid and its first entry is an integer (resp. float) entry; the field
`b` holds no comma (nor NUL or newline) and is rejected by the integer (resp.
float) classifier; the line `b,R` is one the line buffer holds whole (fewer than
1024 bytes, `R` running up to the end of the line).  Then decoding the stream
`b,R` and decoding the stream `R` into the same starting record both return and
leave the same record `r`; `r` is also what the decode loop leaves when it is run
on the line buffer holding `b,R` and when it is run on the line buffer holding
the rest `R` of the line. -/
theorem csvp_next_record_resync (b R : List Nat) (record : csvp_record_t)
    (hok : csvp_record_ok record)
    (hb : ∀ c ∈ b, c ≠ 44 ∧ c ≠ 0 ∧ c ≠ 10)
    (hrej : (∃ n, record.entries.head? = some (.v_int n) ∧
              csvp_check_integer b b.length = false) ∨
            (∃ q, record.entries.head? = some (.v_float q) ∧
              csvp_check_float b b.length = false))
    (hfit : (b ++ 44 :: first_line R).length < RECORD_BUFSIZE) :
    ∃ r, (∃ fd₁ n₁, csvp_next_record (b ++ 44 :: R) record = some (fd₁, r, n₁)) ∧
      (∃ fd₂ n₂, csvp_next_record R record = some (fd₂, r, n₂)) ∧
      csvp_next_record_loop (b ++ 44 :: first_line R) (b ++ 44 :: first_line R).length
        RECORD_BUFSIZE 0 0 record = some r ∧
      csvp_next_record_loop (first_line R) (first_line R).length RECORD_BUFSIZE 0 0 record =
        some r := by
  have hfl := first_line_append_comma b R hb
  obtain ⟨fd₁, r₁, h1, hd1⟩ := csvp_next_record_eq_decode_line (b ++ 44 :: R) record hok
    (by rw [hfl]; exact hfit)
  obtain ⟨fd₂, r₂, h2, hd2⟩ := csvp_next_record_eq_decode_line R record hok
    (by simp only [List.length_append, List.length_cons] at hfit; omega)
  obtain ⟨r, hr1, hr2⟩ := csvp_decode_line_resync b (first_line R) record hok hb hfit hrej
  rw [hfl, hr1] at hd1
  rw [hr2] at hd2
  rw [← Option.some.inj hd1] at h1
  rw [← Option.some.inj hd2] at h2
  exact ⟨r, ⟨_, _, h1⟩, ⟨_, _, h2⟩, hr1, hr2⟩

/-- C2 (amended), at the line `"x,2.5,hello"` and the format `[Integer, Float, String]`:
the record ends as it does after decoding `"2.5,hello"`. -/
theorem csvp_next_record_resync_witness :
    csvp_check_integer (bytes "x") 1 = false ∧
    ∃ r, (∃ fd₁ n₁, csvp_next_record (bytes "x" ++ 44 :: bytes "2.5,hello") sample_record =
          some (fd₁, r, n₁)) ∧
      (∃ fd₂ n₂, csvp_next_record (bytes "2.5,hello") sample_record = some (fd₂, r, n₂)) ∧
      csvp_next_record_loop (bytes "x" ++ 44 :: first_line (bytes "2.5,hello"))
        (bytes "x" ++ 44 :: first_line (bytes "2.5,hello")).length
        RECORD_BUFSIZE 0 0 sample_record = some r ∧
      csvp_next_record_loop (first_line (bytes "2.5,hello"))
        (first_line (bytes "2.5,hello")).length RECORD_BUFSIZE 0 0 sample_record = some r :=
  ⟨by decide,
    csvp_next_record_resync (bytes "x") (bytes "2.5,hello") sample_record (by decide) (by decide)
      (Or.inl ⟨0, rfl, by decide⟩) (by decide)⟩

/-- C3: `csvp_next_record` changes nothing in a (valid) record except the values
of the entries it assigns.  For every stream, whose first line has `m` fields
(`m` is its number of commas plus one), the call returns, the size of the record
and the number of its entries are unchanged, every entry keeps its type tag, and
every entry at an index `k >= m` is exactly what it was before the call. -/
theorem csvp_next_record_frame (fd : List Nat) (record : csvp_record_t)
    (hok : csvp_record_ok record) :
    ∃ fd' r n, csvp_next_record fd record = some (fd', r, n) ∧
      r.size = record.size ∧ r.entries.length = record.entries.length ∧
      r.entries.map csvp_entry_t.type = record.entries.map csvp_entry_t.type ∧
      ∀ k, (first_line fd).count 44 + 1 ≤ k → r.entries[k]? = record.entries[k]? := by
  obtain ⟨r, h, _, hrok, hsz, hty, hfr⟩ := csvp_next_record_spec fd record hok
  refine ⟨_, r, _, h, hsz, ?_, hty, fun k hk => hfr k (by omega)⟩
  have := congrArg List.length hty
  simpa using this

/-- C3, at the line `"1,2"` (two fields) and a record of three entries: the third
entry is left as it was. -/
theorem csvp_next_record_frame_witness :
    csvp_record_ok sample_record ∧
    ∃ fd' r n, csvp_next_record (bytes "1,2") sample_record = some (fd', r, n) ∧
      r.size = sample_record.size ∧ r.entries.length = sample_record.entries.length ∧
      r.entries.map csvp_entry_t.type = sample_record.entries.map csvp_entry_t.type ∧
      ∀ k, (first_line (bytes "1,2")).count 44 + 1 ≤ k →
        r.entries[k]? = sample_record.entries[k]? :=
  ⟨by decide, csvp_next_record_frame (bytes "1,2") sample_record (by decide)⟩

/-- C4, as stated, fails on a line that does not fit the line buffer: on the
stream made of a line of 1024 bytes `a`, its newline and the byte `b`, one call
takes only the first 1023 bytes of the line and returns 1023; the last `a` and
the newline are still in the stream. -/
theorem csvp_next_record_long_line :
    first_line (List.replicate 1024 97 ++ [10, 98]) = List.replicate 1024 97 ∧
    csvp_next_record (List.replicate 1024 97 ++ [10, 98]) { size := 1, entries := [.v_int 0] } =
      some ([97, 10, 98], { size := 1, entries := [.v_int 0] }, 1023) := by
  set_option maxRecDepth 100000 in decide

/-- C4 (amended): for every stream and every valid record, one call of
`csvp_next_record` returns; when the first line (the bytes before the first
newline or NUL, or up to the end of the stream) has fewer than 1023 bytes it
consumes the line and its terminator and returns the length of the line;
otherwise it consumes exactly the first 1023 bytes and returns 1023.  The
record's format and the fields that matched play no part. -/
theorem csvp_next_record_consumes (fd : List Nat) (record : csvp_record_t)
    (hok : csvp_record_ok record) :
    ∃ r, csvp_next_record fd record =
      some (fd.drop (if (first_line fd).length < 1023 then (first_line fd).length + 1 else 1023),
        r, ((min (first_line fd).length 1023 : Nat) : Int)) := by
  obtain ⟨r, h, _⟩ := csvp_next_record_spec fd record hok
  exact ⟨r, h⟩

/-- C4 (amended), at the stream `"1,2.5,hello\nabc"`. -/
theorem csvp_next_record_consumes_witness :
    csvp_record_ok sample_record ∧
    ∃ r, csvp_next_record (bytes "1,2.5,hello\nabc") sample_record =
      some ((bytes "1,2.5,hello\nabc").drop
          (if (first_line (bytes "1,2.5,hello\nabc")).length < 1023
            then (first_line (bytes "1,2.5,hello\nabc")).length + 1 else 1023),
        r, ((min (first_line (bytes "1,2.5,hello\nabc")).length 1023 : Nat) : Int)) :=
  ⟨by decide, csvp_next_record_consumes (bytes "1,2.5,hello\nabc") sample_record (by decide)⟩

/-- C5: the header says `csvp_next_record` returns 0 on success; on the stream
`"1,2.5,hello\n"`, decoded in full into an `[Integer, Float, String]` record, the
code returns 11, the length of the line. -/
theorem csvp_next_record_returns_length :
    csvp_next_record (bytes "1,2.5,hello\n") sample_record =
      some ([], { size := 3, entries := [.v_int 1,
          .v_float (.finite false 5629499534213120 (-51)),
          .v_string { data := bytes "hello" ++ [0], size := 0, capacity := 8 }] }, 11) := by
  decide


/-- C6 fails, as stated, on tokens that only spaces separate: the descriptor
`"integer float"` has the two tokens `integer` and `float`, and
`csvp_create_format` returns a record of one entry. -/
theorem csvp_create_format_space_separated :
    csvp_create_format (bytes "integer float") =
      some (some { size := 1, entries := [.v_int 0] }) := by
  decide

/-- C6 (amended): a descriptor is given as leading separators `lead` and at most
100 tokens, each followed by its separator; a token is a non-empty run of bytes
other than `,` and space (and NUL), a separator a run of `,` and spaces, and
every separator between two tokens holds at least one comma.  Then
`csvp_create_format` returns a record with as many entries as there are
tokens. -/
theorem csvp_create_format_size (lead : List Nat) (ps : List (List Nat × List Nat))
    (hlead : ∀ c ∈ lead, c = 44 ∨ c = 32)
    (hps : ∀ p ∈ ps, p.1 ≠ [] ∧ (∀ c ∈ p.1, c ≠ 44 ∧ c ≠ 32 ∧ c ≠ 0) ∧
      ∀ c ∈ p.2, c = 44 ∨ c = 32)
    (hsep : ∀ p ∈ ps.dropLast, 44 ∈ p.2)
    (hmax : ps.length ≤ MAX_ENTRIES) (hne : ps ≠ []) :
    ∃ r, csvp_create_format (lead ++ join_tokens ps) = some (some r) ∧
      r.size = ps.length ∧ r.entries.length = ps.length := by
  have hloop := csvp_create_format_loop_tokens ps lead []
    ((lead ++ join_tokens ps).length + 1) hlead hps hsep (by simpa using hmax) (by omega)
  have hlen : ¬ ([] ++ ps.map (fun p : List Nat × List Nat => token_type p.1)).length ≤ 0 := by
    cases ps with
    | nil => exact absurd rfl hne
    | cons p ps => simp
  rw [csvp_create_format_of_loop _ _ hloop, if_neg hlen]
  exact ⟨_, rfl, by simp, by simp⟩

/-- C6 (amended), at the descriptor `" integer, float ,string"`: three tokens,
three entries. -/
theorem csvp_create_format_size_witness :
    bytes " " ++ join_tokens [(bytes "integer", bytes ", "), (bytes "float", bytes " ,"),
      (bytes "string", [])] = bytes " integer, float ,string" ∧
    ∃ r, csvp_create_format (bytes " " ++ join_tokens [(bytes "integer", bytes ", "),
        (bytes "float", bytes " ,"), (bytes "string", [])]) = some (some r) ∧
      r.size = [(bytes "integer", bytes ", "), (bytes "float", bytes " ,"),
        (bytes "string", ([] : List Nat))].length ∧
      r.entries.length = [(bytes "integer", bytes ", "), (bytes "float", bytes " ,"),
        (bytes "string", ([] : List Nat))].length :=
  ⟨by decide,
    csvp_create_format_size (bytes " ") [(bytes "integer", bytes ", "),
      (bytes "float", bytes " ,"), (bytes "string", [])]
      (by decide) (by decide) (by decide) (by decide) (by decide)⟩

/-- C7 fails, as stated, on a token that is longer than a keyword it begins
with: for the descriptor `"integers,floats"` `csvp_create_format` gives the first
token the type Integer and the second the type Float. -/
theorem csvp_create_format_longer_token :
    csvp_create_format (bytes "integers,floats") =
      some (some { size := 2, entries := [.v_int 0, .v_float 0] }) := by
  decide

/-- C7 (amended): keyword matching is case-sensitive and looks at the beginning
of the token.  For every descriptor made of non-empty tokens without comma and
space, separated by single commas, `csvp_create_format` returns a record whose
entries have, in order, the types of the first 100 tokens; the type of a token is
Integer exactly when the token begins with `integer`, Float exactly when it
begins with `float`, and String for every other token. -/
theorem csvp_create_format_types (tokens : List (List Nat))
    (htok : ∀ t ∈ tokens, t ≠ [] ∧ ∀ c ∈ t, c ≠ 44 ∧ c ≠ 32 ∧ c ≠ 0) (hne : tokens ≠ []) :
    (∃ r, csvp_create_format (csv_line tokens) = some (some r) ∧
      r.entries.map csvp_entry_t.type = (tokens.map token_type).take MAX_ENTRIES) ∧
    ∀ t : List Nat,
      (token_type t = .CSVP_INTEGER_TYPE ↔ t.take 7 = bytes "integer") ∧
      (token_type t = .CSVP_FLOAT_TYPE ↔ t.take 5 = bytes "float") ∧
      (token_type t = .CSVP_STRING_TYPE ↔
        t.take 7 ≠ bytes "integer" ∧ t.take 5 ≠ bytes "float") := by
  constructor
  · have hloop := csvp_create_format_loop_csv tokens [] ((csv_line tokens).length + 1) htok
      (by omega)
    have hlen : ¬ ([] ++ (tokens.map token_type).take (MAX_ENTRIES - ([] : List
        csvp_type_t).length)).length ≤ 0 := by
      cases tokens with
      | nil => exact absurd rfl hne
      | cons t ts => simp [MAX_ENTRIES]
    rw [csvp_create_format_of_loop _ _ hloop, if_neg hlen]
    refine ⟨_, rfl, ?_⟩
    simp only [List.nil_append, List.length_nil, Nat.sub_zero]
    exact map_type_init _
  · intro t
    unfold token_type
    by_cases h7 : t.take 7 = bytes "integer"
    · have h5 : t.take 5 ≠ bytes "float" := by
        intro h5
        have h := congrArg (List.take 1) h7
        have h' := congrArg (List.take 1) h5
        rw [List.take_take] at h h'
        simp only [Nat.min_def] at h h'
        rw [show (if 1 ≤ 7 then 1 else 7) = 1 from rfl] at h
        rw [show (if 1 ≤ 5 then 1 else 5) = 1 from rfl] at h'
        rw [h] at h'
        exact absurd h' (by decide)
      simp [h7, h5]
    · by_cases h5 : t.take 5 = bytes "float"
      · simp [h7, h5]
      · simp [h7, h5]

/-- C7 (amended), at the descriptor
`"Integer,integers,floats,int,string,name,integer,float"`. -/
theorem csvp_create_format_types_witness :
    csv_line [bytes "Integer", bytes "integers", bytes "floats", bytes "int", bytes "string",
      bytes "name", bytes "integer", bytes "float"] =
      bytes "Integer,integers,floats,int,string,name,integer,float" ∧
    (List.map token_type [bytes "Integer", bytes "integers", bytes "floats", bytes "int",
      bytes "string", bytes "name", bytes "integer", bytes "float"]).take MAX_ENTRIES =
      [.CSVP_STRING_TYPE, .CSVP_INTEGER_TYPE, .CSVP_FLOAT_TYPE, .CSVP_STRING_TYPE,
        .CSVP_STRING_TYPE, .CSVP_STRING_TYPE, .CSVP_INTEGER_TYPE, .CSVP_FLOAT_TYPE] ∧
    ∃ r, csvp_create_format (csv_line [bytes "Integer", bytes "integers", bytes "floats",
        bytes "int", bytes "string", bytes "name", bytes "integer", bytes "float"]) =
          some (some r) ∧
      r.entries.map csvp_entry_t.type =
        (List.map token_type [bytes "Integer", bytes "integers", bytes "floats", bytes "int",
          bytes "string", bytes "name", bytes "integer", bytes "float"]).take MAX_ENTRIES :=
  ⟨by decide, by decide,
    (csvp_create_format_types [bytes "Integer", bytes "integers", bytes "floats", bytes "int",
      bytes "string", bytes "name", bytes "integer", bytes "float"] (by decide) (by decide)).1⟩

/-- C8: allocation succeeding, for every descriptor (the bytes of a C string, so
without NUL) `csvp_create_format` returns; it returns `NULL` exactly when the
descriptor holds no byte other than `,` and space (the empty descriptor
included), and otherwise a record whose size is at least 1 and at most 100 (and
is the number of its entries). -/
theorem csvp_create_format_null_iff (desc : List Nat) (h0 : ∀ c ∈ desc, c ≠ 0) :
    ∃ res, csvp_create_format desc = some res ∧
      (res = none ↔ ∀ c ∈ desc, c = 44 ∨ c = 32) ∧
      ∀ r, res = some r → 1 ≤ r.size ∧ r.size ≤ 100 ∧ r.entries.length = r.size :=
  csvp_create_format_null desc h0

/-- C8, at the descriptors `", ,"` (no format) and `" ,name,"` (a record). -/
theorem csvp_create_format_null_iff_witness :
    (∃ res, csvp_create_format (bytes ", ,") = some res ∧
      (res = none ↔ ∀ c ∈ bytes ", ,", c = 44 ∨ c = 32) ∧
      ∀ r, res = some r → 1 ≤ r.size ∧ r.size ≤ 100 ∧ r.entries.length = r.size) ∧
    (∃ res, csvp_create_format (bytes " ,name,") = some res ∧
      (res = none ↔ ∀ c ∈ bytes " ,name,", c = 44 ∨ c = 32) ∧
      ∀ r, res = some r → 1 ≤ r.size ∧ r.size ≤ 100 ∧ r.entries.length = r.size) ∧
    csvp_create_format (bytes ", ,") = some none ∧
    csvp_create_format (bytes " ,name,") =
      some (some { size := 1, entries := [.v_string csvp_string_init] }) :=
  ⟨csvp_create_format_null_iff (bytes ", ,") (by decide),
    csvp_create_format_null_iff (bytes " ,name,") (by decide), by decide, by decide⟩

/-- C9: decoding is idempotent on the record.  For every stream and every valid
record, the first decode returns a record `r`, and decoding the same stream again
into `r` returns `r` itself: every entry (type, number, bytes and capacity of the
string block) is what it was after the first decode, and so are the stream left
and the result. -/
theorem csvp_next_record_idempotent (fd : List Nat) (record : csvp_record_t)
    (hok : csvp_record_ok record) :
    ∃ fd' r n, csvp_next_record fd record = some (fd', r, n) ∧
      csvp_next_record fd r = some (fd', r, n) :=
  csvp_next_record_twice fd record hok

/-- C9, at the stream `"x,7,1.5,a long string value\n"`, whose decode
resynchronises after `x` and grows the string block. -/
theorem csvp_next_record_idempotent_witness :
    csvp_record_ok sample_record ∧
    ∃ fd' r n, csvp_next_record (bytes "x,7,1.5,a long string value\n") sample_record =
        some (fd', r, n) ∧
      csvp_next_record (bytes "x,7,1.5,a long string value\n") r = some (fd', r, n) :=
  ⟨by decide,
    csvp_next_record_idempotent (bytes "x,7,1.5,a long string value\n") sample_record
      (by decide)⟩

/-- C10: `csvp_check_integer` accepts every slice of the integer grammar.  The
slice is `n` spaces, then either nothing or an optional single `-` (`neg`) and
one or more decimal digits `ds`, then `m` spaces, then `tail`, which is empty
(end of line) or starts with `,`.  For every such slice shorter than 2^31 bytes
and every `buffer_len` that covers it the classifier returns true. -/
theorem csvp_check_integer_accepts (n m : Nat) (neg : Bool) (ds tail : List Nat)
    (buffer_len : Nat)
    (hds : ∀ c ∈ ds, is_digit c = true) (hbody : ds ≠ [] ∨ neg = false)
    (htail : tail = [] ∨ tail.head? = some 44)
    (hlen : (List.replicate n 32 ++ ((if neg then [45] else []) ++
      (ds ++ (List.replicate m 32 ++ tail)))).length < 2 ^ 31)
    (hcov : (List.replicate n 32 ++ ((if neg then [45] else []) ++
      (ds ++ (List.replicate m 32 ++ tail)))).length ≤ buffer_len)
    (hsz : buffer_len < SIZE_RANGE) :
    csvp_check_integer (List.replicate n 32 ++ ((if neg then [45] else []) ++
      (ds ++ (List.replicate m 32 ++ tail)))) buffer_len = true := by
  rw [csvp_check_integer_eq_list _ _ hlen hcov hsz]
  apply check_integer_list_accepts n m neg ds tail hds hbody
  rcases htail with h | h
  · left; rw [h]; rfl
  · right
    cases tail with
    | nil => simp at h
    | cons c cs =>
      simp only [List.head?_cons, Option.some.injEq] at h
      rw [rd_cons_zero, h]

/-- C10, at the slices `""`, `"42"`, `"-7"` and `"  3  "`, and at `"42,x"`. -/
theorem csvp_check_integer_accepts_witness :
    csvp_check_integer (bytes "") 0 = true ∧ csvp_check_integer (bytes "42") 2 = true ∧
    csvp_check_integer (bytes "-7") 2 = true ∧ csvp_check_integer (bytes "  3  ") 5 = true ∧
    csvp_check_integer (bytes "42,x") 4 = true :=
  ⟨csvp_check_integer_accepts 0 0 false [] [] 0 (by decide) (by decide) (by decide)
      (by decide) (by decide) (by decide),
   csvp_check_integer_accepts 0 0 false (bytes "42") [] 2 (by decide) (by decide) (by decide)
      (by decide) (by decide) (by decide),
   csvp_check_integer_accepts 0 0 true (bytes "7") [] 2 (by decide) (by decide) (by decide)
      (by decide) (by decide) (by decide),
   csvp_check_integer_accepts 2 2 false (bytes "3") [] 5 (by decide) (by decide) (by decide)
      (by decide) (by decide) (by decide),
   csvp_check_integer_accepts 0 0 false (bytes "42") (bytes ",x") 4 (by decide) (by decide)
      (by decide) (by decide) (by decide) (by decide)⟩

/-! ## The grammar of the classifiers and the integer that is stored -/

/-- C11 (counterexample): the slice `"-"` is accepted by `csvp_check_integer`,
although its leading field, the single byte `-`, is not of the form spaces, then
nothing or an optional `-` followed by one or more digits and spaces. -/
theorem csvp_check_integer_lone_minus :
    csvp_check_integer (bytes "-") 1 = true ∧ leading_field (bytes "-") = [45] ∧
      ¬ ∃ (n : Nat) (neg : Bool) (ds : List Nat) (m : Nat), (∀ c ∈ ds, is_digit c = true) ∧
        (ds ≠ [] ∨ neg = false) ∧
        [45] = List.replicate n 32 ++ (sign_bytes neg ++ (ds ++ List.replicate m 32)) := by
  refine ⟨by decide, by decide, ?_⟩
  rintro ⟨n, neg, ds, m, hds, hbody, heq⟩
  cases n with
  | succ k => simp [List.replicate_succ] at heq
  | zero =>
    cases neg with
    | true =>
      simp only [sign_bytes, if_true, List.replicate_zero, List.nil_append, List.cons_append,
        List.cons.injEq, true_and] at heq
      have hds0 : ds = [] := (List.append_eq_nil.1 heq.symm).1
      rcases hbody with h | h
      · exact h hds0
      · exact absurd h (by decide)
    | false =>
      simp only [sign_bytes, Bool.false_eq_true, if_false, List.replicate_zero,
        List.nil_append] at heq
      cases ds with
      | nil =>
        cases m with
        | zero => simp at heq
        | succ j => simp [List.replicate_succ] at heq
      | cons d ds' =>
        simp only [List.cons_append, List.cons.injEq] at heq
        have := hds d (List.mem_cons_self _ _)
        rw [← heq.1] at this
        exact absurd this (by decide)

/-- C11 (amended): `csvp_check_integer` rejects every slice whose leading field
(the bytes before its first comma or its end) is not of the form spaces, an
optional single `-`, zero or more digits, spaces.  The slice is shorter than
2^31 bytes and `buffer_len` covers it. -/
theorem csvp_check_integer_rejects (buffer : List Nat) (buffer_len : Nat)
    (hlen : buffer.length < 2 ^ 31) (hcov : buffer.length ≤ buffer_len)
    (hsz : buffer_len < SIZE_RANGE)
    (hform : ¬ ∃ (n : Nat) (neg : Bool) (ds : List Nat) (m : Nat),
      (∀ c ∈ ds, is_digit c = true) ∧
      leading_field buffer =
        List.replicate n 32 ++ (sign_bytes neg ++ (ds ++ List.replicate m 32))) :
    csvp_check_integer buffer buffer_len = false := by
  rw [csvp_check_integer_eq_list buffer buffer_len hlen hcov hsz]
  cases h : check_integer_list buffer with
  | false => rfl
  | true => exact absurd (check_integer_list_form buffer h) hform

/-- C11 (witness): the slices `"3.5"` and `"12a"` are rejected. -/
theorem csvp_check_integer_rejects_witness :
    csvp_check_integer (bytes "3.5") 3 = false ∧ csvp_check_integer (bytes "12a") 3 = false :=
  ⟨csvp_check_integer_rejects (bytes "3.5") 3 (by decide) (by decide) (by decide)
      (fun h => absurd ((check_integer_list_iff (bytes "3.5")).2 h) (by decide)),
   csvp_check_integer_rejects (bytes "12a") 3 (by decide) (by decide) (by decide)
      (fun h => absurd ((check_integer_list_iff (bytes "12a")).2 h) (by decide))⟩

/-- C12: `csvp_check_float` returns true exactly when the leading field of the
slice (the bytes before its first comma or its end) is zero or more spaces
followed by an optional single `-` or `.`, a possibly empty run of digits and
optionally a `.` followed by a possibly empty run of digits (all of which may be
absent).  The slice is shorter than 2^31 bytes and `buffer_len` covers it. -/
theorem csvp_check_float_grammar (buffer : List Nat) (buffer_len : Nat)
    (hlen : buffer.length < 2 ^ 31) (hcov : buffer.length ≤ buffer_len) :
    csvp_check_float buffer buffer_len = true ↔
      ∃ (n : Nat) (lead d1 frac : List Nat), (lead = [] ∨ lead = [45] ∨ lead = [46]) ∧
        (∀ c ∈ d1, is_digit c = true) ∧
        (frac = [] ∨ ∃ d2 : List Nat, (∀ c ∈ d2, is_digit c = true) ∧ frac = 46 :: d2) ∧
        leading_field buffer = List.replicate n 32 ++ (lead ++ (d1 ++ frac)) := by
  rw [csvp_check_float_eq_list buffer buffer_len hlen hcov]
  exact check_float_list_iff buffer

/-- C12 (witness): the slices `""`, `"3.14"`, `"-.5"` and `"-3"` are accepted. -/
theorem csvp_check_float_grammar_witness :
    csvp_check_float (bytes "") 0 = true ∧ csvp_check_float (bytes "3.14") 4 = true ∧
      csvp_check_float (bytes "-.5") 3 = true ∧ csvp_check_float (bytes "-3") 2 = true :=
  ⟨(csvp_check_float_grammar (bytes "") 0 (by decide) (by decide)).2
      ⟨0, [], [], [], Or.inl rfl, by decide, Or.inl rfl, by decide⟩,
   (csvp_check_float_grammar (bytes "3.14") 4 (by decide) (by decide)).2
      ⟨0, [], [51], [46, 49, 52], Or.inl rfl, by decide,
        Or.inr ⟨[49, 52], by decide, rfl⟩, by decide⟩,
   (csvp_check_float_grammar (bytes "-.5") 3 (by decide) (by decide)).2
      ⟨0, [45], [], [46, 53], Or.inr (Or.inl rfl), by decide,
        Or.inr ⟨[53], by decide, rfl⟩, by decide⟩,
   (csvp_check_float_grammar (bytes "-3") 2 (by decide) (by decide)).2
      ⟨0, [45], [51], [], Or.inr (Or.inl rfl), by decide, Or.inl rfl, by decide⟩⟩

/-- C13: `csvp_check_float` returns false for every slice whose leading field is
optional spaces, a non-empty body with no space and no comma in it, and one or
more spaces before the comma or the end; `csvp_check_integer` returns true for
such a slice when the body is an optional `-` followed by one or more digits.
The slice is shorter than 2^31 bytes and `buffer_len` covers it. -/
theorem csvp_check_float_trailing_space (buffer : List Nat) (buffer_len a m : Nat)
    (body : List Nat) (hlen : buffer.length < 2 ^ 31) (hcov : buffer.length ≤ buffer_len)
    (hsz : buffer_len < SIZE_RANGE)
    (hfield : leading_field buffer =
      List.replicate a 32 ++ (body ++ List.replicate (m + 1) 32))
    (hne : body ≠ []) (hb : ∀ c ∈ body, c ≠ 32 ∧ c ≠ 44) :
    csvp_check_float buffer buffer_len = false ∧
      ∀ (neg : Bool) (ds : List Nat), ds ≠ [] → (∀ c ∈ ds, is_digit c = true) →
        body = sign_bytes neg ++ ds → csvp_check_integer buffer buffer_len = true := by
  constructor
  · rw [csvp_check_float_eq_list buffer buffer_len hlen hcov]
    exact check_float_list_trailing_space buffer a m body hfield hne (fun c hc => (hb c hc).1)
  · intro neg ds _ hds hbody
    rw [csvp_check_integer_eq_list buffer buffer_len hlen hcov hsz, check_integer_list_iff]
    refine ⟨a, neg, ds, m + 1, hds, ?_⟩
    rw [hfield, hbody, List.append_assoc]

/-- C13 (witness): the slice `"3.14 ,"` is rejected by the float classifier. -/
theorem csvp_check_float_trailing_space_witness :
    csvp_check_float (bytes "3.14 ,") 6 = false :=
  (csvp_check_float_trailing_space (bytes "3.14 ,") 6 0 0 (bytes "3.14") (by decide)
    (by decide) (by decide) (by decide) (by decide) (by decide)).1

/-- C17: for every slice that `csvp_check_integer` accepts and whose leading
field denotes an integer that fits `int`, `csvp_write_integer` on an integer
entry stores the integer denoted by the optional `-` and the digits of the field,
which is 0 when the field has no digit, and the entry keeps its type.  The slice
is shorter than 2^31 bytes and `buffer_len` covers it. -/
theorem csvp_write_integer_value (old : Int) (buffer : List Nat) (buffer_len : Nat)
    (hlen : buffer.length < 2 ^ 31) (hcov : buffer.length ≤ buffer_len)
    (hsz : buffer_len < SIZE_RANGE) (hacc : csvp_check_integer buffer buffer_len = true)
    (hlo : -(2 ^ 31 : Int) ≤ int_denoted (leading_field buffer))
    (hhi : int_denoted (leading_field buffer) < (2 ^ 31 : Int)) :
    ∃ (e : csvp_entry_t) (r : Int),
      csvp_write_integer (.v_int old) buffer buffer_len = some (e, r) ∧
      e = .v_int (int_denoted (leading_field buffer)) ∧
      e.type = (csvp_entry_t.v_int old).type ∧
      ((∀ c ∈ leading_field buffer, is_digit c = false) → e = .v_int 0) := by
  rw [csvp_check_integer_eq_list buffer buffer_len hlen hcov hsz] at hacc
  obtain ⟨n, neg, ds, m, hds, hf⟩ := check_integer_list_form buffer hacc
  obtain ⟨rest, hbuf, hrest, _⟩ := leading_field_split buffer
  have hval := int_denoted_of_form n m neg ds hds
  rw [← hf] at hval
  have hatoi : atoi buffer = int_denoted (leading_field buffer) := by
    rw [hval] at hlo hhi ⊢
    have := atoi_of_form n m neg ds rest hds hrest hlo hhi
    rw [← this]
    conv_lhs => rw [hbuf, hf]
    simp only [List.append_assoc]
  refine ⟨.v_int (int_denoted (leading_field buffer)),
    int_of_size (field_end buffer buffer_len), ?_, rfl, rfl, ?_⟩
  · unfold csvp_write_integer
    rw [hatoi]
  · intro hnd
    have hds0 : ds = [] := by
      cases ds with
      | nil => rfl
      | cons d ds' =>
        have h1 := hds d (List.mem_cons_self _ _)
        have h2 := hnd d (by rw [hf]; simp)
        rw [h1] at h2
        exact absurd h2 (by decide)
    rw [hval, hds0]
    cases neg <;> rfl

/-- C17 (witness): the slice `" -42 ,7"` stores -42 in an integer entry. -/
theorem csvp_write_integer_value_witness :
    ∃ (e : csvp_entry_t) (r : Int),
      csvp_write_integer (.v_int 5) (bytes " -42 ,7") 7 = some (e, r) ∧
      e = .v_int (int_denoted (leading_field (bytes " -42 ,7"))) ∧
      e.type = (csvp_entry_t.v_int 5).type ∧
      ((∀ c ∈ leading_field (bytes " -42 ,7"), is_digit c = false) → e = .v_int 0) :=
  csvp_write_integer_value 5 (bytes " -42 ,7") 7 (by decide) (by decide) (by decide)
    (by decide) (by decide) (by decide)

/-! ## The string buffer -/

/-- C14 (counterexample): a string entry that holds `"old"` still holds `"old"`
after `csvp_write_string` on the slice `",x"`, whose leading field is empty. -/
theorem csvp_write_string_empty_field_stale :
    csvp_write_string (.v_string { data := bytes "old" ++ [0], size := 0, capacity := 8 })
        (bytes ",x") 2 =
      some (.v_string { data := bytes "old" ++ [0], size := 0, capacity := 8 }, 0) ∧
    leading_field (bytes ",x") = [] ∧ c_string (bytes "old" ++ [0]) = bytes "old" := by
  decide

/-- C14 (amended): for every string entry with a block of non-zero capacity and
every slice whose leading field (the bytes before its first comma or its end) is
not empty, after `csvp_write_string` the block holds exactly the bytes of that
field followed by one terminator byte; when the field is empty the entry is left
as it was.  `buffer_len` covers the slice. -/
theorem csvp_write_string_overwrites (s : csvp_string_t) (buffer : List Nat) (buffer_len : Nat)
    (hcap : s.capacity ≠ 0) (hlen : buffer.length < 2 ^ 63)
    (hcov : buffer.length ≤ buffer_len) :
    ∃ (s' : csvp_string_t) (r : Int),
      csvp_write_string (.v_string s) buffer buffer_len = some (.v_string s', r) ∧
      (leading_field buffer ≠ [] →
        s'.data.take ((leading_field buffer).length + 1) = leading_field buffer ++ [0] ∧
        c_string s'.data = leading_field buffer) ∧
      (leading_field buffer = [] → s' = s) := by
  have hfl : (leading_field buffer).length ≤ buffer.length := length_takeWhile_le _ _
  obtain ⟨s', r, hw, _, _, _, _, hdata⟩ :=
    csvp_string_write_spec s buffer (leading_field buffer).length hcap (by omega)
  refine ⟨s', int_of_size (leading_field buffer).length, ?_, ?_, ?_⟩
  · unfold csvp_write_string
    simp only [field_end_covered buffer buffer_len hcov, hw]
  · intro hne
    have hpos : (leading_field buffer).length ≠ 0 := fun h => hne (List.length_eq_zero.1 h)
    rw [hdata, if_neg hpos, take_leading_field]
    constructor
    · rw [List.take_append_eq_append_take]
      simp
    · exact c_string_append_nul _ _ (fun c hc => (mem_leading_field hc).2)
  · intro he
    have hw' := hw
    rw [he] at hw'
    simp only [List.length_nil, csvp_string_write, hcap, if_false, if_true, Option.some.injEq,
      Prod.mk.injEq] at hw'
    exact hw'.1.symm

/-- C14 (witness): the slice `"abc,x"` written over a string entry that holds `"old!"`. -/
theorem csvp_write_string_overwrites_witness :
    ∃ (s' : csvp_string_t) (r : Int),
      csvp_write_string (.v_string { data := bytes "old!" ++ [0], size := 0, capacity := 8 })
        (bytes "abc,x") 5 = some (.v_string s', r) ∧
      (leading_field (bytes "abc,x") ≠ [] →
        s'.data.take ((leading_field (bytes "abc,x")).length + 1) =
          leading_field (bytes "abc,x") ++ [0] ∧
        c_string s'.data = leading_field (bytes "abc,x")) ∧
      (leading_field (bytes "abc,x") = [] →
        s' = { data := bytes "old!" ++ [0], size := 0, capacity := 8 }) :=
  csvp_write_string_overwrites { data := bytes "old!" ++ [0], size := 0, capacity := 8 }
    (bytes "abc,x") 5 (by decide) (by decide) (by decide)

/-- C15: for every string buffer of capacity c ≥ 1 and every write of n ≥ 1 bytes
(n below 2^63, as the size of an object in memory is), `csvp_string_write`
returns and leaves the capacity at c·2^k for the least k with c·2^k > n: the
capacity is unchanged when c > n, and it exceeds the length of the content. -/
theorem csvp_string_write_doubles (str : csvp_string_t) (data : List Nat) (n : Nat)
    (hc : 1 ≤ str.capacity) (hn1 : 1 ≤ n) (hn : n < 2 ^ 63) :
    ∃ (s : csvp_string_t) (r : Int) (k : Nat), csvp_string_write str data n = some (s, r) ∧
      s.capacity = str.capacity * 2 ^ k ∧ n < str.capacity * 2 ^ k ∧
      (∀ j, j < k → str.capacity * 2 ^ j ≤ n) ∧
      (n < str.capacity → s.capacity = str.capacity) ∧
      (c_string s.data).length < s.capacity := by
  obtain ⟨k, h1, h2, h3⟩ := csvp_string_grow_least n hn 64 str.capacity (by omega)
    (by
      have : str.capacity * 2 ^ 64 ≥ 1 * 2 ^ 64 := Nat.mul_le_mul_right _ (by omega)
      omega)
  refine ⟨{ str with data := data.take n ++ 0 :: str.data.drop (n + 1),
                     capacity := str.capacity * 2 ^ k }, int_of_size n, k, ?_, rfl, h2, h3, ?_, ?_⟩
  · have hcap : str.capacity ≠ 0 := by omega
    have h0 : n ≠ 0 := by omega
    simp only [csvp_string_write, hcap, h0, if_false, h1]
  · intro hlt
    cases k with
    | zero => simp
    | succ i =>
      have := h3 0 (by omega)
      simp at this
      omega
  · show (c_string (data.take n ++ 0 :: str.data.drop (n + 1))).length < str.capacity * 2 ^ k
    unfold c_string
    rw [takeWhile_append_sep _ _ _ _ (by decide)]
    have h4 := length_takeWhile_le (fun c => c != 0) (data.take n)
    have h5 : (data.take n).length ≤ n := by simp
    omega

/-- C15 (witness): 20 bytes written into a block of the default capacity 8. -/
theorem csvp_string_write_doubles_witness :
    ∃ (s : csvp_string_t) (r : Int) (k : Nat),
      csvp_string_write csvp_string_init (List.replicate 20 97) 20 = some (s, r) ∧
      s.capacity = csvp_string_init.capacity * 2 ^ k ∧ 20 < csvp_string_init.capacity * 2 ^ k ∧
      (∀ j, j < k → csvp_string_init.capacity * 2 ^ j ≤ 20) ∧
      (20 < csvp_string_init.capacity → s.capacity = csvp_string_init.capacity) ∧
      (c_string s.data).length < s.capacity :=
  csvp_string_write_doubles csvp_string_init (List.replicate 20 97) 20 (by decide) (by decide)
    (by decide)

/-! ## The line reader -/

/-- C19: for every stream and every `buffer_size ≥ 1`, `csvp_getline` equals its
reference definition: with L the number of bytes before the first newline, NUL
or end of the stream, it stores the first min(L, buffer_size−1) bytes, returns
that number and consumes the terminator only when L < buffer_size−1.  Hence, on
a line of 1023 or more bytes, `csvp_next_record` takes the first 1023 bytes and
returns 1023, the rest of the line stays in the stream, and the next call reads
and decodes that rest as a record of its own. -/
theorem csvp_getline_refines (buffer_size : Nat) (fd : List Nat) (hbs : 1 ≤ buffer_size) :
    csvp_getline buffer_size fd = some (csvp_getline_reference buffer_size fd) ∧
    ∀ record, csvp_record_ok record → 1023 ≤ (first_line fd).length →
      ∃ r1 r2, csvp_next_record fd record = some (fd.drop 1023, r1, 1023) ∧
        csvp_decode_line (fd.take 1023) record = some r1 ∧
        first_line (fd.drop 1023) = (first_line fd).drop 1023 ∧
        csvp_next_record (fd.drop 1023) r1 =
          some ((csvp_getline_reference RECORD_BUFSIZE (fd.drop 1023)).2.2, r2,
            ((csvp_getline_reference RECORD_BUFSIZE (fd.drop 1023)).2.1 : Int)) ∧
        csvp_decode_line (csvp_getline_reference RECORD_BUFSIZE (fd.drop 1023)).1 r1 =
          some r2 := by
  refine ⟨csvp_getline_eq_reference buffer_size fd hbs, ?_⟩
  intro record hok hL
  obtain ⟨r1, h1, hl1, hok1, _⟩ := csvp_next_record_spec fd record hok
  have hnot : ¬ (first_line fd).length < 1023 := by omega
  rw [if_neg hnot, Nat.min_eq_right hL] at h1
  rw [Nat.min_eq_right hL] at hl1
  obtain ⟨r2, h2, hl2, _⟩ := csvp_next_record_spec (fd.drop 1023) r1 hok1
  have href : csvp_getline_reference RECORD_BUFSIZE (fd.drop 1023) =
      ((first_line (fd.drop 1023)).take 1023, min (first_line (fd.drop 1023)).length 1023,
        (fd.drop 1023).drop (if (first_line (fd.drop 1023)).length < 1023
          then (first_line (fd.drop 1023)).length + 1 else 1023)) := by
    have a := csvp_getline_eq_reference RECORD_BUFSIZE (fd.drop 1023) (by decide)
    rw [csvp_getline_spec] at a
    exact (Option.some.inj a).symm
  refine ⟨r1, r2, h1, ?_, first_line_drop fd 1023 hL, ?_, ?_⟩
  · unfold csvp_decode_line
    rw [take_first_line fd 1023 hL]
    have : ((first_line fd).take 1023).length = 1023 := by
      rw [List.length_take]; omega
    rw [this]
    exact hl1
  · rw [href]
    exact h2
  · rw [href]
    unfold csvp_decode_line
    have : ((first_line (fd.drop 1023)).take 1023).length =
        min (first_line (fd.drop 1023)).length 1023 := by
      rw [List.length_take, Nat.min_comm]
    rw [this]
    exact hl2

/-- C19 (witness): with a buffer of 4 bytes, the line `"abcdef"` loses its first
3 bytes and keeps its terminator, the line `"ab"` is taken with its terminator. -/
theorem csvp_getline_refines_witness :
    csvp_getline 4 (bytes "abcdef\nxy") = some (bytes "abc", 3, bytes "def\nxy") ∧
    csvp_getline 4 (bytes "ab\nxy") = some (bytes "ab", 2, bytes "xy") :=
  ⟨(csvp_getline_refines 4 (bytes "abcdef\nxy") (by decide)).1.trans (by decide),
   (csvp_getline_refines 4 (bytes "ab\nxy") (by decide)).1.trans (by decide)⟩

/-! ## The format compiler -/

/-- C16: for every descriptor (a C string, so without a NUL in it),
`csvp_create_format` equals its reference definition: the descriptor is split at
its commas, the segments that are empty or made only of spaces are discarded,
the leading spaces of the others are stripped, each is mapped to Integer when it
begins with `integer`, to Float when it begins with `float`, to String
otherwise, and the first 100 results are kept in order; there is no format when
none is left. -/
theorem csvp_create_format_refines (desc : List Nat) (h0 : ∀ c ∈ desc, c ≠ 0) :
    csvp_create_format desc = some (csvp_create_format_reference desc) :=
  csvp_create_format_eq_reference desc h0

/-- C16 (witness): the descriptor `"integer, float, string, name"` gives the
format Integer, Float, String, String. -/
theorem csvp_create_format_refines_witness :
    csvp_create_format (bytes "integer, float, string, name") =
      some (some { size := 4, entries := [.v_int 0, .v_float 0, .v_string csvp_string_init,
        .v_string csvp_string_init] }) ∧
    segment_types (bytes "integer, float, string, name") =
      [.CSVP_INTEGER_TYPE, .CSVP_FLOAT_TYPE, .CSVP_STRING_TYPE, .CSVP_STRING_TYPE] :=
  ⟨(csvp_create_format_refines (bytes "integer, float, string, name") (by decide)).trans
      (by decide), by decide⟩

/-! ## The diagnostic log -/

/-- C18: the log does not drop the oldest message at 20 pending messages, because
`csvp_log_full` compares the size with `CSVP_LOG_MESSAGE_CAPACITY` (256) and not
with `CSVP_LOG_STACK_CAPACITY` (20).  After the 21 messages `"A"`, ..., `"U"` are
pushed with no poll in between, `csvp_log_stack_size` is 21; the first 20 polls
return `"U"`, `"T"`, ..., `"B"`, after them `csvp_log_had_error` is still true,
and the 21st poll returns `"U"` a second time, not `NULL`. -/
theorem csvp_log_overfull :
    (csvp_log_push_all csvp_log_init ((List.range 21).map (fun i => [65 + i]))).map
        (fun log => log.csvp_log_stack_size) = some 21 ∧
    ((csvp_log_push_all csvp_log_init ((List.range 21).map (fun i => [65 + i]))).bind
        (csvp_log_poll 20)).map (fun p => (p.2, csvp_log_had_error p.1)) =
      some ((List.range 20).map (fun i => some [85 - i]), true) ∧
    ((csvp_log_push_all csvp_log_init ((List.range 21).map (fun i => [65 + i]))).bind
        (csvp_log_poll 21)).map (fun p => (p.2, csvp_log_had_error p.1)) =
      some ((List.range 20).map (fun i => some [85 - i]) ++ [some [85]], false) := by
  decide

/-! ## The decode loop stays in bounds -/

/-- C20: for every valid record and every NUL-terminated line buffer of length
`len < 1024`, the decode loop of `csvp_next_record` ends, every index of the line
buffer that it, the classifiers and the coercers read is at most `len` (the place
of the terminating NUL), and every index of `record->entries` that it reads or
writes is less than `record->size`. -/
theorem csvp_next_record_loop_in_bounds (line : List Nat) (record : csvp_record_t)
    (hok : csvp_record_ok record) (hlen : line.length < RECORD_BUFSIZE) :
    ∃ r reads entries,
      csvp_next_record_loop line line.length RECORD_BUFSIZE 0 0 record = some r ∧
      csvp_next_record_loop_reads line line.length RECORD_BUFSIZE 0 0 record =
        some (reads, entries) ∧
      (∀ x ∈ reads, x ≤ line.length) ∧ ∀ k ∈ entries, k < record.size := by
  unfold RECORD_BUFSIZE at hlen
  obtain ⟨r, hr, _⟩ := csvp_next_record_loop_frame line line.length (by omega) RECORD_BUFSIZE
    0 0 record hok (by omega) (by unfold RECORD_BUFSIZE; omega)
  obtain ⟨reads, entries, h1, h2, h3⟩ := csvp_next_record_loop_reads_bounds line line.length
    (by omega) RECORD_BUFSIZE 0 0 record hok (by omega) (by unfold RECORD_BUFSIZE; omega)
  exact ⟨r, reads, entries, hr, h1, h2, h3⟩

/-- C20 (witness): the line `"1, 2.5 ,hello"` decoded into a record of the format
Integer, Float, String. -/
theorem csvp_next_record_loop_in_bounds_witness :
    ∃ r reads entries,
      csvp_next_record_loop (bytes "1, 2.5 ,hello") (bytes "1, 2.5 ,hello").length
        RECORD_BUFSIZE 0 0 sample_record = some r ∧
      csvp_next_record_loop_reads (bytes "1, 2.5 ,hello") (bytes "1, 2.5 ,hello").length
        RECORD_BUFSIZE 0 0 sample_record = some (reads, entries) ∧
      (∀ x ∈ reads, x ≤ (bytes "1, 2.5 ,hello").length) ∧
      ∀ k ∈ entries, k < sample_record.size :=
  csvp_next_record_loop_in_bounds (bytes "1, 2.5 ,hello") sample_record (by decide) (by decide)

end Csvp
